import Mathlib

/-! ACM-Cookbook: disjoint set union and modular matrices.

A shallow embedding of `headers/DSU.h` and `headers/MatrixMod.h`, followed by the
properties of the two structures that their documentation states.

Conventions of the embedding of `DSU.h`:

* `std::vector<int>` is a `List Nat`: every value the structure stores is an index below
  the element count or a set size bounded by it, so `int` arithmetic never wraps.
* Reading a vector outside its bounds is undefined behaviour in the source; the embedding
  returns `none` there.
* The recursion of `find` is bounded by an explicit `fuel` (the available call depth);
  running out of fuel is `none` as well.
-/

/-- The two vectors of `struct DSU`: `pa` (parent links) and `sz` (set sizes, meaningful at
roots). -/
structure DSU where
  pa : List Nat
  sz : List Nat
deriving DecidableEq, Repr

namespace DSU

/-- `std::iota(v.begin(), v.end(), 0)`: overwrite the slots of `v` with `0, 1, 2, ...`. -/
def iota (v : List Nat) : List Nat := List.range v.length

/-- `DSU(int n = 0) : pa(n), sz(n, 1) { std::iota(pa.begin(), pa.end(), 0); }` -/
def construct (n : Nat) : DSU :=
  { pa := iota (List.replicate n 0), sz := List.replicate n 1 }

/-- `return pa[i] == i ? i : pa[i] = find(pa[i]);`
The recursive call runs first (on the current state), then its result is stored in
`pa[i]` of the state the call left behind, and returned. -/
def find : Nat → DSU → Nat → Option (Nat × DSU)
  | 0, _, _ => none
  | fuel + 1, s, i =>
    match s.pa[i]? with
    | none => none
    | some p =>
      if p = i then some (i, s)
      else
        match find fuel s p with
        | none => none
        | some (r, s1) => some (r, { s1 with pa := s1.pa.set i r })

/-- `bool unite(int i, int j)`: both roots are looked up, and when they differ the root
with the smaller `sz` is attached to the other one (after the `std::swap`, `i` is the
surviving root), whose `sz` absorbs the attached one. -/
def unite (fuel : Nat) (s : DSU) (i j : Nat) : Option (Bool × DSU) :=
  match find fuel s i with
  | none => none
  | some (i1, s1) =>
    match find fuel s1 j with
    | none => none
    | some (j1, s2) =>
      if i1 ≠ j1 then
        match s2.sz[i1]?, s2.sz[j1]? with
        | some a, some b =>
          -- `if (sz[i] < sz[j]) std::swap(i, j);`
          let i2 := if a < b then j1 else i1
          let j2 := if a < b then i1 else j1
          -- the values of `sz[i]` and `sz[j]` after the swap
          let a2 := if a < b then b else a
          let b2 := if a < b then a else b
          -- `pa[j] = i; sz[i] += sz[j]; return true;`
          some (true, { pa := s2.pa.set j2 i2, sz := s2.sz.set i2 (a2 + b2) })
        | _, _ => none
      else some (false, s2)

/-- `return find(i) == find(j);` with the left operand evaluated first. (C++ leaves the
order of the two lookups open; either order redirects the non-root elements of both
paths to their roots, so the answer and the state left behind do not depend on it.) -/
def same (fuel : Nat) (s : DSU) (i j : Nat) : Option (Bool × DSU) :=
  match find fuel s i with
  | none => none
  | some (ri, s1) =>
    match find fuel s1 j with
    | none => none
    | some (rj, s2) => some (decide (ri = rj), s2)

/-- `return sz[find(i)];` -/
def size (fuel : Nat) (s : DSU) (i : Nat) : Option (Nat × DSU) :=
  match find fuel s i with
  | none => none
  | some (r, s1) =>
    match s1.sz[r]? with
    | none => none
    | some c => some (c, s1)

/-- `void reset(int n1 = 0)`: `pa.assign(n1, 0); sz.assign(n1, 1); std::iota(...)`. -/
def reset (s : DSU) (n1 : Nat) : DSU :=
  let s1 : DSU := { s with pa := List.replicate n1 0 }
  let s2 : DSU := { s1 with sz := List.replicate n1 1 }
  { s2 with pa := iota s2.pa }

/-- The states the public operations can produce from `construct n` when every argument
is an element of `[0, n)` and every call returns. -/
inductive Reachable (n : Nat) : DSU → Prop
  | construct : Reachable n (construct n)
  | find {s s1 : DSU} {fuel i r : Nat} :
      Reachable n s → i < n → find fuel s i = some (r, s1) → Reachable n s1
  | unite {s s1 : DSU} {fuel i j : Nat} {b : Bool} :
      Reachable n s → i < n → j < n → unite fuel s i j = some (b, s1) → Reachable n s1
  | same {s s1 : DSU} {fuel i j : Nat} {b : Bool} :
      Reachable n s → i < n → j < n → same fuel s i j = some (b, s1) → Reachable n s1
  | size {s s1 : DSU} {fuel i c : Nat} :
      Reachable n s → i < n → size fuel s i = some (c, s1) → Reachable n s1

/-- The state of `example_DSU.cpp` after `DSU dsu(10)` and the six calls `unite(0, 1)`,
`unite(1, 4)`, `unite(0, 8)`, `unite(2, 3)`, `unite(3, 9)`, `unite(5, 6)`. -/
def exampleState : DSU :=
  { pa := [0, 0, 2, 2, 0, 5, 5, 7, 0, 2], sz := [4, 1, 3, 1, 1, 2, 1, 1, 1, 1] }

/-- The number of elements of `[0, n)` that `rep` sends to `r`. -/
def classSize (rep : Nat → Nat) (n r : Nat) : Nat :=
  (List.range n).countP (fun k => decide (rep k = r))

/-- The forest invariant of a state with `n` elements, relative to a representative map
`rep` (the root of each element) and a potential `rank` that strictly increases along
parent links: both vectors have length `n`, parents are in range, every element's
representative is a root shared with its parent, each root stores the size of its class,
and a root of rank `h` has at least `2 ^ h` elements. -/
structure Inv (n : Nat) (s : DSU) (rep rank : Nat → Nat) : Prop where
  len_pa : s.pa.length = n
  len_sz : s.sz.length = n
  pa_lt : ∀ i p : Nat, s.pa[i]? = some p → p < n
  rep_pa : ∀ i p : Nat, s.pa[i]? = some p → rep p = rep i
  rank_pa : ∀ i p : Nat, s.pa[i]? = some p → p ≠ i → rank i < rank p
  rep_lt : ∀ i : Nat, i < n → rep i < n
  rep_root : ∀ i : Nat, i < n → s.pa[rep i]? = some (rep i)
  root_rep : ∀ r : Nat, s.pa[r]? = some r → rep r = r
  rank_lt : ∀ i : Nat, i < n → rank i < n
  sz_root : ∀ r : Nat, s.pa[r]? = some r → s.sz[r]? = some (classSize rep n r)
  pow_rank : ∀ r : Nat, s.pa[r]? = some r → 2 ^ rank r ≤ classSize rep n r

/-- The representative map after the root `l` is attached to the root `w`. -/
def mergeRep (rep : Nat → Nat) (w l : Nat) : Nat → Nat :=
  fun k => if rep k = l then w else rep k

/-- The potential after the root `l` is attached to the root `w`. -/
def mergeRank (rank : Nat → Nat) (w l : Nat) : Nat → Nat :=
  fun k => if k = w then max (rank w) (rank l + 1) else rank k

/-- What path compression may do to a state: sizes are kept, and each parent link is
either kept or redirected to the element's representative. -/
structure Compressed (n : Nat) (rep : Nat → Nat) (s s1 : DSU) : Prop where
  sz_eq : s1.sz = s.sz
  len_pa : s1.pa.length = n
  pa_or : ∀ k : Nat, k < n → s1.pa[k]? = s.pa[k]? ∨ s1.pa[k]? = some (rep k)

end DSU

/-! ## Modular matrices: the embedding of `MatrixMod.h`

* `long long` values are integers. Every result of a `long long` addition or
  multiplication is passed through a map `ov`, which says what the machine keeps of it:
  `exact` keeps the integer, `wrap64` keeps its 64-bit two's complement residue.
* `%` is C++ remainder, which truncates towards zero: `Int.tmod`. The division behind it
  traps when the divisor is `0` and when `LLONG_MIN` is divided by `-1`; a trapped
  operation is `none`, and it ends the loop it occurs in.
* `static long long MOD` is the parameter `MOD` of every operation.
* A failed `assert` is `none`.
* The dimensions `R`, `C` and the loop counters are natural numbers.
-/

namespace MatrixMod

/-- Unbounded integer arithmetic: a result is kept as it is. -/
def exact (x : Int) : Int := x

/-- 64-bit two's complement arithmetic: a result is reduced into `[-2^63, 2^63)`. -/
def wrap64 (x : Int) : Int := (x + 2 ^ 63) % 2 ^ 64 - 2 ^ 63

/-- The fields of `struct Matrix`: the rows `e` and the dimensions `R`, `C`. -/
structure Matrix where
  e : List (List Int)
  R : Nat
  C : Nat
deriving DecidableEq, Repr

namespace Matrix

/-- `Matrix(int r = 0, int c = 0) : R(r), C(c), e(r, std::vector<long long>(c, 0)) {}` -/
def construct (r c : Nat) : Matrix :=
  { e := List.replicate r (List.replicate c 0), R := r, C := c }

/-- The read `e[i][j]`. -/
def get (m : Matrix) (i j : Nat) : Int := (m.e.getD i []).getD j 0

/-- The write `e[i][j] = v`. -/
def set (m : Matrix) (i j : Nat) (v : Int) : Matrix :=
  { m with e := m.e.set i ((m.e.getD i []).set j v) }

/-- A matrix whose vector `e` has `R` rows of `C` entries each, as every constructor and
operation of the source produces. -/
def WF (m : Matrix) : Prop := m.e.length = m.R ∧ ∀ row, row ∈ m.e → row.length = m.C

/-- Every entry lies in `[0, A]`. -/
def Bounded (m : Matrix) (A : Int) : Prop :=
  ∀ i j, i < m.R → j < m.C → 0 ≤ m.get i j ∧ m.get i j ≤ A

/-- Every entry lies in `[0, MOD)`. -/
def Reduced (MOD : Int) (m : Matrix) : Prop :=
  ∀ i j, i < m.R → j < m.C → 0 ≤ m.get i j ∧ m.get i j < MOD

end Matrix

/-- The matrix with the given rows (how the examples fill `e` entry by entry). -/
def ofRows (rows : List (List Int)) : Matrix :=
  { e := rows, R := rows.length, C := (rows.headD []).length }

/-- `static Matrix identity(int n)`:
`Matrix res(n, n); for (int i = 0; i < n; ++i) res.e[i][i] = 1; return res;` -/
def identity (n : Nat) : Matrix :=
  (List.range n).foldl (fun res i => res.set i i 1) (Matrix.construct n n)

/-- The remainder `x % MOD` on `long long`: the quotient truncates towards zero, so the
remainder is `Int.tmod x MOD`; the division traps (the program dies with SIGFPE) when
`MOD` is `0`, and when `LLONG_MIN` is divided by `-1`. -/
def rem (x MOD : Int) : Option Int :=
  if MOD = 0 ∨ (x = -2 ^ 63 ∧ MOD = -1) then none else some (Int.tmod x MOD)

/-- A loop `for (int t = 0; t < n; ++t) body` over the values `ts` of `t`, whose body can
die: the loop ends at the first round that fails. -/
def forEach {σ : Type} (body : σ → Nat → Option σ) : List Nat → σ → Option σ
  | [], s => some s
  | t :: ts, s =>
    match body s t with
    | none => none
    | some s1 => forEach body ts s1

/-- `Matrix operator+(const Matrix& ot) const`: after `assert(R == ot.R && C == ot.C)`,
the double loop `res.e[i][j] = (e[i][j] + ot.e[i][j]) % MOD` over a fresh `R x C` matrix.
A round whose `% MOD` traps ends the operation without a result. -/
def add (ov : Int → Int) (MOD : Int) (a ot : Matrix) : Option Matrix :=
  if a.R = ot.R ∧ a.C = ot.C then
    forEach (fun res i =>
      forEach (fun res j =>
        (rem (ov (a.get i j + ot.get i j)) MOD).map (fun v => res.set i j v))
        (List.range a.C) res)
      (List.range a.R) (Matrix.construct a.R a.C)
  else none

/-- `Matrix operator*(const Matrix& ot) const`: after `assert(C == ot.R)`, the triple loop
`res.e[i][j] = (res.e[i][j] + e[i][k] * ot.e[k][j]) % MOD` over a fresh `R x ot.C`
matrix. A round whose `% MOD` traps ends the operation without a result. -/
def mul (ov : Int → Int) (MOD : Int) (a ot : Matrix) : Option Matrix :=
  if a.C = ot.R then
    forEach (fun res i =>
      forEach (fun res j =>
        forEach (fun res k =>
          (rem (ov (res.get i j + ov (a.get i k * ot.get k j))) MOD).map
            (fun v => res.set i j v))
          (List.range a.C) res)
        (List.range ot.C) res)
      (List.range a.R) (Matrix.construct a.R ot.C)
  else none

/-- The loop `for (; k > 0; b = b * b, k >>= 1) if (k & 1) res = res * b;` of `power`,
with a bound `fuel` on the number of times the condition `k > 0` is tested. -/
def powerLoop (ov : Int → Int) (MOD : Int) : Nat → Matrix → Matrix → Nat → Option Matrix
  | 0, _, _, _ => none
  | fuel + 1, res, b, k =>
    if 0 < k then
      match (if k % 2 = 1 then mul ov MOD res b else some res) with
      | none => none
      | some res1 =>
        match mul ov MOD b b with
        | none => none
        | some b1 => powerLoop ov MOD fuel res1 b1 (k / 2)
    else some res

/-- `Matrix power(long long k) const`: `assert(R == C)`, then the loop started with
`res = identity(R)` and `b = *this`. The loop halves `k` in each round, so it tests its
condition at most `k + 1` times and the fuel never runs out. -/
def power (ov : Int → Int) (MOD : Int) (m : Matrix) (k : Nat) : Option Matrix :=
  if m.R = m.C then powerLoop ov MOD (k + 1) (identity m.R) m k else none

/-- The matrix `A` of `example_matrix.cpp`. -/
def exampleA : Matrix := ofRows [[1, 2], [3, 4]]

/-- The matrix `B` of `example_matrix.cpp`. -/
def exampleB : Matrix := ofRows [[5, 6], [7, 8]]

/-- The Fibonacci transition matrix `T` of `example_matrix.cpp`. -/
def exampleT : Matrix := ofRows [[1, 1], [1, 0]]

/-- A `1 x 1` matrix whose square leaves the 64-bit range when the modulus is `10^10`. -/
def bigM : Matrix := ofRows [[9999999999]]

/-- A modulus for which no remainder can trap. -/
def NoTrap (MOD : Int) : Prop := MOD ≠ 0 ∧ MOD ≠ -1

/-- The matrix the loops of `add` leave when no remainder traps. -/
def addLoops (ov : Int → Int) (MOD : Int) (a ot : Matrix) : Matrix :=
  (List.range a.R).foldl (fun res i =>
    (List.range a.C).foldl (fun res j =>
      res.set i j (Int.tmod (ov (a.get i j + ot.get i j)) MOD)) res)
    (Matrix.construct a.R a.C)

/-- The matrix the loops of `mul` leave when no remainder traps. -/
def mulLoops (ov : Int → Int) (MOD : Int) (a ot : Matrix) : Matrix :=
  (List.range a.R).foldl (fun res i =>
    (List.range ot.C).foldl (fun res j =>
      (List.range a.C).foldl (fun res k =>
        res.set i j (Int.tmod (ov (res.get i j + ov (a.get i k * ot.get k j))) MOD)) res)
      res)
    (Matrix.construct a.R ot.C)

/-- Arithmetic that is exact on `[0, L]`. -/
def ExactOn (ov : Int → Int) (L : Int) : Prop := ∀ x, 0 ≤ x → x ≤ L → ov x = x

/-- The accumulation the innermost loop of `mul` performs on `res.e[i][j]`, started
from `x`. -/
def accumulate (ov : Int → Int) (MOD : Int) (a ot : Matrix) (i j : Nat) (x : Int) : Int :=
  (List.range a.C).foldl
    (fun acc k => Int.tmod (ov (acc + ov (a.get i k * ot.get k j))) MOD) x

/-- A step `f res i j` of a loop nest that fills a fresh `R x P` matrix cell by cell: it
keeps the shape, turns the old value `x` of cell `(i, j)` into `val i j x` and leaves
every other cell alone. -/
def CellStep (R P : Nat) (f : Matrix → Nat → Nat → Matrix) (val : Nat → Nat → Int → Int) :
    Prop :=
  ∀ res i j, res.WF → res.R = R → res.C = P → i < R → j < P →
    (f res i j).WF ∧ (f res i j).R = R ∧ (f res i j).C = P ∧
    (f res i j).get i j = val i j (res.get i j) ∧
    ∀ i1 j1, (i1 ≠ i ∨ j1 ≠ j) → (f res i j).get i1 j1 = res.get i1 j1

/-- Specification side: the dot product of row `i` of `a` and column `j` of `b` over the
integers. -/
def dot (a b : Matrix) (i j : Nat) : Int :=
  ((List.range a.C).map (fun k => a.get i k * b.get k j)).sum

/-- Specification side: the matrix product over the integers, without any reduction. -/
def intMul (a b : Matrix) : Matrix :=
  { e := (List.range a.R).map (fun i => (List.range b.C).map (fun j => dot a b i j)),
    R := a.R, C := b.C }

/-- Specification side: the `n x n` identity matrix over the integers. -/
def intIdentity (n : Nat) : Matrix :=
  { e := (List.range n).map (fun i => (List.range n).map (fun j => if i = j then 1 else 0)),
    R := n, C := n }

/-- Specification side: `M^k` by naive repeated multiplication over the integers. -/
def naivePower (m : Matrix) : Nat → Matrix
  | 0 => intIdentity m.R
  | k + 1 => intMul (naivePower m k) m

/-- Specification side: the Fibonacci sequence with `F(0) = 0`, `F(1) = 1`. -/
def fib : Nat → Nat
  | 0 => 0
  | 1 => 1
  | n + 2 => fib n + fib (n + 1)

end MatrixMod

/-! ## Modular matrices: the algebraic reading used in the proofs -/

namespace MatrixModAlg

/-- The residues modulo `q` of the top-left `n x n` entries, as a matrix over `ZMod q`. -/
def toZ (q n : Nat) (m : MatrixMod.Matrix) : Matrix (Fin n) (Fin n) (ZMod q) :=
  Matrix.of (fun i j => ((m.get i.val j.val : Int) : ZMod q))

/-- The top-left `n x n` entries, as a matrix over the integers. -/
def toI (n : Nat) (m : MatrixMod.Matrix) : Matrix (Fin n) (Fin n) Int :=
  Matrix.of (fun i j => m.get i.val j.val)

end MatrixModAlg

namespace MatrixModAlg

/-- The residues modulo `q` of the top-left `r x c` entries, as a matrix over `ZMod q`. -/
def toZr (q r c : Nat) (m : MatrixMod.Matrix) : Matrix (Fin r) (Fin c) (ZMod q) :=
  Matrix.of (fun i j => ((m.get i.val j.val : Int) : ZMod q))

end MatrixModAlg

namespace MatrixMod

/-- A reduced `1 x 1` matrix used with `bigM` and the modulus `10^10`. -/
def bigD : Matrix := ofRows [[1452241921]]

end MatrixMod

namespace MatrixMod

/-- The largest `long long`, `2^63 - 1`, as a modulus. -/
def maxMOD : Int := 9223372036854775807

/-- The reduced `1 x 1` matrix `[[2^62]]`, whose double leaves the 64-bit range. -/
def halfM : Matrix := ofRows [[4611686018427387904]]

/-- The reduced `1 x 1` matrix `[[2^62 - 1]]`. -/
def halfN : Matrix := ofRows [[4611686018427387903]]

end MatrixMod

namespace DSU

/-- The parent link `pa[i]` (an index outside the vector is read as its own parent). -/
def parent (s : DSU) (i : Nat) : Nat := s.pa.getD i i

/-- The element reached from `i` by following `k` parent links. -/
def follow (s : DSU) : Nat → Nat → Nat
  | 0, i => i
  | k + 1, i => follow s k (parent s i)

/-- The root of the tree of `i` in a state with `n` elements: the element reached after
`n` parent links (in a forest the root is reached earlier and then repeats). -/
def rootOf (n : Nat) (s : DSU) (i : Nat) : Nat := follow s n i

/-- The forest invariant of `struct DSU` for `n` elements: `pa` and `sz` have length `n`;
every parent lies in `[0, n)`; following parent links from any element reaches a root
(an `r` with `pa[r] = r`) after finitely many steps; and every root `r` stores in `sz[r]`
the number of elements whose root is `r`. -/
structure Forest (n : Nat) (s : DSU) : Prop where
  len_pa : s.pa.length = n
  len_sz : s.sz.length = n
  pa_lt : ∀ i : Nat, i < n → parent s i < n
  reach : ∀ i : Nat, i < n → ∃ k, parent s (follow s k i) = follow s k i
  sz_root : ∀ r : Nat, r < n → parent s r = r →
    s.sz[r]? = some (classSize (rootOf n s) n r)

/-- The forest invariant relative to a representative map `rep` and a potential `d` that
strictly decreases along parent links (a proof device: `Forest` holds exactly when some
`rep` and `d` satisfy it). -/
structure Tree (n : Nat) (s : DSU) (rep d : Nat → Nat) : Prop where
  len_pa : s.pa.length = n
  len_sz : s.sz.length = n
  pa_lt : ∀ i : Nat, i < n → parent s i < n
  rep_pa : ∀ i : Nat, i < n → rep (parent s i) = rep i
  d_pa : ∀ i : Nat, i < n → parent s i ≠ i → d (parent s i) < d i
  rep_lt : ∀ i : Nat, i < n → rep i < n
  rep_root : ∀ i : Nat, i < n → parent s (rep i) = rep i
  root_rep : ∀ r : Nat, r < n → parent s r = r → rep r = r
  sz_root : ∀ r : Nat, r < n → parent s r = r → s.sz[r]? = some (classSize rep n r)

/-- The number of parent links from `i` to its root, counted with `fuel` steps at most. -/
def depth (s : DSU) : Nat → Nat → Nat
  | 0, _ => 0
  | fuel + 1, i => if parent s i = i then 0 else depth s fuel (parent s i) + 1

/-- The height of the tree rooted at `r`: the largest depth of an element whose root
is `r`. -/
def height (n : Nat) (s : DSU) (r : Nat) : Nat :=
  ((List.range n).filter (fun i => decide (rootOf n s i = r))).foldl
    (fun m i => max m (depth s n i)) 0

/-- The potential after the root `l` is attached to the root `w`: the tree of `l` is
lifted above `w`. -/
def mergeDepth (rep d : Nat → Nat) (w l : Nat) : Nat → Nat :=
  fun k => if rep k = l then d k + d w + 1 else d k

end DSU

namespace DSU

/-- A forest on four elements that is one chain `3 → 2 → 1 → 0`. -/
def chainState : DSU := { pa := [0, 0, 1, 2], sz := [4, 1, 1, 1] }

end DSU

namespace MatrixMod

/-- The value of `res.e[i][j]` before round `k` of the innermost loop of `mul`: the
accumulation over the rounds `0, ..., k - 1`. -/
def accumulateTo (ov : Int → Int) (MOD : Int) (a ot : Matrix) (i j k : Nat) : Int :=
  (List.range k).foldl
    (fun acc t => Int.tmod (ov (acc + ov (a.get i t * ot.get t j))) MOD) 0

/-- No round `(i, j, k)` of the triple loop of `mul` leaves the range of a signed 64-bit
integer: the product `e[i][k] * ot.e[k][j]` and the sum `res.e[i][j] + e[i][k] * ot.e[k][j]`
both lie in `[0, 2^63)`. -/
def StepsInRange (ov : Int → Int) (MOD : Int) (a ot : Matrix) : Prop :=
  ∀ i j k, i < a.R → j < ot.C → k < a.C →
    (0 ≤ a.get i k * ot.get k j ∧ a.get i k * ot.get k j < 2 ^ 63) ∧
    (0 ≤ accumulateTo ov MOD a ot i j k + a.get i k * ot.get k j ∧
      accumulateTo ov MOD a ot i j k + a.get i k * ot.get k j < 2 ^ 63)

/-- The operand pairs of the multiplications that the loop of `power` performs, in the
order in which it performs them (`res * b` when the low bit of `k` is set, then `b * b`). -/
def powerMuls (ov : Int → Int) (MOD : Int) :
    Nat → Matrix → Matrix → Nat → List (Matrix × Matrix)
  | 0, _, _, _ => []
  | fuel + 1, res, b, k =>
    if 0 < k then
      match (if k % 2 = 1 then mul ov MOD res b else some res) with
      | none => [(res, b)]
      | some res1 =>
        (if k % 2 = 1 then [(res, b)] else []) ++ (b, b) ::
          (match mul ov MOD b b with
           | none => []
           | some b1 => powerMuls ov MOD fuel res1 b1 (k / 2))
    else []

end MatrixMod

/-! ## Disjoint set union: the forest invariant -/

namespace DSU

theorem getElem?_of_lt {l : List Nat} {i : Nat} (h : i < l.length) : ∃ p, l[i]? = some p :=
  ⟨l[i], List.getElem?_eq_getElem h⟩

theorem lt_of_getElem? {l : List Nat} {i p : Nat} (h : l[i]? = some p) : i < l.length := by
  obtain ⟨h1, _⟩ := List.getElem?_eq_some.mp h
  exact h1

theorem classSize_le (rep : Nat → Nat) (n r : Nat) : classSize rep n r ≤ n := by
  unfold classSize
  calc (List.range n).countP (fun k => decide (rep k = r))
      ≤ (List.range n).length := List.countP_le_length _
    _ = n := List.length_range n

theorem classSize_congr {rep rep1 : Nat → Nat} {n r r1 : Nat}
    (h : ∀ k, k < n → (rep k = r ↔ rep1 k = r1)) :
    classSize rep n r = classSize rep1 n r1 := by
  unfold classSize
  apply List.countP_congr
  intro k hk
  have hk1 : k < n := List.mem_range.mp hk
  simp [h k hk1]

theorem countP_add_of_disjoint (l : List Nat) (p q t : Nat → Bool)
    (ht : ∀ x, x ∈ l → (t x = true ↔ (p x = true ∨ q x = true)))
    (hd : ∀ x, x ∈ l → ¬ (p x = true ∧ q x = true)) :
    l.countP t = l.countP p + l.countP q := by
  induction l with
  | nil => simp
  | cons a l ih =>
    have ih1 := ih (fun x hx => ht x (List.mem_cons_of_mem a hx))
      (fun x hx => hd x (List.mem_cons_of_mem a hx))
    have hta := ht a (List.mem_cons_self a l)
    have hda := hd a (List.mem_cons_self a l)
    simp only [List.countP_cons, ih1]
    cases hp : p a <;> cases hq : q a <;> cases htt : t a <;> simp_all <;> omega

theorem classSize_merge {rep rep1 : Nat → Nat} {n w l : Nat} (hwl : w ≠ l)
    (h : ∀ k, k < n → (rep1 k = w ↔ (rep k = w ∨ rep k = l))) :
    classSize rep1 n w = classSize rep n w + classSize rep n l := by
  unfold classSize
  apply countP_add_of_disjoint
  · intro x hx
    have := h x (List.mem_range.mp hx)
    simpa using this
  · intro x _ hx
    simp only [decide_eq_true_eq] at hx
    exact hwl (hx.1.symm.trans hx.2)

theorem Inv.rank_le_rep {n : Nat} {s : DSU} {rep rank : Nat → Nat} (h : Inv n s rep rank) :
    ∀ (d i : Nat), i < n → n ≤ d + rank i → rank i ≤ rank (rep i) := by
  intro d
  induction d with
  | zero =>
    intro i hi hd
    have := h.rank_lt i hi
    omega
  | succ d ih =>
    intro i hi hd
    obtain ⟨p, hp⟩ := getElem?_of_lt (l := s.pa) (i := i) (by rw [h.len_pa]; exact hi)
    by_cases hpi : p = i
    · subst hpi
      rw [h.root_rep p hp]
    · have h1 := h.rank_pa i p hp hpi
      have h2 := ih p (h.pa_lt i p hp) (by omega)
      rw [h.rep_pa i p hp] at h2
      omega

theorem Inv.rank_lt_rep {n : Nat} {s : DSU} {rep rank : Nat → Nat} (h : Inv n s rep rank)
    {i : Nat} (hi : i < n) (hne : rep i ≠ i) : rank i < rank (rep i) := by
  obtain ⟨p, hp⟩ := getElem?_of_lt (l := s.pa) (i := i) (by rw [h.len_pa]; exact hi)
  have hpi : p ≠ i := by
    intro e
    subst e
    exact hne (h.root_rep p hp)
  have h1 := h.rank_pa i p hp hpi
  have h2 := h.rank_le_rep n p (h.pa_lt i p hp) (by omega)
  rw [h.rep_pa i p hp] at h2
  omega

theorem Inv.root_iff {n : Nat} {s : DSU} {rep rank : Nat → Nat} (h : Inv n s rep rank)
    {r : Nat} (hr : r < n) : s.pa[r]? = some r ↔ rep r = r := by
  constructor
  · exact h.root_rep r
  · intro e
    have := h.rep_root r hr
    rwa [e] at this

theorem Inv.compressed {n : Nat} {s s1 : DSU} {rep rank : Nat → Nat} (h : Inv n s rep rank)
    (c : Compressed n rep s s1) : Inv n s1 rep rank := by
  have key : ∀ k p : Nat, s1.pa[k]? = some p → k < n ∧ (s.pa[k]? = some p ∨ p = rep k) := by
    intro k p hkp
    have hk : k < n := by
      have := lt_of_getElem? hkp
      rwa [c.len_pa] at this
    refine ⟨hk, ?_⟩
    rcases c.pa_or k hk with e | e
    · left; rw [← e]; exact hkp
    · right; rw [e] at hkp; exact (Option.some.inj hkp).symm
  have root : ∀ r : Nat, s1.pa[r]? = some r → s.pa[r]? = some r := by
    intro r hr
    obtain ⟨hrn, e | e⟩ := key r r hr
    · exact e
    · exact (h.root_iff hrn).mpr e.symm
  have rep_rep : ∀ k : Nat, k < n → rep (rep k) = rep k := fun k hk =>
    h.root_rep _ (h.rep_root k hk)
  refine ⟨c.len_pa, by rw [c.sz_eq]; exact h.len_sz, ?_, ?_, ?_, h.rep_lt, ?_, ?_, h.rank_lt,
    ?_, ?_⟩
  · intro k p hkp
    obtain ⟨hk, e | e⟩ := key k p hkp
    · exact h.pa_lt k p e
    · rw [e]; exact h.rep_lt k hk
  · intro k p hkp
    obtain ⟨hk, e | e⟩ := key k p hkp
    · exact h.rep_pa k p e
    · rw [e]; exact rep_rep k hk
  · intro k p hkp hne
    obtain ⟨hk, e | e⟩ := key k p hkp
    · exact h.rank_pa k p e hne
    · rw [e]; exact h.rank_lt_rep hk (by rw [← e]; exact hne)
  · intro k hk
    have hr := h.rep_root k hk
    rcases c.pa_or (rep k) (h.rep_lt k hk) with e | e
    · rw [e]; exact hr
    · rw [e, rep_rep k hk]
  · intro r hr
    exact h.root_rep r (root r hr)
  · intro r hr
    rw [c.sz_eq]
    exact h.sz_root r (root r hr)
  · intro r hr
    exact h.pow_rank r (root r hr)

theorem Compressed.refl {n : Nat} {s : DSU} {rep : Nat → Nat} (h : s.pa.length = n) :
    Compressed n rep s s :=
  ⟨rfl, h, fun _ _ => Or.inl rfl⟩

theorem Compressed.trans {n : Nat} {s s1 s2 : DSU} {rep : Nat → Nat}
    (c1 : Compressed n rep s s1) (c2 : Compressed n rep s1 s2) : Compressed n rep s s2 := by
  refine ⟨c2.sz_eq.trans c1.sz_eq, c2.len_pa, ?_⟩
  intro k hk
  rcases c2.pa_or k hk with e | e
  · rcases c1.pa_or k hk with e1 | e1
    · left; rw [e, e1]
    · right; rw [e, e1]
  · right; exact e

theorem find_spec {n : Nat} {rep rank : Nat → Nat} (fuel : Nat) :
    ∀ {s s1 : DSU} {i r : Nat}, Inv n s rep rank → i < n → find fuel s i = some (r, s1) →
      r = rep i ∧ Compressed n rep s s1 := by
  induction fuel with
  | zero =>
    intro s s1 i r _ _ hf
    simp [find] at hf
  | succ fuel ih =>
    intro s s1 i r h hi hf
    obtain ⟨p, hp⟩ := getElem?_of_lt (l := s.pa) (i := i) (by rw [h.len_pa]; exact hi)
    simp only [find, hp] at hf
    by_cases hpi : p = i
    · simp only [hpi, if_true, Option.some.injEq, Prod.mk.injEq] at hf
      obtain ⟨e1, e2⟩ := hf
      subst e1 e2
      subst hpi
      exact ⟨(h.root_rep p hp).symm, Compressed.refl h.len_pa⟩
    · simp only [hpi, if_false] at hf
      cases hrec : find fuel s p with
      | none => simp [hrec] at hf
      | some res =>
        obtain ⟨r0, s0⟩ := res
        simp only [hrec, Option.some.injEq, Prod.mk.injEq] at hf
        obtain ⟨e1, e2⟩ := hf
        obtain ⟨hr0, c0⟩ := ih h (h.pa_lt i p hp) hrec
        have hrep : r0 = rep i := by rw [hr0, h.rep_pa i p hp]
        subst e1
        refine ⟨hrep, ?_⟩
        subst e2
        refine ⟨c0.sz_eq, by simp [c0.len_pa], ?_⟩
        intro k hk
        by_cases hki : i = k
        · right
          subst hki
          simp only [List.getElem?_set, if_true, c0.len_pa, hi, hrep]
        · simp only [List.getElem?_set, hki, if_false]
          exact c0.pa_or k hk

theorem find_some {n : Nat} {rep rank : Nat → Nat} (fuel : Nat) :
    ∀ {s : DSU} {i : Nat}, Inv n s rep rank → i < n → n ≤ fuel + rank i →
      ∃ r s1, find fuel s i = some (r, s1) := by
  induction fuel with
  | zero =>
    intro s i h hi hf
    have := h.rank_lt i hi
    omega
  | succ fuel ih =>
    intro s i h hi hf
    obtain ⟨p, hp⟩ := getElem?_of_lt (l := s.pa) (i := i) (by rw [h.len_pa]; exact hi)
    by_cases hpi : p = i
    · exact ⟨i, s, by simp [find, hp, hpi]⟩
    · have h1 := h.rank_pa i p hp hpi
      obtain ⟨r0, s0, hrec⟩ := ih h (h.pa_lt i p hp) (by omega)
      exact ⟨r0, { s0 with pa := s0.pa.set i r0 }, by simp [find, hp, hpi, hrec]⟩

/-- With at least `n` units of fuel, `find` returns the representative and leaves a
compressed state that satisfies the invariant for the same `rep` and `rank`. -/
theorem find_total {n : Nat} {rep rank : Nat → Nat} {s : DSU} {i fuel : Nat}
    (h : Inv n s rep rank) (hi : i < n) (hf : n ≤ fuel) :
    ∃ s1, find fuel s i = some (rep i, s1) ∧ Compressed n rep s s1 ∧ Inv n s1 rep rank := by
  obtain ⟨r, s1, hfind⟩ := find_some fuel h hi (by omega)
  obtain ⟨hr, c⟩ := find_spec fuel h hi hfind
  subst hr
  exact ⟨s1, hfind, c, h.compressed c⟩

theorem classSize_id {n r : Nat} (hr : r < n) : classSize id n r = 1 := by
  unfold classSize
  have h1 : (List.range n).countP (fun k => decide (id k = r)) = (List.range n).count r := by
    unfold List.count
    apply List.countP_congr
    intro k _
    simp
  rw [h1]
  exact List.count_eq_one_of_mem (List.nodup_range n) (List.mem_range.mpr hr)

theorem construct_pa (n : Nat) : (construct n).pa = List.range n := by
  simp [construct, iota]

theorem construct_sz (n : Nat) : (construct n).sz = List.replicate n 1 := rfl

theorem construct_getElem? {n i p : Nat} (h : (construct n).pa[i]? = some p) :
    i < n ∧ p = i := by
  rw [construct_pa] at h
  have hi : i < n := by
    have := lt_of_getElem? h
    simpa using this
  rw [List.getElem?_range hi] at h
  exact ⟨hi, (Option.some.inj h).symm⟩

theorem inv_construct (n : Nat) : Inv n (construct n) id (fun _ => 0) := by
  refine ⟨by simp [construct_pa], by simp [construct_sz], ?_, ?_, ?_, ?_, ?_, ?_, ?_, ?_, ?_⟩
  · intro i p h
    obtain ⟨hi, e⟩ := construct_getElem? h
    omega
  · intro i p h
    obtain ⟨_, e⟩ := construct_getElem? h
    simp [e]
  · intro i p h hne
    obtain ⟨_, e⟩ := construct_getElem? h
    exact absurd e hne
  · intro i hi
    exact hi
  · intro i hi
    rw [construct_pa]
    exact List.getElem?_range hi
  · intro r _
    rfl
  · intro i hi
    omega
  · intro r h
    obtain ⟨hr, _⟩ := construct_getElem? h
    rw [construct_sz, classSize_id hr, List.getElem?_replicate]
    simp [hr]
  · intro r h
    obtain ⟨hr, _⟩ := construct_getElem? h
    rw [classSize_id hr]
    simp

theorem mergeRep_eq_winner {rep : Nat → Nat} {w l : Nat} (k : Nat) :
    mergeRep rep w l k = w ↔ (rep k = w ∨ rep k = l) := by
  unfold mergeRep
  by_cases hk : rep k = l
  · simp [hk]
  · simp only [hk, if_false, or_false]

theorem mergeRep_eq_other {rep : Nat → Nat} {w l r : Nat} (hrw : r ≠ w) (hrl : r ≠ l)
    (k : Nat) : mergeRep rep w l k = r ↔ rep k = r := by
  unfold mergeRep
  by_cases hk : rep k = l
  · simp only [hk, if_true]
    constructor
    · intro e; exact absurd e.symm hrw
    · intro e; exact absurd e.symm hrl
  · simp only [hk, if_false]

/-- Attaching the root `l` to a different root `w` whose class is at least as large, and
adding the two sizes at `w`, preserves the invariant for the merged maps. -/
theorem link_inv {n : Nat} {s : DSU} {rep rank : Nat → Nat} {w l : Nat}
    (h : Inv n s rep rank) (hw : w < n) (hl : l < n)
    (rootw : s.pa[w]? = some w) (rootl : s.pa[l]? = some l) (hwl : w ≠ l)
    (hle : classSize rep n l ≤ classSize rep n w) :
    Inv n { pa := s.pa.set l w, sz := s.sz.set w (classSize rep n w + classSize rep n l) }
      (mergeRep rep w l) (mergeRank rank w l) := by
  have hrw : rep w = w := h.root_rep w rootw
  have hrl : rep l = l := h.root_rep l rootl
  have key : ∀ k p : Nat, (s.pa.set l w)[k]? = some p →
      (k = l ∧ p = w) ∨ (k ≠ l ∧ s.pa[k]? = some p) := by
    intro k p hkp
    rw [List.getElem?_set] at hkp
    by_cases hlk : l = k
    · left
      simp only [hlk, if_true] at hkp
      split at hkp
      · exact ⟨hlk.symm, (Option.some.inj hkp).symm⟩
      · exact absurd hkp (by simp)
    · right
      simp only [hlk, if_false] at hkp
      exact ⟨fun e => hlk e.symm, hkp⟩
  have root : ∀ r : Nat, (s.pa.set l w)[r]? = some r → r ≠ l ∧ s.pa[r]? = some r := by
    intro r hr
    rcases key r r hr with ⟨e1, e2⟩ | ⟨e1, e2⟩
    · exact absurd (e2.symm.trans e1) hwl
    · exact ⟨e1, e2⟩
  have csw : classSize (mergeRep rep w l) n w = classSize rep n w + classSize rep n l :=
    classSize_merge hwl (fun k _ => mergeRep_eq_winner k)
  have cso : ∀ r : Nat, r ≠ w → r ≠ l →
      classSize (mergeRep rep w l) n r = classSize rep n r := fun r h1 h2 =>
    classSize_congr (fun k _ => mergeRep_eq_other h1 h2 k)
  have rank_ge : ∀ k : Nat, rank k ≤ mergeRank rank w l k := by
    intro k
    unfold mergeRank
    split
    · rename_i e; subst e; exact le_max_left _ _
    · exact le_refl _
  have pow_w : 2 ^ mergeRank rank w l w ≤ classSize rep n w + classSize rep n l := by
    have h1 := h.pow_rank w rootw
    have h2 := h.pow_rank l rootl
    have h3 : 2 ^ (rank l + 1) ≤ classSize rep n w + classSize rep n l := by
      rw [pow_succ]; omega
    unfold mergeRank
    simp only [if_true]
    rcases le_total (rank w) (rank l + 1) with e | e
    · rw [max_eq_right e]; exact h3
    · rw [max_eq_left e]; omega
  refine ⟨by simp [h.len_pa], by simp [h.len_sz], ?_, ?_, ?_, ?_, ?_, ?_, ?_, ?_, ?_⟩
  · intro k p hkp
    rcases key k p hkp with ⟨_, e2⟩ | ⟨_, e2⟩
    · rw [e2]; exact hw
    · exact h.pa_lt k p e2
  · intro k p hkp
    rcases key k p hkp with ⟨e1, e2⟩ | ⟨_, e2⟩
    · subst e1 e2
      simp [mergeRep, hrw, hrl, hwl]
    · simp only [mergeRep, h.rep_pa k p e2]
  · intro k p hkp hne
    rcases key k p hkp with ⟨e1, e2⟩ | ⟨_, e2⟩
    · subst e1 e2
      have : mergeRank rank p k k = rank k := by
        unfold mergeRank
        simp [Ne.symm hwl]
      rw [this]
      unfold mergeRank
      simp only [if_true]
      have := le_max_right (rank p) (rank k + 1)
      omega
    · have hkw : k ≠ w := by
        intro e
        subst e
        rw [rootw] at e2
        exact hne (Option.some.inj e2).symm
      have h1 := h.rank_pa k p e2 hne
      have h2 := rank_ge p
      have h3 : mergeRank rank w l k = rank k := by
        unfold mergeRank
        simp [hkw]
      omega
  · intro k hk
    unfold mergeRep
    split
    · exact hw
    · exact h.rep_lt k hk
  · intro k hk
    have hne : mergeRep rep w l k ≠ l := by
      unfold mergeRep
      split
      · exact hwl
      · assumption
    have hroot : s.pa[mergeRep rep w l k]? = some (mergeRep rep w l k) := by
      unfold mergeRep
      split
      · exact rootw
      · exact h.rep_root k hk
    show (s.pa.set l w)[mergeRep rep w l k]? = some (mergeRep rep w l k)
    rw [List.getElem?_set_ne (Ne.symm hne)]
    exact hroot
  · intro r hr
    obtain ⟨h1, h2⟩ := root r hr
    have := h.root_rep r h2
    simp [mergeRep, this, h1]
  · intro k hk
    unfold mergeRank
    split
    · have h1 : mergeRank rank w l w = max (rank w) (rank l + 1) := by simp [mergeRank]
      have h2 := pow_w
      rw [h1] at h2
      have h3 := Nat.lt_two_pow (max (rank w) (rank l + 1))
      have h4 := classSize_le (mergeRep rep w l) n w
      rw [csw] at h4
      omega
    · exact h.rank_lt k hk
  · intro r hr
    obtain ⟨h1, h2⟩ := root r hr
    show (s.sz.set w _)[r]? = some _
    by_cases hrw1 : r = w
    · subst hrw1
      rw [List.getElem?_set_self (by rw [h.len_sz]; exact hw), csw]
    · rw [List.getElem?_set_ne (Ne.symm hrw1), cso r hrw1 h1]
      exact h.sz_root r h2
  · intro r hr
    obtain ⟨h1, h2⟩ := root r hr
    by_cases hrw1 : r = w
    · subst hrw1
      rw [csw]; exact pow_w
    · rw [cso r hrw1 h1]
      have : mergeRank rank w l r = rank r := by simp [mergeRank, hrw1]
      rw [this]
      exact h.pow_rank r h2

/-- The state `unite` leaves when it attaches `l` to `w` in the compressed state `s2`. -/
theorem unite_eq {fuel : Nat} {s s1 s2 : DSU} {i j i1 j1 a b : Nat}
    (hfi : find fuel s i = some (i1, s1)) (hfj : find fuel s1 j = some (j1, s2))
    (hne : i1 ≠ j1) (ha : s2.sz[i1]? = some a) (hb : s2.sz[j1]? = some b) :
    unite fuel s i j = some (true,
      { pa := s2.pa.set (if a < b then i1 else j1) (if a < b then j1 else i1),
        sz := s2.sz.set (if a < b then j1 else i1)
          ((if a < b then b else a) + (if a < b then a else b)) }) := by
  simp [unite, hfi, hfj, hne, ha, hb]

theorem unite_eq_false {fuel : Nat} {s s1 s2 : DSU} {i j r : Nat}
    (hfi : find fuel s i = some (r, s1)) (hfj : find fuel s1 j = some (r, s2)) :
    unite fuel s i j = some (false, s2) := by
  simp [unite, hfi, hfj]

/-- Partial correctness of `unite` relative to the invariant. -/
theorem unite_spec {n : Nat} {rep rank : Nat → Nat} {s s1 : DSU} {fuel i j : Nat} {b : Bool}
    (h : Inv n s rep rank) (hi : i < n) (hj : j < n) (hu : unite fuel s i j = some (b, s1)) :
    (b = false ∧ rep i = rep j ∧ Compressed n rep s s1) ∨
    (b = true ∧ rep i ≠ rep j ∧ ∃ w l s2,
      ((w = rep i ∧ l = rep j ∧ classSize rep n (rep j) ≤ classSize rep n (rep i)) ∨
       (w = rep j ∧ l = rep i ∧ classSize rep n (rep i) < classSize rep n (rep j))) ∧
      Compressed n rep s s2 ∧ Inv n s2 rep rank ∧
      s1 = { pa := s2.pa.set l w,
             sz := s2.sz.set w (classSize rep n w + classSize rep n l) } ∧
      Inv n s1 (mergeRep rep w l) (mergeRank rank w l)) := by
  cases hfi : find fuel s i with
  | none => simp [unite, hfi] at hu
  | some res1 =>
    obtain ⟨i1, t1⟩ := res1
    obtain ⟨e1, c1⟩ := find_spec fuel h hi hfi
    have h1 := h.compressed c1
    cases hfj : find fuel t1 j with
    | none => simp [unite, hfi, hfj] at hu
    | some res2 =>
      obtain ⟨j1, t2⟩ := res2
      obtain ⟨e2, c2⟩ := find_spec fuel h1 hj hfj
      have h2 := h1.compressed c2
      have c12 := c1.trans c2
      subst e1 e2
      by_cases hne : rep i = rep j
      · left
        rw [hne] at hfi
        rw [unite_eq_false hfi hfj] at hu
        simp only [Option.some.injEq, Prod.mk.injEq] at hu
        exact ⟨hu.1.symm, hne, hu.2 ▸ c12⟩
      · right
        have roota := h2.rep_root i hi
        have rootb := h2.rep_root j hj
        have ha := h2.sz_root _ roota
        have hb := h2.sz_root _ rootb
        rw [unite_eq hfi hfj hne ha hb] at hu
        simp only [Option.some.injEq, Prod.mk.injEq] at hu
        obtain ⟨hb1, hs1⟩ := hu
        refine ⟨hb1.symm, hne, ?_⟩
        by_cases hlt : classSize rep n (rep i) < classSize rep n (rep j)
        · simp only [hlt, if_true] at hs1
          refine ⟨rep j, rep i, t2, Or.inr ⟨rfl, rfl, hlt⟩, c12, h2, hs1.symm, ?_⟩
          rw [← hs1]
          exact link_inv h2 (h.rep_lt j hj) (h.rep_lt i hi) rootb roota (Ne.symm hne)
            (Nat.le_of_lt hlt)
        · simp only [hlt, if_false] at hs1
          refine ⟨rep i, rep j, t2, Or.inl ⟨rfl, rfl, Nat.le_of_not_lt hlt⟩, c12, h2,
            hs1.symm, ?_⟩
          rw [← hs1]
          exact link_inv h2 (h.rep_lt i hi) (h.rep_lt j hj) roota rootb hne
            (Nat.le_of_not_lt hlt)

/-- With at least `n` units of fuel, `unite` returns. -/
theorem unite_some {n : Nat} {rep rank : Nat → Nat} {s : DSU} {fuel i j : Nat}
    (h : Inv n s rep rank) (hi : i < n) (hj : j < n) (hf : n ≤ fuel) :
    ∃ b s1, unite fuel s i j = some (b, s1) := by
  obtain ⟨t1, hfi, _, h1⟩ := find_total h hi hf
  obtain ⟨t2, hfj, _, h2⟩ := find_total h1 hj hf
  by_cases hne : rep i = rep j
  · rw [hne] at hfi
    exact ⟨_, _, unite_eq_false hfi hfj⟩
  · exact ⟨_, _, unite_eq hfi hfj hne (h2.sz_root _ (h2.rep_root i hi))
      (h2.sz_root _ (h2.rep_root j hj))⟩

theorem same_spec {n : Nat} {rep rank : Nat → Nat} {s s1 : DSU} {fuel i j : Nat} {b : Bool}
    (h : Inv n s rep rank) (hi : i < n) (hj : j < n) (hu : same fuel s i j = some (b, s1)) :
    b = decide (rep i = rep j) ∧ Compressed n rep s s1 := by
  cases hfi : find fuel s i with
  | none => simp [same, hfi] at hu
  | some res1 =>
    obtain ⟨i1, t1⟩ := res1
    obtain ⟨e1, c1⟩ := find_spec fuel h hi hfi
    cases hfj : find fuel t1 j with
    | none => simp [same, hfi, hfj] at hu
    | some res2 =>
      obtain ⟨j1, t2⟩ := res2
      obtain ⟨e2, c2⟩ := find_spec fuel (h.compressed c1) hj hfj
      simp only [same, hfi, hfj, Option.some.injEq, Prod.mk.injEq] at hu
      obtain ⟨hb, hs⟩ := hu
      subst e1 e2 hs
      exact ⟨hb.symm, c1.trans c2⟩

theorem same_total {n : Nat} {rep rank : Nat → Nat} {s : DSU} {fuel i j : Nat}
    (h : Inv n s rep rank) (hi : i < n) (hj : j < n) (hf : n ≤ fuel) :
    ∃ s1, same fuel s i j = some (decide (rep i = rep j), s1) ∧ Compressed n rep s s1 ∧
      Inv n s1 rep rank := by
  obtain ⟨t1, hfi, c1, h1⟩ := find_total h hi hf
  obtain ⟨t2, hfj, c2, h2⟩ := find_total h1 hj hf
  exact ⟨t2, by simp [same, hfi, hfj], c1.trans c2, h2⟩

theorem size_spec {n : Nat} {rep rank : Nat → Nat} {s s1 : DSU} {fuel i c : Nat}
    (h : Inv n s rep rank) (hi : i < n) (hu : size fuel s i = some (c, s1)) :
    c = classSize rep n (rep i) ∧ Compressed n rep s s1 := by
  cases hfi : find fuel s i with
  | none => simp [size, hfi] at hu
  | some res1 =>
    obtain ⟨i1, t1⟩ := res1
    obtain ⟨e1, c1⟩ := find_spec fuel h hi hfi
    have h1 := h.compressed c1
    subst e1
    have hsz := h1.sz_root _ (h1.rep_root i hi)
    simp only [size, hfi, hsz, Option.some.injEq, Prod.mk.injEq] at hu
    obtain ⟨hc, hs⟩ := hu
    subst hs
    exact ⟨hc.symm, c1⟩

theorem size_total {n : Nat} {rep rank : Nat → Nat} {s : DSU} {fuel i : Nat}
    (h : Inv n s rep rank) (hi : i < n) (hf : n ≤ fuel) :
    ∃ s1, size fuel s i = some (classSize rep n (rep i), s1) ∧ Compressed n rep s s1 ∧
      Inv n s1 rep rank := by
  obtain ⟨t1, hfi, c1, h1⟩ := find_total h hi hf
  have hsz := h1.sz_root _ (h1.rep_root i hi)
  exact ⟨t1, by simp [size, hfi, hsz], c1, h1⟩

/-- Every reachable state satisfies the forest invariant for some representative map and
potential. -/
theorem Reachable.inv {n : Nat} {s : DSU} (hs : Reachable n s) :
    ∃ rep rank, Inv n s rep rank := by
  induction hs with
  | construct => exact ⟨id, fun _ => 0, inv_construct n⟩
  | find _ hi hf ih =>
    obtain ⟨rep, rank, h⟩ := ih
    exact ⟨rep, rank, h.compressed (find_spec _ h hi hf).2⟩
  | unite _ hi hj hu ih =>
    obtain ⟨rep, rank, h⟩ := ih
    rcases unite_spec h hi hj hu with ⟨_, _, c⟩ | ⟨_, _, w, l, s2, _, _, _, _, h2⟩
    · exact ⟨rep, rank, h.compressed c⟩
    · exact ⟨_, _, h2⟩
  | same _ hi hj hu ih =>
    obtain ⟨rep, rank, h⟩ := ih
    exact ⟨rep, rank, h.compressed (same_spec h hi hj hu).2⟩
  | size _ hi hu ih =>
    obtain ⟨rep, rank, h⟩ := ih
    exact ⟨rep, rank, h.compressed (size_spec h hi hu).2⟩

theorem find_fst {n : Nat} {rep rank : Nat → Nat} {s : DSU} {fuel i : Nat}
    (h : Inv n s rep rank) (hi : i < n) (hf : n ≤ fuel) :
    (find fuel s i).map Prod.fst = some (rep i) := by
  obtain ⟨t, e, _⟩ := find_total h hi hf
  rw [e]; rfl

theorem same_fst {n : Nat} {rep rank : Nat → Nat} {s : DSU} {fuel i j : Nat}
    (h : Inv n s rep rank) (hi : i < n) (hj : j < n) (hf : n ≤ fuel) :
    (same fuel s i j).map Prod.fst = some (decide (rep i = rep j)) := by
  obtain ⟨t, e, _⟩ := same_total h hi hj hf
  rw [e]; rfl

theorem size_fst {n : Nat} {rep rank : Nat → Nat} {s : DSU} {fuel i : Nat}
    (h : Inv n s rep rank) (hi : i < n) (hf : n ≤ fuel) :
    (size fuel s i).map Prod.fst = some (classSize rep n (rep i)) := by
  obtain ⟨t, e, _⟩ := size_total h hi hf
  rw [e]; rfl

theorem Inv.rep_rep {n : Nat} {s : DSU} {rep rank : Nat → Nat} (h : Inv n s rep rank)
    {k : Nat} (hk : k < n) : rep (rep k) = rep k :=
  h.root_rep _ (h.rep_root k hk)

/-- The class of `rep k` is exactly the number of elements `same` relates to `k`. -/
theorem classSize_eq_filter {n : Nat} {rep rank : Nat → Nat} {s : DSU} {fuel i : Nat}
    (h : Inv n s rep rank) (hi : i < n) (hf : n ≤ fuel) :
    classSize rep n (rep i) =
      ((List.range n).filter
        (fun j => decide ((same fuel s i j).map Prod.fst = some true))).length := by
  unfold classSize
  rw [List.countP_eq_length_filter]
  congr 1
  apply List.filter_congr
  intro j hj
  have hj1 : j < n := List.mem_range.mp hj
  rw [same_fst h hi hj1 hf]
  by_cases e : rep i = rep j
  · simp [e]
  · have e1 : ¬ rep j = rep i := fun x => e x.symm
    simp [e, e1]

/-- The example state is produced by the six `unite` calls of the demonstration. -/
theorem exampleState_reachable : Reachable 10 exampleState := by
  have r0 : Reachable 10 (construct 10) := Reachable.construct
  have r1 : Reachable 10
      { pa := [0, 0, 2, 3, 4, 5, 6, 7, 8, 9], sz := [2, 1, 1, 1, 1, 1, 1, 1, 1, 1] } :=
    @Reachable.unite 10 _ _ 10 0 1 true r0 (by decide) (by decide) rfl
  have r2 : Reachable 10
      { pa := [0, 0, 2, 3, 0, 5, 6, 7, 8, 9], sz := [3, 1, 1, 1, 1, 1, 1, 1, 1, 1] } :=
    @Reachable.unite 10 _ _ 10 1 4 true r1 (by decide) (by decide) rfl
  have r3 : Reachable 10
      { pa := [0, 0, 2, 3, 0, 5, 6, 7, 0, 9], sz := [4, 1, 1, 1, 1, 1, 1, 1, 1, 1] } :=
    @Reachable.unite 10 _ _ 10 0 8 true r2 (by decide) (by decide) rfl
  have r4 : Reachable 10
      { pa := [0, 0, 2, 2, 0, 5, 6, 7, 0, 9], sz := [4, 1, 2, 1, 1, 1, 1, 1, 1, 1] } :=
    @Reachable.unite 10 _ _ 10 2 3 true r3 (by decide) (by decide) rfl
  have r5 : Reachable 10
      { pa := [0, 0, 2, 2, 0, 5, 6, 7, 0, 2], sz := [4, 1, 3, 1, 1, 1, 1, 1, 1, 1] } :=
    @Reachable.unite 10 _ _ 10 3 9 true r4 (by decide) (by decide) rfl
  exact @Reachable.unite 10 _ _ 10 5 6 true r5 (by decide) (by decide)
    rfl

/-- After a successful `unite`, the class of the surviving root consists of the two old
classes. -/
theorem merged_facts {n : Nat} {rep : Nat → Nat} {i j w l : Nat} (hne : rep i ≠ rep j)
    (hwl : (w = rep i ∧ l = rep j) ∨ (w = rep j ∧ l = rep i)) :
    w ≠ l ∧ (∀ k, mergeRep rep w l k = w ↔ (rep k = rep i ∨ rep k = rep j)) ∧
    classSize (mergeRep rep w l) n w = classSize rep n (rep i) + classSize rep n (rep j) := by
  rcases hwl with ⟨e1, e2⟩ | ⟨e1, e2⟩
  · subst e1 e2
    exact ⟨hne, fun k => mergeRep_eq_winner k,
      classSize_merge hne (fun k _ => mergeRep_eq_winner k)⟩
  · subst e1 e2
    refine ⟨Ne.symm hne, fun k => (mergeRep_eq_winner k).trans Or.comm, ?_⟩
    rw [classSize_merge (Ne.symm hne) (fun k _ => mergeRep_eq_winner k)]
    exact Nat.add_comm _ _

theorem winner_cases {rep : Nat → Nat} {i j w l : Nat} {P Q : Prop}
    (h : (w = rep i ∧ l = rep j ∧ P) ∨ (w = rep j ∧ l = rep i ∧ Q)) :
    (w = rep i ∧ l = rep j) ∨ (w = rep j ∧ l = rep i) := by
  rcases h with ⟨a, b, _⟩ | ⟨a, b, _⟩
  · exact Or.inl ⟨a, b⟩
  · exact Or.inr ⟨a, b⟩

/-! ## Disjoint set union: the documented contract -/

/-- C1: in a state reachable from `construct n`, with `i, j < n` and at least `n` units of
call depth, `unite i j` returns; it returns `true` exactly when `find i` and `find j`
differ just before the call; and after a `true` result `same i j` is `true` and
`size i = size j` is the sum of the two sizes before the call. -/
theorem unite_true_iff_roots_differ (n : Nat) (s : DSU) (hs : Reachable n s) (i j : Nat)
    (hi : i < n) (hj : j < n) (fuel : Nat) (hf : n ≤ fuel) :
    ∃ ri rj ci cj b s1,
      (find fuel s i).map Prod.fst = some ri ∧ (find fuel s j).map Prod.fst = some rj ∧
      (size fuel s i).map Prod.fst = some ci ∧ (size fuel s j).map Prod.fst = some cj ∧
      unite fuel s i j = some (b, s1) ∧
      (b = true ↔ ri ≠ rj) ∧
      (b = true →
        (same fuel s1 i j).map Prod.fst = some true ∧
        (size fuel s1 i).map Prod.fst = some (ci + cj) ∧
        (size fuel s1 j).map Prod.fst = some (ci + cj)) := by
  obtain ⟨rep, rank, h⟩ := hs.inv
  obtain ⟨b, s1, hu⟩ := unite_some h hi hj hf
  refine ⟨rep i, rep j, classSize rep n (rep i), classSize rep n (rep j), b, s1,
    find_fst h hi hf, find_fst h hj hf, size_fst h hi hf, size_fst h hj hf, hu, ?_, ?_⟩
  · rcases unite_spec h hi hj hu with ⟨hb, he, _⟩ | ⟨hb, hne, _⟩
    · simp [hb, he]
    · simp [hb, hne]
  · intro hb
    rcases unite_spec h hi hj hu with ⟨hb0, _, _⟩ | ⟨_, hne, w, l, s2, hwl, _, _, _, h1⟩
    · rw [hb] at hb0; exact absurd hb0 (by decide)
    · obtain ⟨_, hmem, hcs⟩ := merged_facts (n := n) hne (winner_cases hwl)
      have ei : mergeRep rep w l i = w := (hmem i).mpr (Or.inl rfl)
      have ej : mergeRep rep w l j = w := (hmem j).mpr (Or.inr rfl)
      refine ⟨?_, ?_, ?_⟩
      · rw [same_fst h1 hi hj hf, ei, ej]; simp
      · rw [size_fst h1 hi hf, ei, hcs]
      · rw [size_fst h1 hj hf, ej, hcs]

/-- C1 at the start of the demonstration: `unite 0 1` on `construct 10`. -/
theorem unite_true_iff_roots_differ_witness :
    ∃ ri rj ci cj b s1,
      (find 10 (construct 10) 0).map Prod.fst = some ri ∧
      (find 10 (construct 10) 1).map Prod.fst = some rj ∧
      (size 10 (construct 10) 0).map Prod.fst = some ci ∧
      (size 10 (construct 10) 1).map Prod.fst = some cj ∧
      unite 10 (construct 10) 0 1 = some (b, s1) ∧
      (b = true ↔ ri ≠ rj) ∧
      (b = true →
        (same 10 s1 0 1).map Prod.fst = some true ∧
        (size 10 s1 0).map Prod.fst = some (ci + cj) ∧
        (size 10 s1 1).map Prod.fst = some (ci + cj)) :=
  unite_true_iff_roots_differ 10 (construct 10) Reachable.construct 0 1 (by decide)
    (by decide) 10 (by decide)

/-- What `unite` does to the representative map: either nothing (it returned `false`), or
the two classes of `i` and `j` are merged into one and every other class is kept, with its
size. -/
theorem unite_rep {n : Nat} {rep rank : Nat → Nat} {s s1 : DSU} {fuel i j : Nat} {b : Bool}
    (h : Inv n s rep rank) (hi : i < n) (hj : j < n) (hu : unite fuel s i j = some (b, s1)) :
    ∃ rep1 rank1, Inv n s1 rep1 rank1 ∧
      (∀ a c, rep1 a = rep1 c ↔
        (rep a = rep c ∨ (rep a = rep i ∧ rep c = rep j) ∨ (rep a = rep j ∧ rep c = rep i))) ∧
      (∀ a, rep a ≠ rep i → rep a ≠ rep j →
        classSize rep1 n (rep1 a) = classSize rep n (rep a)) ∧
      (b = false → ∀ a, classSize rep1 n (rep1 a) = classSize rep n (rep a)) := by
  rcases unite_spec h hi hj hu with ⟨_, he, c⟩ | ⟨hb, hne, w, l, s2, hwl, _, _, _, h1⟩
  · refine ⟨rep, rank, h.compressed c, ?_, fun _ _ _ => rfl, fun _ _ => rfl⟩
    intro a c
    constructor
    · exact Or.inl
    · rintro (e | ⟨e1, e2⟩ | ⟨e1, e2⟩)
      · exact e
      · rw [e1, e2, he]
      · rw [e1, e2, he]
  · obtain ⟨hwl1, hmem, _⟩ := merged_facts (n := n) hne (winner_cases hwl)
    have hl : l = rep i ∨ l = rep j := by
      rcases hwl with ⟨_, e, _⟩ | ⟨_, e, _⟩
      · exact Or.inr e
      · exact Or.inl e
    have hw : w = rep i ∨ w = rep j := by
      rcases hwl with ⟨e, _, _⟩ | ⟨e, _, _⟩
      · exact Or.inl e
      · exact Or.inr e
    have hout : ∀ a, rep a ≠ rep i → rep a ≠ rep j → mergeRep rep w l a = rep a := by
      intro a h1 h2
      unfold mergeRep
      have : rep a ≠ l := by
        rcases hl with e | e <;> rw [e] <;> assumption
      simp [this]
    have hin : ∀ a, (rep a = rep i ∨ rep a = rep j) → mergeRep rep w l a = w :=
      fun a => (hmem a).mpr
    refine ⟨_, _, h1, ?_, ?_, ?_⟩
    · intro a c
      by_cases ha : rep a = rep i ∨ rep a = rep j
      · rw [hin a ha]
        by_cases hc : rep c = rep i ∨ rep c = rep j
        · rw [hin c hc]
          simp only [true_iff]
          rcases ha with ea | ea <;> rcases hc with ec | ec
          · left; rw [ea, ec]
          · right; left; exact ⟨ea, ec⟩
          · right; right; exact ⟨ea, ec⟩
          · left; rw [ea, ec]
        · have hc1 : rep c ≠ rep i := fun e => hc (Or.inl e)
          have hc2 : rep c ≠ rep j := fun e => hc (Or.inr e)
          rw [hout c hc1 hc2]
          constructor
          · intro e
            rcases hw with e1 | e1
            · exact absurd (e.symm.trans e1) hc1
            · exact absurd (e.symm.trans e1) hc2
          · rintro (e | ⟨_, e2⟩ | ⟨_, e2⟩)
            · rcases ha with ea | ea
              · exact absurd (e.symm.trans ea) hc1
              · exact absurd (e.symm.trans ea) hc2
            · exact absurd e2 hc2
            · exact absurd e2 hc1
      · have ha1 : rep a ≠ rep i := fun e => ha (Or.inl e)
        have ha2 : rep a ≠ rep j := fun e => ha (Or.inr e)
        rw [hout a ha1 ha2]
        by_cases hc : rep c = rep i ∨ rep c = rep j
        · rw [hin c hc]
          constructor
          · intro e
            rcases hw with e1 | e1
            · exact absurd (e.trans e1) ha1
            · exact absurd (e.trans e1) ha2
          · rintro (e | ⟨e1, _⟩ | ⟨e1, _⟩)
            · rcases hc with ec | ec
              · exact absurd (e.trans ec) ha1
              · exact absurd (e.trans ec) ha2
            · exact absurd e1 ha1
            · exact absurd e1 ha2
        · have hc1 : rep c ≠ rep i := fun e => hc (Or.inl e)
          have hc2 : rep c ≠ rep j := fun e => hc (Or.inr e)
          rw [hout c hc1 hc2]
          constructor
          · exact Or.inl
          · rintro (e | ⟨e1, _⟩ | ⟨e1, _⟩)
            · exact e
            · exact absurd e1 ha1
            · exact absurd e1 ha2
    · intro a ha1 ha2
      rw [hout a ha1 ha2]
      have hnw : rep a ≠ w := by
        rcases hw with e | e <;> rw [e] <;> assumption
      have hnl : rep a ≠ l := by
        rcases hl with e | e <;> rw [e] <;> assumption
      exact classSize_congr (fun k _ => mergeRep_eq_other hnw hnl k)
    · intro hb0
      rw [hb] at hb0
      exact absurd hb0 (by decide)

/-- C2: in a reachable state `unite i j` merges exactly the two sets involved. For all
`a, c < n`, `same a c` after the call is `true` iff it was `true` before, or one of `a`, `c`
was in the set of `i` and the other in the set of `j`; and an element outside both sets keeps
its `size`. -/
theorem unite_merges_exactly_two_sets (n : Nat) (s : DSU) (hs : Reachable n s) (i j : Nat)
    (hi : i < n) (hj : j < n) (fuel : Nat) (hf : n ≤ fuel) :
    ∃ r s1, unite fuel s i j = some (r, s1) ∧
      ∀ a c, a < n → c < n →
        ∃ (ac ai aj ci cj : Bool) (k : Nat),
          (same fuel s a c).map Prod.fst = some ac ∧
          (same fuel s a i).map Prod.fst = some ai ∧
          (same fuel s a j).map Prod.fst = some aj ∧
          (same fuel s c i).map Prod.fst = some ci ∧
          (same fuel s c j).map Prod.fst = some cj ∧
          (size fuel s a).map Prod.fst = some k ∧
          (same fuel s1 a c).map Prod.fst = some (ac || (ai && cj) || (aj && ci)) ∧
          (ai = false → aj = false → (size fuel s1 a).map Prod.fst = some k) := by
  obtain ⟨rep, rank, h⟩ := hs.inv
  obtain ⟨r, s1, hu⟩ := unite_some h hi hj hf
  obtain ⟨rep1, rank1, h1, hiff, hsize, _⟩ := unite_rep h hi hj hu
  refine ⟨r, s1, hu, ?_⟩
  intro a c ha hc
  refine ⟨_, _, _, _, _, _, same_fst h ha hc hf, same_fst h ha hi hf, same_fst h ha hj hf,
    same_fst h hc hi hf, same_fst h hc hj hf, size_fst h ha hf, ?_, ?_⟩
  · rw [same_fst h1 ha hc hf]
    congr 1
    rw [Bool.eq_iff_iff]
    simp only [decide_eq_true_eq, Bool.or_eq_true, Bool.and_eq_true]
    rw [hiff a c]
    tauto
  · intro e1 e2
    rw [size_fst h1 ha hf]
    congr 1
    exact hsize a (of_decide_eq_false e1) (of_decide_eq_false e2)

/-- C2 on the demonstration: `unite 1 9` in the example state joins the sets of `1` and
`9` and nothing else. -/
theorem unite_merges_exactly_two_sets_witness :
    ∃ r s1, unite 10 exampleState 1 9 = some (r, s1) ∧
      ∀ a c, a < 10 → c < 10 →
        ∃ (ac ai aj ci cj : Bool) (k : Nat),
          (same 10 exampleState a c).map Prod.fst = some ac ∧
          (same 10 exampleState a 1).map Prod.fst = some ai ∧
          (same 10 exampleState a 9).map Prod.fst = some aj ∧
          (same 10 exampleState c 1).map Prod.fst = some ci ∧
          (same 10 exampleState c 9).map Prod.fst = some cj ∧
          (size 10 exampleState a).map Prod.fst = some k ∧
          (same 10 s1 a c).map Prod.fst = some (ac || (ai && cj) || (aj && ci)) ∧
          (ai = false → aj = false → (size 10 s1 a).map Prod.fst = some k) :=
  unite_merges_exactly_two_sets 10 exampleState exampleState_reachable 1 9 (by decide)
    (by decide) 10 (by decide)

/-- C3: in a reachable state, `size i` is the number of elements `j` of `[0, n)` for which
`same i j` is `true`. -/
theorem size_eq_card_same (n : Nat) (s : DSU) (hs : Reachable n s) (i : Nat) (hi : i < n)
    (fuel : Nat) (hf : n ≤ fuel) :
    (size fuel s i).map Prod.fst =
      some ((List.range n).filter
        (fun j => decide ((same fuel s i j).map Prod.fst = some true))).length := by
  obtain ⟨rep, rank, h⟩ := hs.inv
  rw [size_fst h hi hf, classSize_eq_filter h hi hf]

/-- C3 on the demonstration: after the six unions `size 4 = 4`, `size 9 = 3`, `size 5 = 2`
and `size 7 = 1`, and `size 4` counts the elements `same` relates to `4`. -/
theorem size_eq_card_same_witness :
    ((size 10 exampleState 4).map Prod.fst = some 4 ∧
     (size 10 exampleState 9).map Prod.fst = some 3 ∧
     (size 10 exampleState 5).map Prod.fst = some 2 ∧
     (size 10 exampleState 7).map Prod.fst = some 1) ∧
    (size 10 exampleState 4).map Prod.fst =
      some ((List.range 10).filter
        (fun j => decide ((same 10 exampleState 4 j).map Prod.fst = some true))).length :=
  ⟨by decide, size_eq_card_same 10 exampleState exampleState_reachable 4 (by decide) 10
    (by decide)⟩

/-- C4: in a reachable state `same` is an equivalence relation on `[0, n)`, the queries
being run one after another, each on the state the previous one left behind: `same a a` is
`true`; `same a b` and then `same b a` give the same answer; and when `same a b` and then
`same b c` are `true`, the following `same a c` is `true`. -/
theorem same_equivalence (n : Nat) (s : DSU) (hs : Reachable n s) (a b c : Nat)
    (ha : a < n) (hb : b < n) (hc : c < n) (fuel : Nat) (hf : n ≤ fuel) :
    (∃ t, same fuel s a a = some (true, t)) ∧
    (∃ x t1 t2, same fuel s a b = some (x, t1) ∧ same fuel t1 b a = some (x, t2)) ∧
    (∃ x y z t1 t2 t3, same fuel s a b = some (x, t1) ∧ same fuel t1 b c = some (y, t2) ∧
      same fuel t2 a c = some (z, t3) ∧ (x = true → y = true → z = true)) := by
  obtain ⟨rep, rank, h⟩ := hs.inv
  refine ⟨?_, ?_, ?_⟩
  · obtain ⟨t, e, _⟩ := same_total h ha ha hf
    exact ⟨t, by simpa using e⟩
  · obtain ⟨t1, e1, _, h1⟩ := same_total h ha hb hf
    obtain ⟨t2, e2, _⟩ := same_total h1 hb ha hf
    refine ⟨_, t1, t2, e1, ?_⟩
    rw [e2]
    congr 2
    rw [Bool.eq_iff_iff]
    simp only [decide_eq_true_eq]
    exact eq_comm
  · obtain ⟨t1, e1, _, h1⟩ := same_total h ha hb hf
    obtain ⟨t2, e2, _, h2⟩ := same_total h1 hb hc hf
    obtain ⟨t3, e3, _⟩ := same_total h2 ha hc hf
    refine ⟨_, _, _, t1, t2, t3, e1, e2, e3, ?_⟩
    intro x y
    have x1 := of_decide_eq_true x
    have y1 := of_decide_eq_true y
    exact decide_eq_true (x1.trans y1)

/-- C4 on the demonstration, for the elements `1`, `8`, `4` of the example state. -/
theorem same_equivalence_witness :
    (∃ t, same 10 exampleState 1 1 = some (true, t)) ∧
    (∃ x t1 t2, same 10 exampleState 1 8 = some (x, t1) ∧ same 10 t1 8 1 = some (x, t2)) ∧
    (∃ x y z t1 t2 t3, same 10 exampleState 1 8 = some (x, t1) ∧
      same 10 t1 8 4 = some (y, t2) ∧ same 10 t2 1 4 = some (z, t3) ∧
      (x = true → y = true → z = true)) :=
  same_equivalence 10 exampleState exampleState_reachable 1 8 4 (by decide) (by decide)
    (by decide) 10 (by decide)

/-- C5: in a reachable state where `i` and `j` are already in the same set (`same i j` is
`true`, or the state was just produced by a `unite i j`), `unite i j` returns `false` and
every `size k`, `k < n`, is the same before and after the call. -/
theorem unite_same_set_returns_false (n : Nat) (s : DSU) (hs : Reachable n s) (i j : Nat)
    (hi : i < n) (hj : j < n) (fuel : Nat) (hf : n ≤ fuel)
    (hpre : (same fuel s i j).map Prod.fst = some true ∨
      ∃ s0 f0 b0, Reachable n s0 ∧ unite f0 s0 i j = some (b0, s)) :
    ∃ s1, unite fuel s i j = some (false, s1) ∧
      ∀ k, k < n → ∃ c, (size fuel s k).map Prod.fst = some c ∧
        (size fuel s1 k).map Prod.fst = some c := by
  have hrep : ∃ rep rank, Inv n s rep rank ∧ rep i = rep j := by
    rcases hpre with e | ⟨s0, f0, b0, hs0, hu0⟩
    · obtain ⟨rep, rank, h⟩ := hs.inv
      rw [same_fst h hi hj hf] at e
      exact ⟨rep, rank, h, of_decide_eq_true (Option.some.inj e)⟩
    · obtain ⟨rep0, rank0, h0⟩ := hs0.inv
      obtain ⟨rep1, rank1, h1, hiff, _, _⟩ := unite_rep h0 hi hj hu0
      exact ⟨rep1, rank1, h1, (hiff i j).mpr (Or.inr (Or.inl ⟨rfl, rfl⟩))⟩
  obtain ⟨rep, rank, h, he⟩ := hrep
  obtain ⟨b, s1, hu⟩ := unite_some h hi hj hf
  rcases unite_spec h hi hj hu with ⟨hb, _, c⟩ | ⟨_, hne, _⟩
  · subst hb
    refine ⟨s1, hu, ?_⟩
    intro k hk
    exact ⟨_, size_fst h hk hf, size_fst (h.compressed c) hk hf⟩
  · exact absurd he hne

/-- C5 on the demonstration: in the example state `unite 8 4` returns `false`, `size 8` is
still `4`, and no `size` changes. -/
theorem unite_same_set_returns_false_witness :
    ((unite 10 exampleState 8 4).map Prod.fst = some false ∧
     ((unite 10 exampleState 8 4).bind (fun r => (size 10 r.2 8).map Prod.fst)) = some 4) ∧
    ∃ s1, unite 10 exampleState 8 4 = some (false, s1) ∧
      ∀ k, k < 10 → ∃ c, (size 10 exampleState k).map Prod.fst = some c ∧
        (size 10 s1 k).map Prod.fst = some c :=
  ⟨by decide, unite_same_set_returns_false 10 exampleState exampleState_reachable 8 4
    (by decide) (by decide) 10 (by decide) (Or.inl (by decide))⟩

theorem find_construct {n i : Nat} (hi : i < n) (fuel : Nat) :
    find (fuel + 1) (construct n) i = some (i, construct n) := by
  have hp : (construct n).pa[i]? = some i := by
    rw [construct_pa]; exact List.getElem?_range hi
  simp [find, hp]

/-- C6: for every `n`, `reset n` applied to any state gives the state `construct n`, and
in that state every element is a singleton: `size i = 1` and `same i i = true` for `i < n`,
and `same i j = false` for distinct `i, j < n`. -/
theorem construct_reset_singletons (n : Nat) (s : DSU) :
    reset s n = construct n ∧
    ∀ fuel i j, 1 ≤ fuel → i < n → j < n →
      (size fuel (construct n) i).map Prod.fst = some 1 ∧
      (same fuel (construct n) i i).map Prod.fst = some true ∧
      (i ≠ j → (same fuel (construct n) i j).map Prod.fst = some false) := by
  refine ⟨by simp [reset, construct], ?_⟩
  intro fuel i j hf hi hj
  obtain ⟨f, rfl⟩ : ∃ f, fuel = f + 1 := ⟨fuel - 1, by omega⟩
  have hsz : (construct n).sz[i]? = some 1 := by
    rw [construct_sz, List.getElem?_replicate]; simp [hi]
  refine ⟨?_, ?_, ?_⟩
  · simp [size, find_construct hi f, hsz]
  · simp [same, find_construct hi f]
  · intro hne
    simp [same, find_construct hi f, find_construct hj f, hne]

/-- C6 on the demonstration: `reset 5` on the example state gives `construct 5`, where
`same 1 2` is `false` and `size 4` is `1`. -/
theorem construct_reset_singletons_witness :
    ((same 10 (reset exampleState 5) 1 2).map Prod.fst = some false ∧
     (size 10 (reset exampleState 5) 4).map Prod.fst = some 1) ∧
    reset exampleState 5 = construct 5 ∧
    ((size 10 (construct 5) 1).map Prod.fst = some 1 ∧
     (same 10 (construct 5) 1 1).map Prod.fst = some true ∧
     (1 ≠ 2 → (same 10 (construct 5) 1 2).map Prod.fst = some false)) :=
  ⟨by decide, (construct_reset_singletons 5 exampleState).1,
    (construct_reset_singletons 5 exampleState).2 10 1 2 (by decide) (by decide) (by decide)⟩

end DSU

/-! ## Modular matrices: cells, loops and shapes -/

namespace MatrixMod

namespace Matrix

theorem get_eq (m : Matrix) (i j : Nat) : m.get i j = (m.e[i]?.getD [])[j]?.getD 0 := by
  simp [get, List.getD_eq_getElem?_getD]

theorem set_R (m : Matrix) (i j : Nat) (v : Int) : (m.set i j v).R = m.R := rfl

theorem set_C (m : Matrix) (i j : Nat) (v : Int) : (m.set i j v).C = m.C := rfl

theorem WF.row {m : Matrix} (h : m.WF) {i : Nat} (hi : i < m.R) :
    ∃ row, m.e[i]? = some row ∧ row.length = m.C := by
  have hi1 : i < m.e.length := by rw [h.1]; exact hi
  exact ⟨m.e[i], List.getElem?_eq_getElem hi1, h.2 _ (List.getElem_mem hi1)⟩

theorem WF.set {m : Matrix} (h : m.WF) (i j : Nat) (v : Int) : (m.set i j v).WF := by
  constructor
  · show (m.e.set i _).length = m.R
    rw [List.length_set]; exact h.1
  · intro row hrow
    show row.length = m.C
    rcases List.mem_or_eq_of_mem_set hrow with h1 | h1
    · exact h.2 row h1
    · by_cases hi : i < m.R
      · obtain ⟨r, hr, hlen⟩ := h.row hi
        rw [h1, List.getD_eq_getElem?_getD, hr]
        simpa using hlen
      · have hle : m.e.length ≤ i := by rw [h.1]; omega
        have hset : (m.set i j v).e = m.e := by
          show m.e.set i _ = m.e
          exact List.set_eq_of_length_le hle
        rw [hset] at hrow
        exact h.2 row hrow

theorem get_set {m : Matrix} (h : m.WF) {i j : Nat} (hi : i < m.R) (hj : j < m.C) (v : Int)
    (i1 j1 : Nat) :
    (m.set i j v).get i1 j1 = if i1 = i ∧ j1 = j then v else m.get i1 j1 := by
  obtain ⟨r, hr, hlen⟩ := h.row hi
  have hi1 : i < m.e.length := by rw [h.1]; exact hi
  rw [get_eq, get_eq]
  show (((m.e.set i ((m.e.getD i []).set j v))[i1]?).getD [])[j1]?.getD 0 = _
  rw [List.getD_eq_getElem?_getD, hr]
  simp only [Option.getD_some]
  by_cases e1 : i1 = i
  · subst e1
    rw [List.getElem?_set_self hi1, hr]
    simp only [Option.getD_some, true_and]
    by_cases e2 : j1 = j
    · subst e2
      rw [List.getElem?_set_self (by rw [hlen]; exact hj)]
      simp
    · rw [List.getElem?_set_ne (Ne.symm e2)]
      simp [e2]
  · rw [List.getElem?_set_ne (Ne.symm e1)]
    simp [e1]

theorem WF.construct (r c : Nat) : (construct r c).WF := by
  constructor
  · simp [Matrix.construct]
  · intro row hrow
    simp only [Matrix.construct] at hrow
    rw [List.eq_of_mem_replicate hrow]
    simp [Matrix.construct]

theorem get_construct (r c i j : Nat) : (construct r c).get i j = 0 := by
  rw [get_eq]
  simp only [Matrix.construct, List.getElem?_replicate]
  by_cases hi : i < r
  · by_cases hj : j < c
    · simp [hi, hj]
    · simp [hi, hj]
  · simp [hi]

/-- Two well-formed matrices of the same shape with the same entries are equal. -/
theorem WF.ext {m1 m2 : Matrix} (h1 : m1.WF) (h2 : m2.WF) (hR : m1.R = m2.R)
    (hC : m1.C = m2.C) (h : ∀ i j, i < m1.R → j < m1.C → m1.get i j = m2.get i j) :
    m1 = m2 := by
  obtain ⟨e1, R1, C1⟩ := m1
  obtain ⟨e2, R2, C2⟩ := m2
  simp only at hR hC
  subst hR hC
  have hl1 : e1.length = R1 := h1.1
  have hl2 : e2.length = R1 := h2.1
  have he : e1 = e2 := by
    apply List.ext_getElem
    · rw [hl1, hl2]
    · intro i hi1 hi2
      have hi : i < R1 := by rw [← hl1]; exact hi1
      have l1 : (e1[i]).length = C1 := h1.2 _ (List.getElem_mem hi1)
      have l2 : (e2[i]).length = C1 := h2.2 _ (List.getElem_mem hi2)
      apply List.ext_getElem
      · rw [l1, l2]
      · intro j hj1 hj2
        have hj : j < C1 := by rw [← l1]; exact hj1
        have := h i j hi hj
        rw [get_eq, get_eq] at this
        simp only [List.getElem?_eq_getElem hi1, List.getElem?_eq_getElem hi2,
          Option.getD_some, List.getElem?_eq_getElem hj1, List.getElem?_eq_getElem hj2] at this
        exact this
  rw [he]

end Matrix

theorem cellStep_set (R P : Nat) (v : Nat → Nat → Int) :
    CellStep R P (fun res i j => res.set i j (v i j)) (fun i j _ => v i j) := by
  intro res i j hwf hR hP hi hj
  refine ⟨hwf.set i j _, hR, hP, ?_, ?_⟩
  · rw [Matrix.get_set hwf (by rw [hR]; exact hi) (by rw [hP]; exact hj)]
    simp
  · intro i1 j1 hne
    rw [Matrix.get_set hwf (by rw [hR]; exact hi) (by rw [hP]; exact hj)]
    have : ¬ (i1 = i ∧ j1 = j) := by
      rintro ⟨e1, e2⟩
      rcases hne with h | h
      · exact h e1
      · exact h e2
    simp [this]

theorem cellStep_inner (R P : Nat) (g : Nat → Nat → Int → Nat → Int) (n : Nat) :
    CellStep R P
      (fun res i j => (List.range n).foldl (fun res k => res.set i j (g i j (res.get i j) k)) res)
      (fun i j x => (List.range n).foldl (fun acc k => g i j acc k) x) := by
  induction n with
  | zero =>
    intro res i j hwf hR hP _ _
    exact ⟨hwf, hR, hP, rfl, fun _ _ _ => rfl⟩
  | succ n ih =>
    intro res i j hwf hR hP hi hj
    obtain ⟨w1, r1, c1, g1, o1⟩ := ih res i j hwf hR hP hi hj
    simp only [List.range_succ, List.foldl_append, List.foldl_cons, List.foldl_nil]
    simp only at w1 r1 c1 g1 o1
    refine ⟨w1.set i j _, r1, c1, ?_, ?_⟩
    · rw [Matrix.get_set w1 (by rw [r1]; exact hi) (by rw [c1]; exact hj), g1]
      simp
    · intro i1 j1 hne
      rw [Matrix.get_set w1 (by rw [r1]; exact hi) (by rw [c1]; exact hj)]
      have : ¬ (i1 = i ∧ j1 = j) := by
        rintro ⟨e1, e2⟩
        rcases hne with h | h
        · exact h e1
        · exact h e2
      simp only [this, if_false]
      exact o1 i1 j1 hne

/-- The loop over the columns of row `i`. -/
theorem rowLoop {R P : Nat} {f : Matrix → Nat → Nat → Matrix} {val : Nat → Nat → Int → Int}
    (hf : CellStep R P f val) {res : Matrix} (hwf : res.WF) (hR : res.R = R) (hP : res.C = P)
    {i : Nat} (hi : i < R) (n : Nat) (hn : n ≤ P) :
    ((List.range n).foldl (fun res j => f res i j) res).WF ∧
    ((List.range n).foldl (fun res j => f res i j) res).R = R ∧
    ((List.range n).foldl (fun res j => f res i j) res).C = P ∧
    (∀ j, j < n →
      ((List.range n).foldl (fun res j => f res i j) res).get i j = val i j (res.get i j)) ∧
    (∀ i1 j1, (i1 ≠ i ∨ n ≤ j1) →
      ((List.range n).foldl (fun res j => f res i j) res).get i1 j1 = res.get i1 j1) := by
  induction n with
  | zero =>
    exact ⟨hwf, hR, hP, fun j hj => absurd hj (Nat.not_lt_zero j), fun _ _ _ => rfl⟩
  | succ n ih =>
    obtain ⟨w1, r1, c1, g1, o1⟩ := ih (by omega)
    simp only [List.range_succ, List.foldl_append, List.foldl_cons, List.foldl_nil]
    obtain ⟨w2, r2, c2, g2, o2⟩ := hf _ i n w1 r1 c1 hi (by omega)
    refine ⟨w2, r2, c2, ?_, ?_⟩
    · intro j hj
      by_cases e : j = n
      · subst e
        rw [g2, o1 i j (Or.inr (le_refl j))]
      · rw [o2 i j (Or.inr e)]
        exact g1 j (by omega)
    · intro i1 j1 hne
      have h2 : i1 ≠ i ∨ j1 ≠ n := by
        rcases hne with h | h
        · exact Or.inl h
        · exact Or.inr (by omega)
      have h1 : i1 ≠ i ∨ n ≤ j1 := by
        rcases hne with h | h
        · exact Or.inl h
        · exact Or.inr (by omega)
      rw [o2 i1 j1 h2]
      exact o1 i1 j1 h1

/-- The two outer loops over all cells of the result. -/
theorem nestLoop {R P : Nat} {f : Matrix → Nat → Nat → Matrix} {val : Nat → Nat → Int → Int}
    (hf : CellStep R P f val) {res : Matrix} (hwf : res.WF) (hR : res.R = R) (hP : res.C = P)
    (n : Nat) (hn : n ≤ R) :
    ((List.range n).foldl
      (fun res i => (List.range P).foldl (fun res j => f res i j) res) res).WF ∧
    ((List.range n).foldl
      (fun res i => (List.range P).foldl (fun res j => f res i j) res) res).R = R ∧
    ((List.range n).foldl
      (fun res i => (List.range P).foldl (fun res j => f res i j) res) res).C = P ∧
    (∀ i j, i < n → j < P →
      ((List.range n).foldl
        (fun res i => (List.range P).foldl (fun res j => f res i j) res) res).get i j
        = val i j (res.get i j)) ∧
    (∀ i1 j1, n ≤ i1 →
      ((List.range n).foldl
        (fun res i => (List.range P).foldl (fun res j => f res i j) res) res).get i1 j1
        = res.get i1 j1) := by
  induction n with
  | zero =>
    exact ⟨hwf, hR, hP, fun i j hi => absurd hi (Nat.not_lt_zero i), fun _ _ _ => rfl⟩
  | succ n ih =>
    obtain ⟨w1, r1, c1, g1, o1⟩ := ih (by omega)
    simp only [List.range_succ, List.foldl_append, List.foldl_cons, List.foldl_nil]
    obtain ⟨w2, r2, c2, g2, o2⟩ := rowLoop hf w1 r1 c1 (i := n) (by omega) P (le_refl P)
    refine ⟨w2, r2, c2, ?_, ?_⟩
    · intro i j hi hj
      by_cases e : i = n
      · subst e
        rw [g2 j hj, o1 i j (le_refl i)]
      · rw [o2 i j (Or.inl e)]
        exact g1 i j (by omega) hj
    · intro i1 j1 hle
      rw [o2 i1 j1 (Or.inl (by omega))]
      exact o1 i1 j1 (by omega)

/-- A positive modulus cannot trap a remainder. -/
theorem NoTrap.of_pos {MOD : Int} (hM : 1 ≤ MOD) : NoTrap MOD :=
  ⟨by omega, by omega⟩

/-- Away from the moduli `0` and `-1` the remainder is the truncating one. -/
theorem rem_eq_some {MOD : Int} (hT : NoTrap MOD) (x : Int) :
    rem x MOD = some (Int.tmod x MOD) := by
  unfold rem
  rw [if_neg]
  rintro (h | ⟨_, h⟩)
  · exact hT.1 h
  · exact hT.2 h

/-- A remainder that does not trap is the truncating one. -/
theorem rem_some_eq {x MOD v : Int} (h : rem x MOD = some v) : v = Int.tmod x MOD := by
  unfold rem at h
  split at h
  · exact absurd h (by simp)
  · exact (Option.some.inj h).symm

/-- The remainder by `0` traps. -/
theorem rem_zero (x : Int) : rem x 0 = none := by
  simp [rem]

/-- A loop none of whose rounds can fail is a fold. -/
theorem forEach_eq_foldl {σ : Type} {body : σ → Nat → Option σ} {f : σ → Nat → σ}
    (h : ∀ s t, body s t = some (f s t)) (ts : List Nat) (s : σ) :
    forEach body ts s = some (ts.foldl f s) := by
  induction ts generalizing s with
  | nil => rfl
  | cons t ts ih =>
    simp only [forEach, h, List.foldl_cons]
    exact ih (f s t)

/-- A loop that came to its end went through the rounds of the fold. -/
theorem forEach_some_foldl {σ : Type} {body : σ → Nat → Option σ} {f : σ → Nat → σ}
    (h : ∀ s t v, body s t = some v → v = f s t) (ts : List Nat) (s p : σ)
    (hp : forEach body ts s = some p) : p = ts.foldl f s := by
  induction ts generalizing s with
  | nil =>
    simp only [forEach] at hp
    exact (Option.some.inj hp).symm
  | cons t ts ih =>
    simp only [forEach] at hp
    cases hb : body s t with
    | none => rw [hb] at hp; exact absurd hp (by simp)
    | some v =>
      rw [hb] at hp
      rw [List.foldl_cons, ← h s t v hb]
      exact ih v hp

/-- When no remainder traps, `mul` on matching dimensions runs its loops to the end. -/
theorem mul_eq_loops {ov : Int → Int} {MOD : Int} (hT : NoTrap MOD) (a ot : Matrix)
    (h : a.C = ot.R) : mul ov MOD a ot = some (mulLoops ov MOD a ot) := by
  unfold mul mulLoops
  rw [if_pos h]
  refine forEach_eq_foldl (fun res i => ?_) _ _
  refine forEach_eq_foldl (fun res j => ?_) _ _
  refine forEach_eq_foldl (fun res k => ?_) _ _
  rw [rem_eq_some hT]
  rfl

/-- Whatever the modulus, a product that `mul` returns is the matrix its loops leave, and
the dimensions matched. -/
theorem mul_some_loops {ov : Int → Int} {MOD : Int} {a ot p : Matrix}
    (hp : mul ov MOD a ot = some p) : a.C = ot.R ∧ p = mulLoops ov MOD a ot := by
  unfold mul at hp
  by_cases h : a.C = ot.R
  · rw [if_pos h] at hp
    refine ⟨h, ?_⟩
    unfold mulLoops
    refine forEach_some_foldl (fun res i v hv => ?_) _ _ _ hp
    refine forEach_some_foldl (fun res j v hv => ?_) _ _ _ hv
    refine forEach_some_foldl (fun res k v hv => ?_) _ _ _ hv
    cases hr : rem (ov (res.get i j + ov (a.get i k * ot.get k j))) MOD with
    | none => rw [hr] at hv; exact absurd hv (by simp)
    | some x =>
      rw [hr] at hv
      rw [← rem_some_eq hr]
      exact (Option.some.inj hv).symm
  · rw [if_neg h] at hp
    exact absurd hp (by simp)

/-- The matrix the loops of `mul` leave: a well-formed `a.R x ot.C` matrix whose cell
`(i, j)` holds the accumulation over `k`. -/
theorem mulLoops_eq (ov : Int → Int) (MOD : Int) (a ot : Matrix) :
    (mulLoops ov MOD a ot).WF ∧ (mulLoops ov MOD a ot).R = a.R ∧
      (mulLoops ov MOD a ot).C = ot.C ∧
      ∀ i j, i < a.R → j < ot.C →
        (mulLoops ov MOD a ot).get i j = accumulate ov MOD a ot i j 0 := by
  have hf := cellStep_inner a.R ot.C
    (fun i j acc k => Int.tmod (ov (acc + ov (a.get i k * ot.get k j))) MOD) a.C
  obtain ⟨w, r, c, g, _⟩ := nestLoop hf (Matrix.WF.construct a.R ot.C) rfl rfl a.R (le_refl _)
  refine ⟨w, r, c, ?_⟩
  intro i j hi hj
  rw [mulLoops, g i j hi hj, Matrix.get_construct]
  rfl

/-- The result of `mul` when no remainder traps: on matching dimensions it is a
well-formed `a.R x ot.C` matrix whose cell `(i, j)` holds the accumulation over `k`. -/
theorem mul_eq (ov : Int → Int) (MOD : Int) (hT : NoTrap MOD) (a ot : Matrix)
    (h : a.C = ot.R) :
    ∃ p, mul ov MOD a ot = some p ∧ p.WF ∧ p.R = a.R ∧ p.C = ot.C ∧
      ∀ i j, i < a.R → j < ot.C → p.get i j = accumulate ov MOD a ot i j 0 :=
  ⟨_, mul_eq_loops hT a ot h, mulLoops_eq ov MOD a ot⟩

theorem mul_none (ov : Int → Int) (MOD : Int) (a ot : Matrix) (h : a.C ≠ ot.R) :
    mul ov MOD a ot = none := by
  simp [mul, h]

/-- Whatever the modulus, a product that `mul` returns has the expected shape. -/
theorem mul_some_shape {ov : Int → Int} {MOD : Int} {a ot p : Matrix}
    (hp : mul ov MOD a ot = some p) : a.C = ot.R ∧ p.WF ∧ p.R = a.R ∧ p.C = ot.C := by
  obtain ⟨h, e⟩ := mul_some_loops hp
  obtain ⟨w, r, c, _⟩ := mulLoops_eq ov MOD a ot
  rw [e]
  exact ⟨h, w, r, c⟩

/-- The entries of `identity n`. -/
theorem identity_eq (n : Nat) :
    (identity n).WF ∧ (identity n).R = n ∧ (identity n).C = n ∧
      ∀ i j, i < n → j < n → (identity n).get i j = if i = j then 1 else 0 := by
  have key : ∀ m, m ≤ n →
      ((List.range m).foldl (fun res i => res.set i i 1) (Matrix.construct n n)).WF ∧
      ((List.range m).foldl (fun res i => res.set i i 1) (Matrix.construct n n)).R = n ∧
      ((List.range m).foldl (fun res i => res.set i i 1) (Matrix.construct n n)).C = n ∧
      ∀ i j, ((List.range m).foldl (fun res i => res.set i i 1) (Matrix.construct n n)).get i j
        = if i = j ∧ i < m then 1 else 0 := by
    intro m
    induction m with
    | zero =>
      intro _
      simp only [List.range_zero, List.foldl_nil]
      exact ⟨Matrix.WF.construct n n, rfl, rfl, fun i j => by simp [Matrix.get_construct]⟩
    | succ m ih =>
      intro hm
      obtain ⟨w1, r1, c1, g1⟩ := ih (by omega)
      simp only [List.range_succ, List.foldl_append, List.foldl_cons, List.foldl_nil]
      refine ⟨w1.set m m 1, r1, c1, ?_⟩
      intro i j
      rw [Matrix.get_set w1 (by rw [r1]; omega) (by rw [c1]; omega), g1]
      by_cases e1 : i = m
      · by_cases e2 : j = m
        · simp [e1, e2]
        · have : ¬ m = j := fun x => e2 x.symm
          simp [e1, e2, this]
      · by_cases e2 : i = j
        · have : ¬ j = m := fun x => e1 (e2.trans x)
          have e3 : (j < m + 1) ↔ (j < m) := by omega
          simp [e1, e2, this, e3]
        · simp [e1, e2]
  obtain ⟨w, r, c, g⟩ := key n (le_refl n)
  refine ⟨w, r, c, ?_⟩
  intro i j hi _
  show ((List.range n).foldl (fun res i => res.set i i 1) (Matrix.construct n n)).get i j = _
  rw [g]
  simp [hi]

/-! ## Modular matrices: arithmetic of one cell -/

theorem exactOn_exact (L : Int) : ExactOn exact L := fun _ _ _ => rfl

theorem exactOn_wrap64 {L : Int} (hL : L < 2 ^ 63) : ExactOn wrap64 L := by
  intro x h0 h1
  unfold wrap64
  have h2 : (x + 2 ^ 63) % 2 ^ 64 = x + 2 ^ 63 :=
    Int.emod_eq_of_lt (by positivity) (by norm_num at hL ⊢; omega)
  rw [h2]
  ring

/-- One round of the innermost loop of `mul` when no intermediate value leaves the range on
which the arithmetic is exact: the accumulator stays the residue of the partial sum. -/
theorem accumulate_step {ov : Int → Int} {MOD L A B s x y : Int} (hM : 1 ≤ MOD)
    (hov : ExactOn ov L) (hL : A * B + (MOD - 1) ≤ L)
    (hx : 0 ≤ x ∧ x ≤ A) (hy : 0 ≤ y ∧ y ≤ B) :
    Int.tmod (ov (s % MOD + ov (x * y))) MOD = (s + x * y) % MOD := by
  have hxy0 : 0 ≤ x * y := mul_nonneg hx.1 hy.1
  have hxy1 : x * y ≤ A * B := mul_le_mul hx.2 hy.2 hy.1 (le_trans hx.1 hx.2)
  have hs0 : 0 ≤ s % MOD := Int.emod_nonneg s (by omega)
  have hs1 : s % MOD < MOD := Int.emod_lt_of_pos s (by omega)
  rw [hov (x * y) hxy0 (by omega), hov (s % MOD + x * y) (by omega) (by omega),
    Int.tmod_eq_emod (by omega) (by omega), Int.emod_add_cancel_right, Int.emod_emod_of_dvd]
  exact dvd_refl MOD

theorem accumulate_eq {ov : Int → Int} {MOD L A B : Int} {a ot : Matrix} {i j : Nat}
    (hM : 1 ≤ MOD) (hov : ExactOn ov L) (hL : A * B + (MOD - 1) ≤ L)
    (ha : ∀ k, k < a.C → 0 ≤ a.get i k ∧ a.get i k ≤ A)
    (hb : ∀ k, k < a.C → 0 ≤ ot.get k j ∧ ot.get k j ≤ B) :
    accumulate ov MOD a ot i j 0 = dot a ot i j % MOD := by
  have key : ∀ n, n ≤ a.C →
      (List.range n).foldl
        (fun acc k => Int.tmod (ov (acc + ov (a.get i k * ot.get k j))) MOD) 0
      = ((List.range n).map (fun k => a.get i k * ot.get k j)).sum % MOD := by
    intro n
    induction n with
    | zero => intro _; simp
    | succ n ih =>
      intro hn
      simp only [List.range_succ, List.foldl_append, List.foldl_cons, List.foldl_nil,
        List.map_append, List.map_cons, List.map_nil, List.sum_append, List.sum_cons,
        List.sum_nil, add_zero]
      rw [ih (by omega)]
      exact accumulate_step hM hov hL (ha n (by omega)) (hb n (by omega))
  exact key a.C (le_refl _)

/-- The result of `mul` when the arithmetic is exact on the values that occur: cell
`(i, j)` is the canonical residue of the integer dot product. -/
theorem mul_spec {ov : Int → Int} {MOD L A B : Int} {a ot : Matrix}
    (hM : 1 ≤ MOD) (hov : ExactOn ov L) (hL : A * B + (MOD - 1) ≤ L) (h : a.C = ot.R)
    (ha : a.Bounded A) (hb : ot.Bounded B) :
    ∃ p, mul ov MOD a ot = some p ∧ p.WF ∧ p.R = a.R ∧ p.C = ot.C ∧
      (∀ i j, i < a.R → j < ot.C → p.get i j = dot a ot i j % MOD) ∧ p.Reduced MOD := by
  obtain ⟨p, hp, w, r, c, g⟩ := mul_eq ov MOD (NoTrap.of_pos hM) a ot h
  have g1 : ∀ i j, i < a.R → j < ot.C → p.get i j = dot a ot i j % MOD := by
    intro i j hi hj
    rw [g i j hi hj]
    exact accumulate_eq hM hov hL (fun k hk => ha i k hi hk)
      (fun k hk => hb k j (by rw [← h]; exact hk) hj)
  refine ⟨p, hp, w, r, c, g1, ?_⟩
  intro i j hi hj
  rw [g1 i j (by rw [← r]; exact hi) (by rw [← c]; exact hj)]
  exact ⟨Int.emod_nonneg _ (by omega), Int.emod_lt_of_pos _ (by omega)⟩

end MatrixMod

/-! ## Modular matrices: the product and the power as matrix algebra -/

namespace MatrixModAlg

open MatrixMod (mul identity power powerLoop dot intMul intIdentity naivePower ExactOn)

theorem sum_range_map (f : Nat → Int) (n : Nat) :
    ((List.range n).map f).sum = ∑ k in Finset.range n, f k := by
  induction n with
  | zero => simp
  | succ n ih =>
    rw [List.range_succ, List.map_append, List.sum_append, ih, Finset.sum_range_succ]
    simp

theorem dot_eq_sum {a b : MatrixMod.Matrix} {n : Nat} (h : a.C = n) (i j : Nat) :
    dot a b i j = ∑ k : Fin n, a.get i k.val * b.get k.val j := by
  unfold MatrixMod.dot
  rw [sum_range_map, h, ← Fin.sum_univ_eq_sum_range (fun k => a.get i k * b.get k j) n]

theorem toZ_apply (q n : Nat) (m : MatrixMod.Matrix) (i j : Fin n) :
    toZ q n m i j = ((m.get i.val j.val : Int) : ZMod q) := rfl

theorem toI_apply (n : Nat) (m : MatrixMod.Matrix) (i j : Fin n) :
    toI n m i j = m.get i.val j.val := rfl

theorem toZ_eq_map (q n : Nat) (m : MatrixMod.Matrix) :
    toZ q n m = (Int.castRingHom (ZMod q)).mapMatrix (toI n m) := by
  ext i j
  simp [toZ_apply, toI_apply]

/-- A product computed by `mul` is the matrix product of the residues. -/
theorem toZ_mul {MOD : Int} {n : Nat} {a b p : MatrixMod.Matrix} (hM : 1 ≤ MOD)
    (ha : a.C = n)
    (hp : ∀ i j, i < n → j < n → p.get i j = dot a b i j % MOD) :
    toZ MOD.toNat n p = toZ MOD.toNat n a * toZ MOD.toNat n b := by
  have hq : ((MOD.toNat : Nat) : Int) = MOD := Int.toNat_of_nonneg (by omega)
  ext i j
  rw [Matrix.mul_apply, toZ_apply, hp i.val j.val i.isLt j.isLt, dot_eq_sum ha]
  have h1 : ((((∑ k : Fin n, a.get i.val k.val * b.get k.val j.val) % MOD : Int)) :
      ZMod MOD.toNat) = ((∑ k : Fin n, a.get i.val k.val * b.get k.val j.val : Int) :
      ZMod MOD.toNat) := by
    apply (ZMod.intCast_eq_intCast_iff _ _ _).mpr
    rw [hq]
    exact Int.mod_modEq _ _
  rw [h1]
  push_cast
  rfl

theorem toZ_identity (q n : Nat) : toZ q n (identity n) = 1 := by
  obtain ⟨_, _, _, g⟩ := MatrixMod.identity_eq n
  ext i j
  rw [toZ_apply, g i.val j.val i.isLt j.isLt, Matrix.one_apply]
  by_cases e : i = j
  · have : i.val = j.val := congrArg Fin.val e
    simp [e]
  · have : ¬ i.val = j.val := fun x => e (Fin.ext x)
    simp [e, this]

/-- Equal residue matrices have entrywise equal residues. -/
theorem residue_eq {MOD : Int} {n : Nat} {p m : MatrixMod.Matrix} (hM : 1 ≤ MOD)
    (h : toZ MOD.toNat n p = toZ MOD.toNat n m) (i j : Nat) (hi : i < n) (hj : j < n) :
    p.get i j % MOD = m.get i j % MOD := by
  have hq : ((MOD.toNat : Nat) : Int) = MOD := Int.toNat_of_nonneg (by omega)
  have h1 := congrFun (congrFun h ⟨i, hi⟩) ⟨j, hj⟩
  rw [toZ_apply, toZ_apply] at h1
  have h2 := (ZMod.intCast_eq_intCast_iff _ _ _).mp h1
  rw [hq] at h2
  exact h2

theorem reduced_mod {MOD : Int} {m : MatrixMod.Matrix} (h : m.Reduced MOD) {i j : Nat}
    (hi : i < m.R) (hj : j < m.C) : m.get i j % MOD = m.get i j :=
  Int.emod_eq_of_lt (h i j hi hj).1 (h i j hi hj).2

/-- Two reduced well-formed `n x n` matrices with the same residues are equal. -/
theorem reduced_ext {MOD : Int} {n : Nat} {p m : MatrixMod.Matrix} (hM : 1 ≤ MOD)
    (wp : p.WF) (wm : m.WF) (pR : p.R = n) (pC : p.C = n) (mR : m.R = n) (mC : m.C = n)
    (rp : p.Reduced MOD) (rm : m.Reduced MOD)
    (h : toZ MOD.toNat n p = toZ MOD.toNat n m) : p = m := by
  apply MatrixMod.Matrix.WF.ext wp wm (pR.trans mR.symm) (pC.trans mC.symm)
  intro i j hi hj
  have h1 := residue_eq hM h i j (by rw [← pR]; exact hi) (by rw [← pC]; exact hj)
  rw [reduced_mod rp hi hj,
    reduced_mod rm (by rw [mR, ← pR]; exact hi) (by rw [mC, ← pC]; exact hj)] at h1
  exact h1

theorem bound_step {MOD : Int} (hM : 1 ≤ MOD) :
    max 1 (MOD - 1) * (MOD - 1) + (MOD - 1) ≤ MOD * (MOD - 1) := by
  rcases le_or_lt MOD 1 with h | h
  · have : MOD = 1 := le_antisymm h hM
    subst this
    simp
  · rw [max_eq_right (by omega)]
    nlinarith

theorem Reduced.bounded {MOD : Int} {m : MatrixMod.Matrix} (h : m.Reduced MOD) :
    m.Bounded (MOD - 1) := fun i j hi hj => ⟨(h i j hi hj).1, by have := (h i j hi hj).2; omega⟩

theorem Bounded.weaken {A B : Int} {m : MatrixMod.Matrix} (h : m.Bounded A) (hAB : A ≤ B) :
    m.Bounded B := fun i j hi hj => ⟨(h i j hi hj).1, le_trans (h i j hi hj).2 hAB⟩

theorem identity_bounded (n : Nat) : (identity n).Bounded 1 := by
  obtain ⟨_, r, c, g⟩ := MatrixMod.identity_eq n
  intro i j hi hj
  rw [g i j (by rw [← r]; exact hi) (by rw [← c]; exact hj)]
  split <;> decide

/-- One product inside `power`: well-formed square operands, the left one bounded by
`max 1 (MOD - 1)` and the right one reduced, give a reduced well-formed square result
whose residues are the product of the residues. -/
theorem mul_square {ov : Int → Int} {MOD : Int} {n : Nat} {a b : MatrixMod.Matrix}
    (hM : 1 ≤ MOD) (hov : ExactOn ov (MOD * (MOD - 1)))
    (aR : a.R = n) (aC : a.C = n) (bR : b.R = n) (bC : b.C = n)
    (ha : a.Bounded (max 1 (MOD - 1))) (hb : b.Reduced MOD) :
    ∃ p, mul ov MOD a b = some p ∧ p.WF ∧ p.R = n ∧ p.C = n ∧ p.Reduced MOD ∧
      (∀ i j, i < n → j < n → p.get i j = dot a b i j % MOD) ∧
      toZ MOD.toNat n p = toZ MOD.toNat n a * toZ MOD.toNat n b := by
  obtain ⟨p, hp, w, r, c, g, red⟩ :=
    MatrixMod.mul_spec hM hov (bound_step hM) (aC.trans bR.symm) ha (Reduced.bounded hb)
  have g1 : ∀ i j, i < n → j < n → p.get i j = dot a b i j % MOD := fun i j hi hj =>
    g i j (by rw [aR]; exact hi) (by rw [bC]; exact hj)
  exact ⟨p, hp, w, r.trans aR, c.trans bC, red, g1, toZ_mul hM aC g1⟩

/-- The loop of `power`: with more fuel than `k` it returns, and the residues of its result
are `res * b ^ k`. -/
theorem powerLoop_spec {ov : Int → Int} {MOD : Int} {n : Nat} (hM : 1 ≤ MOD)
    (hov : ExactOn ov (MOD * (MOD - 1))) (fuel : Nat) :
    ∀ (res b : MatrixMod.Matrix) (k : Nat), k < fuel →
      res.WF → res.R = n → res.C = n → b.WF → b.R = n → b.C = n →
      res.Bounded (max 1 (MOD - 1)) → b.Reduced MOD →
      ∃ p, powerLoop ov MOD fuel res b k = some p ∧ p.WF ∧ p.R = n ∧ p.C = n ∧
        toZ MOD.toNat n p = toZ MOD.toNat n res * toZ MOD.toNat n b ^ k ∧
        (k = 0 → p = res) ∧ (1 ≤ k → p.Reduced MOD) := by
  induction fuel with
  | zero => intro res b k hk; omega
  | succ fuel ih =>
    intro res b k hk wr rR rC wb bR bC hres hb
    by_cases hk0 : k = 0
    · subst hk0
      refine ⟨res, by simp [powerLoop], wr, rR, rC, by simp, fun _ => rfl, fun h => by omega⟩
    · have hpos : 0 < k := Nat.pos_of_ne_zero hk0
      obtain ⟨b1, hb1, wb1, b1R, b1C, b1red, _, b1Z⟩ :=
        mul_square hM hov bR bC bR bC (Bounded.weaken (Reduced.bounded hb) (le_max_right _ _)) hb
      have hkdecomp : k = k % 2 + 2 * (k / 2) := (Nat.mod_add_div k 2).symm
      by_cases hodd : k % 2 = 1
      · obtain ⟨r1, hr1, wr1, r1R, r1C, r1red, _, r1Z⟩ :=
          mul_square hM hov rR rC bR bC hres hb
        obtain ⟨p, hp, wp, pR, pC, pZ, p0, pred⟩ :=
          ih r1 b1 (k / 2) (by omega) wr1 r1R r1C wb1 b1R b1C
            (Bounded.weaken (Reduced.bounded r1red) (le_max_right _ _)) b1red
        refine ⟨p, by simp [powerLoop, hpos, hodd, hr1, hb1, hp], wp, pR, pC, ?_,
          fun h => absurd h hk0, ?_⟩
        · rw [pZ, r1Z, b1Z]
          conv_rhs => rw [hkdecomp, hodd]
          rw [pow_add, pow_mul, pow_two, pow_one, mul_assoc]
        · intro _
          by_cases hhalf : k / 2 = 0
          · rw [p0 hhalf]; exact r1red
          · exact pred (by omega)
      · have heven : k % 2 = 0 := by omega
        obtain ⟨p, hp, wp, pR, pC, pZ, p0, pred⟩ :=
          ih res b1 (k / 2) (by omega) wr rR rC wb1 b1R b1C hres b1red
        refine ⟨p, by simp [powerLoop, hpos, heven, hb1, hp], wp, pR, pC, ?_,
          fun h => absurd h hk0, ?_⟩
        · rw [pZ, b1Z]
          conv_rhs => rw [hkdecomp, heven]
          rw [zero_add, pow_mul, pow_two]
        · intro _
          exact pred (by omega)

/-- The function `power` under arithmetic that is exact on `[0, MOD * (MOD - 1)]`: it
returns a well-formed square matrix whose residues are the `k`-th power of the residues
of `m`; the result is `identity` for `k = 0` and reduced for `k ≥ 1`. -/
theorem power_spec {ov : Int → Int} {MOD : Int} {n : Nat} {m : MatrixMod.Matrix} (hM : 1 ≤ MOD)
    (hov : ExactOn ov (MOD * (MOD - 1))) (wm : m.WF) (mR : m.R = n) (mC : m.C = n)
    (hm : m.Reduced MOD) (k : Nat) :
    ∃ p, power ov MOD m k = some p ∧ p.WF ∧ p.R = n ∧ p.C = n ∧
      toZ MOD.toNat n p = toZ MOD.toNat n m ^ k ∧
      (k = 0 → p = identity n) ∧ (1 ≤ k → p.Reduced MOD) := by
  obtain ⟨wi, iR, iC, _⟩ := MatrixMod.identity_eq n
  obtain ⟨p, hp, wp, pR, pC, pZ, p0, pred⟩ :=
    powerLoop_spec (n := n) hM hov (k + 1) (identity n) m k (by omega) wi iR iC wm mR mC
      (Bounded.weaken (identity_bounded n) (le_max_left _ _)) hm
  refine ⟨p, ?_, wp, pR, pC, ?_, p0, pred⟩
  · unfold MatrixMod.power
    rw [if_pos (mR.trans mC.symm), mR]
    exact hp
  · rw [pZ, toZ_identity, one_mul]

theorem intMul_get {a b : MatrixMod.Matrix} {i j : Nat} (hi : i < a.R) (hj : j < b.C) :
    (intMul a b).get i j = dot a b i j := by
  rw [MatrixMod.Matrix.get_eq]
  simp [MatrixMod.intMul, List.getElem?_range, hi, hj]

theorem intIdentity_get {n i j : Nat} (hi : i < n) (hj : j < n) :
    (intIdentity n).get i j = if i = j then 1 else 0 := by
  rw [MatrixMod.Matrix.get_eq]
  simp [MatrixMod.intIdentity, List.getElem?_range, hi, hj]

theorem naivePower_shape {m : MatrixMod.Matrix} {n : Nat} (mR : m.R = n) (mC : m.C = n)
    (k : Nat) : (naivePower m k).R = n ∧ (naivePower m k).C = n := by
  induction k with
  | zero => exact ⟨mR, mR⟩
  | succ k ih => exact ⟨ih.1, mC⟩

theorem toI_naivePower {m : MatrixMod.Matrix} {n : Nat} (mR : m.R = n) (mC : m.C = n)
    (k : Nat) : toI n (naivePower m k) = toI n m ^ k := by
  induction k with
  | zero =>
    ext i j
    rw [pow_zero, toI_apply, Matrix.one_apply]
    show (intIdentity m.R).get i.val j.val = _
    rw [mR, intIdentity_get i.isLt j.isLt]
    by_cases e : i = j
    · simp [e]
    · have : ¬ i.val = j.val := fun x => e (Fin.ext x)
      simp [e, this]
  | succ k ih =>
    obtain ⟨sR, sC⟩ := naivePower_shape mR mC k
    ext i j
    rw [pow_succ, ← ih, Matrix.mul_apply, toI_apply]
    show (intMul (naivePower m k) m).get i.val j.val = _
    rw [intMul_get (by rw [sR]; exact i.isLt) (by rw [mC]; exact j.isLt), dot_eq_sum sC]
    rfl

theorem toZ_naivePower {m : MatrixMod.Matrix} {n : Nat} (q : Nat) (mR : m.R = n)
    (mC : m.C = n) (k : Nat) : toZ q n (naivePower m k) = toZ q n m ^ k := by
  rw [toZ_eq_map, toZ_eq_map, toI_naivePower mR mC, map_pow]

/-- The result of `power` agrees entrywise with the naive integer power reduced modulo
`MOD`, whenever the arithmetic is exact on `[0, MOD * (MOD - 1)]`. -/
theorem power_naive {ov : Int → Int} {MOD : Int} {m : MatrixMod.Matrix} (hM : 1 ≤ MOD)
    (hov : ExactOn ov (MOD * (MOD - 1))) (wm : m.WF) (hsq : m.R = m.C)
    (hm : m.Reduced MOD) (k : Nat) :
    ∃ p, power ov MOD m k = some p ∧ p.WF ∧ p.R = m.R ∧ p.C = m.R ∧
      (k = 0 → p = identity m.R) ∧
      (1 ≤ k → ∀ i j, i < m.R → j < m.R →
        p.get i j = (naivePower m k).get i j % MOD) := by
  obtain ⟨p, hp, wp, pR, pC, pZ, p0, pred⟩ := power_spec hM hov wm rfl hsq.symm hm k
  refine ⟨p, hp, wp, pR, pC, p0, ?_⟩
  intro hk i j hi hj
  have hz : toZ MOD.toNat m.R p = toZ MOD.toNat m.R (naivePower m k) := by
    rw [pZ, toZ_naivePower _ rfl hsq.symm]
  have h1 := residue_eq hM hz i j hi hj
  rw [reduced_mod (pred hk) (by rw [pR]; exact hi) (by rw [pC]; exact hj)] at h1
  exact h1

end MatrixModAlg

/-! ## Modular matrices: the documented contract -/

namespace MatrixMod

theorem Matrix.Reduced.of_forall {MOD : Int} {m : Matrix}
    (h : ∀ i, i < m.R → ∀ j, j < m.C → 0 ≤ m.get i j ∧ m.get i j < MOD) : m.Reduced MOD :=
  fun i j hi hj => h i hi j hj

theorem exampleA_wf : exampleA.WF := by unfold Matrix.WF; decide

theorem exampleB_wf : exampleB.WF := by unfold Matrix.WF; decide

theorem exampleT_wf : exampleT.WF := by unfold Matrix.WF; decide

theorem bigM_wf : bigM.WF := by unfold Matrix.WF; decide

theorem exampleA_reduced : exampleA.Reduced 1000000007 := Matrix.Reduced.of_forall (by decide)

theorem exampleB_reduced : exampleB.Reduced 1000000007 := Matrix.Reduced.of_forall (by decide)

theorem exampleT_reduced : exampleT.Reduced 1000000007 := Matrix.Reduced.of_forall (by decide)

theorem bigM_reduced : bigM.Reduced 10000000000 := Matrix.Reduced.of_forall (by decide)

/-- C7: with integer arithmetic taken as exact, for every modulus `MOD ≥ 1`, every
`R x C` matrix `a` and `C x P` matrix `b` with entries in `[0, MOD)`, `mul a b` is a
well-formed `R x P` matrix whose entry `(i, j)` is the sum over `k < C` of
`a[i][k] * b[k][j]` reduced to its canonical residue modulo `MOD`. -/
theorem mul_entry_eq_dot_mod (MOD : Int) (a b : Matrix) (hM : 1 ≤ MOD) (_wa : a.WF)
    (_wb : b.WF) (h : a.C = b.R) (ha : a.Reduced MOD) (hb : b.Reduced MOD) :
    ∃ p, mul exact MOD a b = some p ∧ p.WF ∧ p.R = a.R ∧ p.C = b.C ∧
      ∀ i j, i < a.R → j < b.C →
        p.get i j = dot a b i j % MOD ∧ 0 ≤ p.get i j ∧ p.get i j < MOD := by
  obtain ⟨p, hp, w, r, c, g, red⟩ :=
    mul_spec hM (exactOn_exact ((MOD - 1) * (MOD - 1) + (MOD - 1))) (le_refl _) h
      (MatrixModAlg.Reduced.bounded ha) (MatrixModAlg.Reduced.bounded hb)
  refine ⟨p, hp, w, r, c, ?_⟩
  intro i j hi hj
  have := red i j (by rw [r]; exact hi) (by rw [c]; exact hj)
  exact ⟨g i j hi hj, this.1, this.2⟩

/-- C7 on the demonstration: with `MOD = 10^9 + 7`, `A * B = [[19, 22], [43, 50]]`, in
exact and in 64-bit arithmetic. -/
theorem mul_entry_eq_dot_mod_witness :
    (mul exact 1000000007 exampleA exampleB = some (ofRows [[19, 22], [43, 50]]) ∧
     mul wrap64 1000000007 exampleA exampleB = some (ofRows [[19, 22], [43, 50]])) ∧
    ∃ p, mul exact 1000000007 exampleA exampleB = some p ∧ p.WF ∧ p.R = exampleA.R ∧
      p.C = exampleB.C ∧
      ∀ i j, i < exampleA.R → j < exampleB.C →
        p.get i j = dot exampleA exampleB i j % 1000000007 ∧ 0 ≤ p.get i j ∧
          p.get i j < 1000000007 :=
  ⟨by decide, mul_entry_eq_dot_mod 1000000007 exampleA exampleB (by decide) exampleA_wf
    exampleB_wf rfl exampleA_reduced exampleB_reduced⟩

/-- Under exact integer arithmetic the statement of C8 holds for every modulus
`MOD ≥ 1`: only the width of `long long` stands between the loop and the naive power. -/
theorem power_exact_eq_naive (MOD : Int) (m : Matrix) (k : Nat) (hM : 1 ≤ MOD)
    (wm : m.WF) (hsq : m.R = m.C) (hm : m.Reduced MOD) :
    ∃ p, power exact MOD m k = some p ∧ p.WF ∧ p.R = m.R ∧ p.C = m.R ∧
      (k = 0 → p = identity m.R) ∧
      (1 ≤ k → ∀ i j, i < m.R → j < m.R →
        p.get i j = (naivePower m k).get i j % MOD) :=
  MatrixModAlg.power_naive hM (exactOn_exact _) wm hsq hm k

theorem fib_add_two (n : Nat) : fib (n + 2) = fib n + fib (n + 1) := rfl

theorem dot_exampleT (a : Matrix) (hC : a.C = 2) (i j : Nat) :
    dot a exampleT i j = a.get i 0 * exampleT.get 0 j + a.get i 1 * exampleT.get 1 j := by
  unfold dot
  rw [hC]
  simp [List.range_succ]

/-- The naive integer powers of the Fibonacci transition matrix. -/
theorem naivePower_exampleT (n : Nat) :
    (naivePower exampleT n).get 0 0 = (fib (n + 1) : Int) ∧
    (naivePower exampleT n).get 0 1 = (fib n : Int) ∧
    (naivePower exampleT n).get 1 0 = (fib n : Int) ∧
    (naivePower exampleT n).get 1 1 = (if n = 0 then 1 else (fib (n - 1) : Int)) := by
  induction n with
  | zero => decide
  | succ n ih =>
    obtain ⟨h00, h01, h10, h11⟩ := ih
    obtain ⟨sR, sC⟩ := MatrixModAlg.naivePower_shape (m := exampleT) (n := 2) rfl rfl n
    have t00 : exampleT.get 0 0 = 1 := by decide
    have t01 : exampleT.get 0 1 = 1 := by decide
    have t10 : exampleT.get 1 0 = 1 := by decide
    have t11 : exampleT.get 1 1 = 0 := by decide
    have e : ∀ i j, i < 2 → j < 2 → (naivePower exampleT (n + 1)).get i j =
        (naivePower exampleT n).get i 0 * exampleT.get 0 j +
        (naivePower exampleT n).get i 1 * exampleT.get 1 j := by
      intro i j hi hj
      show (intMul (naivePower exampleT n) exampleT).get i j = _
      rw [MatrixModAlg.intMul_get (by rw [sR]; exact hi) hj, dot_exampleT _ sC]
    refine ⟨?_, ?_, ?_, ?_⟩
    · rw [e 0 0 (by decide) (by decide), h00, h01, t00, t10, fib_add_two]
      push_cast
      ring
    · rw [e 0 1 (by decide) (by decide), h00, h01, t01, t11]
      ring
    · rw [e 1 0 (by decide) (by decide), h10, h11, t00, t10]
      cases n with
      | zero => decide
      | succ n =>
        simp only [Nat.add_sub_cancel, Nat.succ_ne_zero, if_false]
        rw [fib_add_two]
        push_cast
        ring
    · rw [e 1 1 (by decide) (by decide), h10, h11, t01, t11]
      simp

/-- C9: with `MOD = 10^9 + 7` and `T = [[1, 1], [1, 0]]`, for every `n` the call
`T.power(n)` returns in 64-bit arithmetic, and its top-left entry is `F(n + 1) mod MOD`
for the Fibonacci sequence `F(0) = 0`, `F(1) = 1`. -/
theorem power_exampleT_fib (n : Nat) :
    ∃ p, power wrap64 1000000007 exampleT n = some p ∧
      p.get 0 0 = (fib (n + 1) : Int) % 1000000007 := by
  obtain ⟨p, hp, _, _, _, p0, pk⟩ :=
    MatrixModAlg.power_naive (by decide : (1 : Int) ≤ 1000000007)
      (exactOn_wrap64 (by decide)) exampleT_wf rfl exampleT_reduced n
  refine ⟨p, hp, ?_⟩
  by_cases hn : n = 0
  · subst hn
    rw [p0 rfl]
    decide
  · rw [pk (by omega) 0 0 (by decide) (by decide), (naivePower_exampleT n).1]

set_option maxRecDepth 100000 in
/-- C9 on the demonstration: `T.power(9)[0][0] = F(10) = 55`. -/
theorem power_exampleT_fib_witness :
    ((power wrap64 1000000007 exampleT 9).map (fun p => p.get 0 0) = some 55 ∧ fib 10 = 55) ∧
    ∃ p, power wrap64 1000000007 exampleT 9 = some p ∧
      p.get 0 0 = (fib (9 + 1) : Int) % 1000000007 :=
  ⟨by decide, power_exampleT_fib 9⟩

theorem identity_reduced {MOD : Int} (hM : 2 ≤ MOD) (n : Nat) : (identity n).Reduced MOD := by
  intro i j hi hj
  have := MatrixModAlg.identity_bounded n i j hi hj
  exact ⟨this.1, by omega⟩

/-- The three laws of C10 under arithmetic that is exact on `[0, MOD * (MOD - 1)]`. -/
theorem power_laws {ov : Int → Int} {MOD : Int} {m : Matrix} (hM : 2 ≤ MOD)
    (hov : ExactOn ov (MOD * (MOD - 1))) (wm : m.WF) (hsq : m.R = m.C)
    (hm : m.Reduced MOD) (a b : Nat) :
    power ov MOD m 0 = some (identity m.R) ∧
    power ov MOD m 1 = some m ∧
    ∃ pa pb pab, power ov MOD m a = some pa ∧ power ov MOD m b = some pb ∧
      power ov MOD m (a + b) = some pab ∧ mul ov MOD pa pb = some pab := by
  have hM1 : (1 : Int) ≤ MOD := by omega
  have spec := fun k => MatrixModAlg.power_spec hM1 hov wm rfl hsq.symm hm k
  have red : ∀ k p, (k = 0 → p = identity m.R) → (1 ≤ k → p.Reduced MOD) →
      p.Reduced MOD := by
    intro k p h0 h1
    by_cases hk : k = 0
    · rw [h0 hk]; exact identity_reduced hM m.R
    · exact h1 (by omega)
  refine ⟨?_, ?_, ?_⟩
  · obtain ⟨p, hp, _, _, _, _, p0, _⟩ := spec 0
    rw [hp, p0 rfl]
  · obtain ⟨p, hp, wp, pR, pC, pZ, _, pred⟩ := spec 1
    rw [hp]
    congr 1
    rw [pow_one] at pZ
    exact MatrixModAlg.reduced_ext hM1 wp wm pR pC rfl hsq.symm (pred (le_refl 1)) hm pZ
  · obtain ⟨pa, hpa, wa, aR, aC, aZ, a0, ared⟩ := spec a
    obtain ⟨pb, hpb, wb, bR, bC, bZ, b0, bred⟩ := spec b
    obtain ⟨pab, hpab, wab, abR, abC, abZ, ab0, abred⟩ := spec (a + b)
    have ra := red a pa a0 ared
    have rb := red b pb b0 bred
    have rab := red (a + b) pab ab0 abred
    obtain ⟨r, hr, wr, rR, rC, rred, _, rZ⟩ :=
      MatrixModAlg.mul_square hM1 hov aR aC bR bC
        (MatrixModAlg.Bounded.weaken (MatrixModAlg.Reduced.bounded ra) (le_max_right _ _)) rb
    refine ⟨pa, pb, pab, hpa, hpb, hpab, ?_⟩
    rw [hr]
    congr 1
    apply MatrixModAlg.reduced_ext hM1 wr wab rR rC abR abC rred rab
    rw [rZ, aZ, bZ, abZ, pow_add]

end MatrixMod

/-! ## Modular matrices: associativity of the product -/

namespace MatrixModAlg

open MatrixMod (mul identity dot ExactOn)

theorem toZr_apply (q r c : Nat) (m : MatrixMod.Matrix) (i : Fin r) (j : Fin c) :
    toZr q r c m i j = ((m.get i.val j.val : Int) : ZMod q) := rfl

/-- A rectangular product computed by `mul` is the matrix product of the residues. -/
theorem toZr_mul {MOD : Int} {r n c : Nat} {a b p : MatrixMod.Matrix} (hM : 1 ≤ MOD)
    (ha : a.C = n)
    (hp : ∀ i j, i < r → j < c → p.get i j = dot a b i j % MOD) :
    toZr MOD.toNat r c p = toZr MOD.toNat r n a * toZr MOD.toNat n c b := by
  have hq : ((MOD.toNat : Nat) : Int) = MOD := Int.toNat_of_nonneg (by omega)
  ext i j
  rw [Matrix.mul_apply, toZr_apply, hp i.val j.val i.isLt j.isLt, dot_eq_sum ha]
  have h1 : ((((∑ k : Fin n, a.get i.val k.val * b.get k.val j.val) % MOD : Int)) :
      ZMod MOD.toNat) = ((∑ k : Fin n, a.get i.val k.val * b.get k.val j.val : Int) :
      ZMod MOD.toNat) := by
    apply (ZMod.intCast_eq_intCast_iff _ _ _).mpr
    rw [hq]
    exact Int.mod_modEq _ _
  rw [h1]
  push_cast
  rfl

/-- Two reduced well-formed `r x c` matrices with the same residues are equal. -/
theorem reduced_ext_rect {MOD : Int} {r c : Nat} {p m : MatrixMod.Matrix} (hM : 1 ≤ MOD)
    (wp : p.WF) (wm : m.WF) (pR : p.R = r) (pC : p.C = c) (mR : m.R = r) (mC : m.C = c)
    (rp : p.Reduced MOD) (rm : m.Reduced MOD)
    (h : toZr MOD.toNat r c p = toZr MOD.toNat r c m) : p = m := by
  have hq : ((MOD.toNat : Nat) : Int) = MOD := Int.toNat_of_nonneg (by omega)
  apply MatrixMod.Matrix.WF.ext wp wm (pR.trans mR.symm) (pC.trans mC.symm)
  intro i j hi hj
  have hi1 : i < r := by rw [← pR]; exact hi
  have hj1 : j < c := by rw [← pC]; exact hj
  have h1 := congrFun (congrFun h ⟨i, hi1⟩) ⟨j, hj1⟩
  rw [toZr_apply, toZr_apply] at h1
  have h2 := (ZMod.intCast_eq_intCast_iff _ _ _).mp h1
  rw [hq] at h2
  have h3 : p.get i j % MOD = m.get i j % MOD := h2
  rw [reduced_mod rp hi hj,
    reduced_mod rm (by rw [mR]; exact hi1) (by rw [mC]; exact hj1)] at h3
  exact h3

/-- One product of reduced operands under arithmetic exact on `[0, MOD * (MOD - 1)]`. -/
theorem mul_reduced {ov : Int → Int} {MOD : Int} {a b : MatrixMod.Matrix} {r n c : Nat}
    (hM : 1 ≤ MOD) (hov : ExactOn ov (MOD * (MOD - 1)))
    (aR : a.R = r) (aC : a.C = n) (bR : b.R = n) (bC : b.C = c)
    (ha : a.Reduced MOD) (hb : b.Reduced MOD) :
    ∃ p, mul ov MOD a b = some p ∧ p.WF ∧ p.R = r ∧ p.C = c ∧ p.Reduced MOD ∧
      toZr MOD.toNat r c p = toZr MOD.toNat r n a * toZr MOD.toNat n c b := by
  have hL : (MOD - 1) * (MOD - 1) + (MOD - 1) ≤ MOD * (MOD - 1) := by
    have : (MOD - 1) * (MOD - 1) + (MOD - 1) = MOD * (MOD - 1) := by ring
    omega
  obtain ⟨p, hp, w, pR, pC, g, red⟩ :=
    MatrixMod.mul_spec hM hov hL (aC.trans bR.symm) (Reduced.bounded ha) (Reduced.bounded hb)
  have g1 : ∀ i j, i < r → j < c → p.get i j = dot a b i j % MOD := fun i j hi hj =>
    g i j (by rw [aR]; exact hi) (by rw [bC]; exact hj)
  exact ⟨p, hp, w, pR.trans aR, pC.trans bC, red, toZr_mul hM aC g1⟩

/-- Associativity of `mul` under arithmetic exact on `[0, MOD * (MOD - 1)]`. -/
theorem mul_assoc_of_exactOn {ov : Int → Int} {MOD : Int} {a b d : MatrixMod.Matrix}
    (hM : 1 ≤ MOD) (hov : ExactOn ov (MOD * (MOD - 1))) (hab : a.C = b.R) (hbd : b.C = d.R)
    (ha : a.Reduced MOD) (hb : b.Reduced MOD) (hd : d.Reduced MOD) :
    ∃ ab bd p, mul ov MOD a b = some ab ∧ mul ov MOD b d = some bd ∧
      mul ov MOD ab d = some p ∧ mul ov MOD a bd = some p := by
  obtain ⟨ab, hab1, _, abR, abC, abred, abZ⟩ :=
    mul_reduced hM hov (rfl : a.R = a.R) hab rfl (rfl : b.C = b.C) ha hb
  obtain ⟨bd, hbd1, _, bdR, bdC, bdred, bdZ⟩ :=
    mul_reduced hM hov (rfl : b.R = b.R) (rfl : b.C = b.C) hbd.symm (rfl : d.C = d.C) hb hd
  obtain ⟨p, hp, wp, pR, pC, pred, pZ⟩ :=
    mul_reduced hM hov abR abC hbd.symm (rfl : d.C = d.C) abred hd
  obtain ⟨q, hq, wq, qR, qC, qred, qZ⟩ :=
    mul_reduced hM hov (rfl : a.R = a.R) hab bdR bdC ha bdred
  refine ⟨ab, bd, p, hab1, hbd1, hp, ?_⟩
  rw [hq]
  congr 1
  symm
  apply reduced_ext_rect hM wp wq pR pC qR qC pred qred
  rw [pZ, qZ, abZ, bdZ, Matrix.mul_assoc]

end MatrixModAlg

namespace MatrixMod

theorem bigD_wf : bigD.WF := by unfold Matrix.WF; decide

theorem bigD_reduced : bigD.Reduced 10000000000 := Matrix.Reduced.of_forall (by decide)

/-- C11, amended: for every modulus `MOD ≥ 1` with `MOD * (MOD - 1) < 2^63` and all
well-formed matrices `a` (`R x C`), `b` (`C x P`), `d` (`P x Q`) with entries in
`[0, MOD)`, in 64-bit arithmetic all four products succeed and `(a * b) * d = a * (b * d)`
as an equality of matrices. -/
theorem mul_assoc_of_no_overflow (MOD : Int) (a b d : Matrix) (hM : 1 ≤ MOD)
    (hB : MOD * (MOD - 1) < 2 ^ 63) (_wa : a.WF) (_wb : b.WF) (_wd : d.WF)
    (hab : a.C = b.R) (hbd : b.C = d.R)
    (ha : a.Reduced MOD) (hb : b.Reduced MOD) (hd : d.Reduced MOD) :
    ∃ ab bd p, mul wrap64 MOD a b = some ab ∧ mul wrap64 MOD b d = some bd ∧
      mul wrap64 MOD ab d = some p ∧ mul wrap64 MOD a bd = some p :=
  MatrixModAlg.mul_assoc_of_exactOn hM (exactOn_wrap64 hB) hab hbd ha hb hd

/-- C11, amended, on the matrices of the demonstration: `(A * B) * T = A * (B * T)` with
`MOD = 10^9 + 7`. -/
theorem mul_assoc_of_no_overflow_witness :
    ∃ ab bd p, mul wrap64 1000000007 exampleA exampleB = some ab ∧
      mul wrap64 1000000007 exampleB exampleT = some bd ∧
      mul wrap64 1000000007 ab exampleT = some p ∧
      mul wrap64 1000000007 exampleA bd = some p :=
  mul_assoc_of_no_overflow 1000000007 exampleA exampleB exampleT (by decide) (by decide)
    exampleA_wf exampleB_wf exampleT_wf rfl rfl exampleA_reduced exampleB_reduced
    exampleT_reduced

/-- Under exact integer arithmetic the statement of C11 holds for every modulus
`MOD ≥ 1`. -/
theorem mul_assoc_exact (MOD : Int) (a b d : Matrix) (hM : 1 ≤ MOD)
    (hab : a.C = b.R) (hbd : b.C = d.R)
    (ha : a.Reduced MOD) (hb : b.Reduced MOD) (hd : d.Reduced MOD) :
    ∃ ab bd p, mul exact MOD a b = some ab ∧ mul exact MOD b d = some bd ∧
      mul exact MOD ab d = some p ∧ mul exact MOD a bd = some p :=
  MatrixModAlg.mul_assoc_of_exactOn hM (exactOn_exact _) hab hbd ha hb hd

/-- C11 as stated fails: with `MOD = 10^10`, `a = b = [[MOD - 1]]` and
`d = [[1452241921]]`, all reduced, the products leave the 64-bit range and
`(a * b) * d = [[7109770241]]` while `a * (b * d) = [[6290448385]]`. -/
theorem mul_not_assoc_of_overflow :
    (1 : Int) ≤ 10000000000 ∧ bigM.WF ∧ bigD.WF ∧ bigM.Reduced 10000000000 ∧
    bigD.Reduced 10000000000 ∧
    mul wrap64 10000000000 bigM bigM = some (ofRows [[1452241921]]) ∧
    mul wrap64 10000000000 (ofRows [[1452241921]]) bigD = some (ofRows [[7109770241]]) ∧
    mul wrap64 10000000000 bigM bigD = some (ofRows [[-5161793537]]) ∧
    mul wrap64 10000000000 bigM (ofRows [[-5161793537]]) = some (ofRows [[6290448385]]) ∧
    ¬ ∃ ab bd p, mul wrap64 10000000000 bigM bigM = some ab ∧
      mul wrap64 10000000000 bigM bigD = some bd ∧
      mul wrap64 10000000000 ab bigD = some p ∧ mul wrap64 10000000000 bigM bd = some p := by
  have h1 : mul wrap64 10000000000 bigM bigM = some (ofRows [[1452241921]]) := by decide
  have h2 : mul wrap64 10000000000 (ofRows [[1452241921]]) bigD
      = some (ofRows [[7109770241]]) := by decide
  have h3 : mul wrap64 10000000000 bigM bigD = some (ofRows [[-5161793537]]) := by decide
  have h4 : mul wrap64 10000000000 bigM (ofRows [[-5161793537]])
      = some (ofRows [[6290448385]]) := by decide
  refine ⟨by decide, bigM_wf, bigD_wf, bigM_reduced, bigD_reduced, h1, h2, h3, h4, ?_⟩
  rintro ⟨ab, bd, p, e1, e3, e2, e4⟩
  rw [h1] at e1
  rw [h3] at e3
  rw [← Option.some.inj e1, h2] at e2
  rw [← Option.some.inj e3, h4, ← e2] at e4
  revert e4
  decide

end MatrixMod

/-! ## Modular matrices: the identity matrix -/

namespace MatrixMod

/-- One round of the innermost loop of `mul` when the product is the only non-zero term
`v` (at `k = t`) or zero: the accumulator holds `v` from round `t` on. -/
theorem accumulate_select {ov : Int → Int} {MOD v : Int} (hM : 1 ≤ MOD)
    (hov : ExactOn ov (MOD - 1)) (hv : 0 ≤ v ∧ v < MOD) (f : Nat → Int) (t N : Nat)
    (hf : ∀ k, k < N → f k = if k = t then v else 0) :
    ∀ n, n ≤ N →
      (List.range n).foldl (fun acc k => Int.tmod (ov (acc + ov (f k))) MOD) 0
        = if t < n then v else 0 := by
  have hv1 : ov v = v := hov v hv.1 (by omega)
  have h0 : ov 0 = 0 := hov 0 (le_refl 0) (by omega)
  have tv : Int.tmod v MOD = v := by
    rw [Int.tmod_eq_emod hv.1 (by omega)]
    exact Int.emod_eq_of_lt hv.1 hv.2
  have t0 : Int.tmod 0 MOD = 0 := by simp
  intro n
  induction n with
  | zero => intro _; simp
  | succ n ih =>
    intro hn
    simp only [List.range_succ, List.foldl_append, List.foldl_cons, List.foldl_nil]
    rw [ih (by omega), hf n (by omega)]
    by_cases e : n = t
    · subst e
      simp [hv1, tv]
    · by_cases e1 : t < n
      · have e2 : t < n + 1 := by omega
        simp [e, e1, e2, h0, hv1, tv]
      · have e2 : ¬ t < n + 1 := by omega
        simp [e, e1, e2, h0, t0]

/-- Under arithmetic that is exact on `[0, MOD - 1]`, `identity` is a left and a right
unit of `mul` on reduced well-formed matrices. -/
theorem mul_identity_of_exactOn {ov : Int → Int} {MOD : Int} {m : Matrix} (hM : 1 ≤ MOD)
    (hov : ExactOn ov (MOD - 1)) (wm : m.WF) (hm : m.Reduced MOD) :
    mul ov MOD (identity m.R) m = some m ∧ mul ov MOD m (identity m.C) = some m := by
  obtain ⟨_, iR, iC, ig⟩ := identity_eq m.R
  obtain ⟨_, jR, jC, jg⟩ := identity_eq m.C
  constructor
  · obtain ⟨p, hp, wp, pR, pC, g⟩ := mul_eq ov MOD (NoTrap.of_pos hM) (identity m.R) m iC
    rw [hp]
    congr 1
    apply Matrix.WF.ext wp wm (pR.trans iR) pC
    intro i j hi hj
    have hi1 : i < m.R := by rw [← iR, ← pR]; exact hi
    have hj1 : j < m.C := by rw [← pC]; exact hj
    rw [g i j (by rw [iR]; exact hi1) hj1]
    unfold accumulate
    rw [iC]
    have := accumulate_select hM hov (hm i j hi1 hj1)
      (fun k => (identity m.R).get i k * m.get k j) i m.R
      (fun k hk => by
        show (identity m.R).get i k * m.get k j = _
        rw [ig i k hi1 hk]
        by_cases e : k = i
        · subst e; simp
        · have : ¬ i = k := fun x => e x.symm
          simp [e, this]) m.R (le_refl _)
    rw [this]
    simp [hi1]
  · obtain ⟨p, hp, wp, pR, pC, g⟩ := mul_eq ov MOD (NoTrap.of_pos hM) m (identity m.C) jR.symm
    rw [hp]
    congr 1
    apply Matrix.WF.ext wp wm pR (pC.trans jC)
    intro i j hi hj
    have hi1 : i < m.R := by rw [← pR]; exact hi
    have hj1 : j < m.C := by rw [← jC, ← pC]; exact hj
    rw [g i j hi1 (by rw [jC]; exact hj1)]
    unfold accumulate
    have := accumulate_select hM hov (hm i j hi1 hj1)
      (fun k => m.get i k * (identity m.C).get k j) j m.C
      (fun k hk => by
        show m.get i k * (identity m.C).get k j = _
        rw [jg k j hk hj1]
        by_cases e : k = j
        · subst e; simp
        · simp [e]) m.C (le_refl _)
    rw [this]
    simp [hj1]

/-- C12: for every modulus `MOD ≥ 1` that a `long long` can hold (`MOD < 2^63`) and every
well-formed `R x C` matrix `m` with entries in `[0, MOD)`, in 64-bit arithmetic
`identity(R) * m = m` and `m * identity(C) = m`, as equalities of matrices. -/
theorem identity_mul_and_mul_identity (MOD : Int) (m : Matrix) (hM : 1 ≤ MOD)
    (hT : MOD < 2 ^ 63) (wm : m.WF) (hm : m.Reduced MOD) :
    mul wrap64 MOD (identity m.R) m = some m ∧ mul wrap64 MOD m (identity m.C) = some m :=
  mul_identity_of_exactOn hM (exactOn_wrap64 (by omega)) wm hm

/-- C12 on the demonstration: `identity(2) * A = A = A * identity(2)` with
`MOD = 10^9 + 7`. -/
theorem identity_mul_and_mul_identity_witness :
    mul wrap64 1000000007 (identity exampleA.R) exampleA = some exampleA ∧
    mul wrap64 1000000007 exampleA (identity exampleA.C) = some exampleA :=
  identity_mul_and_mul_identity 1000000007 exampleA (by decide) (by decide) exampleA_wf
    exampleA_reduced

/-- The statement of C12 under exact integer arithmetic, for every modulus `MOD ≥ 1`. -/
theorem identity_unit_exact (MOD : Int) (m : Matrix) (hM : 1 ≤ MOD) (wm : m.WF)
    (hm : m.Reduced MOD) :
    mul exact MOD (identity m.R) m = some m ∧ mul exact MOD m (identity m.C) = some m :=
  mul_identity_of_exactOn hM (exactOn_exact _) wm hm

end MatrixMod

/-! ## Modular matrices: shapes, failures and addition -/

namespace MatrixMod

/-- When no remainder traps, `add` on equal shapes runs its loops to the end. -/
theorem add_eq_loops {ov : Int → Int} {MOD : Int} (hT : NoTrap MOD) (a ot : Matrix)
    (hR : a.R = ot.R) (hC : a.C = ot.C) :
    add ov MOD a ot = some (addLoops ov MOD a ot) := by
  unfold add addLoops
  rw [if_pos ⟨hR, hC⟩]
  refine forEach_eq_foldl (fun res i => ?_) _ _
  refine forEach_eq_foldl (fun res j => ?_) _ _
  rw [rem_eq_some hT]
  rfl

/-- Whatever the modulus, a sum that `add` returns is the matrix its loops leave, and the
shapes were equal. -/
theorem add_some_loops {ov : Int → Int} {MOD : Int} {a ot p : Matrix}
    (hp : add ov MOD a ot = some p) :
    (a.R = ot.R ∧ a.C = ot.C) ∧ p = addLoops ov MOD a ot := by
  unfold add at hp
  by_cases h : a.R = ot.R ∧ a.C = ot.C
  · rw [if_pos h] at hp
    refine ⟨h, ?_⟩
    unfold addLoops
    refine forEach_some_foldl (fun res i v hv => ?_) _ _ _ hp
    refine forEach_some_foldl (fun res j v hv => ?_) _ _ _ hv
    cases hr : rem (ov (a.get i j + ot.get i j)) MOD with
    | none => rw [hr] at hv; exact absurd hv (by simp)
    | some x =>
      rw [hr] at hv
      rw [← rem_some_eq hr]
      exact (Option.some.inj hv).symm
  · rw [if_neg h] at hp
    exact absurd hp (by simp)

/-- The matrix the loops of `add` leave: a well-formed matrix of the shape of `a` whose
cell `(i, j)` holds `(a[i][j] + ot[i][j]) % MOD` as the machine computes it. -/
theorem addLoops_eq (ov : Int → Int) (MOD : Int) (a ot : Matrix) :
    (addLoops ov MOD a ot).WF ∧ (addLoops ov MOD a ot).R = a.R ∧
      (addLoops ov MOD a ot).C = a.C ∧
      ∀ i j, i < a.R → j < a.C →
        (addLoops ov MOD a ot).get i j = Int.tmod (ov (a.get i j + ot.get i j)) MOD := by
  have hf := cellStep_set a.R a.C
    (fun i j => Int.tmod (ov (a.get i j + ot.get i j)) MOD)
  obtain ⟨w, r, c, g, _⟩ := nestLoop hf (Matrix.WF.construct a.R a.C) rfl rfl a.R (le_refl _)
  refine ⟨w, r, c, ?_⟩
  intro i j hi hj
  rw [addLoops, g i j hi hj]

/-- Whatever the modulus, a sum that `add` returns has the shape of its operands. -/
theorem add_some_shape {ov : Int → Int} {MOD : Int} {a ot p : Matrix}
    (hp : add ov MOD a ot = some p) :
    (a.R = ot.R ∧ a.C = ot.C) ∧ p.WF ∧ p.R = a.R ∧ p.C = a.C := by
  obtain ⟨h, e⟩ := add_some_loops hp
  obtain ⟨w, r, c, _⟩ := addLoops_eq ov MOD a ot
  rw [e]
  exact ⟨h, w, r, c⟩

/-- The result of `add` when no remainder traps: on equal shapes it is a well-formed
matrix of that shape whose cell `(i, j)` holds `(a[i][j] + ot[i][j]) % MOD` as the
machine computes it. -/
theorem add_eq (ov : Int → Int) (MOD : Int) (hT : NoTrap MOD) (a ot : Matrix)
    (hR : a.R = ot.R) (hC : a.C = ot.C) :
    ∃ p, add ov MOD a ot = some p ∧ p.WF ∧ p.R = a.R ∧ p.C = a.C ∧
      ∀ i j, i < a.R → j < a.C →
        p.get i j = Int.tmod (ov (a.get i j + ot.get i j)) MOD :=
  ⟨_, add_eq_loops hT a ot hR hC, addLoops_eq ov MOD a ot⟩

theorem add_none (ov : Int → Int) (MOD : Int) (a ot : Matrix)
    (h : a.R ≠ ot.R ∨ a.C ≠ ot.C) : add ov MOD a ot = none := by
  have : ¬ (a.R = ot.R ∧ a.C = ot.C) := by
    rintro ⟨h1, h2⟩
    rcases h with h | h
    · exact h h1
    · exact h h2
  simp [add, this]

/-- When no remainder traps, the loop of `power` on square operands of the same size
never fails, whatever the arithmetic, and returns a well-formed square matrix of that
size. -/
theorem powerLoop_shape (ov : Int → Int) (MOD : Int) (hT : NoTrap MOD) {n : Nat}
    (fuel : Nat) :
    ∀ (res b : Matrix) (k : Nat), k < fuel → res.WF → res.R = n → res.C = n →
      b.R = n → b.C = n →
      ∃ p, powerLoop ov MOD fuel res b k = some p ∧ p.WF ∧ p.R = n ∧ p.C = n := by
  induction fuel with
  | zero => intro res b k hk; omega
  | succ fuel ih =>
    intro res b k hk wr rR rC bR bC
    by_cases hk0 : k = 0
    · subst hk0
      exact ⟨res, by simp [powerLoop], wr, rR, rC⟩
    · have hpos : 0 < k := Nat.pos_of_ne_zero hk0
      obtain ⟨b1, hb1, _, b1R, b1C, _⟩ := mul_eq ov MOD hT b b (bC.trans bR.symm)
      by_cases hodd : k % 2 = 1
      · obtain ⟨r1, hr1, wr1, r1R, r1C, _⟩ := mul_eq ov MOD hT res b (rC.trans bR.symm)
        obtain ⟨p, hp, wp, pR, pC⟩ :=
          ih r1 b1 (k / 2) (by omega) wr1 (r1R.trans rR) (r1C.trans bC) (b1R.trans bR)
            (b1C.trans bC)
        exact ⟨p, by simp [powerLoop, hpos, hodd, hr1, hb1, hp], wp, pR, pC⟩
      · have heven : k % 2 = 0 := by omega
        obtain ⟨p, hp, wp, pR, pC⟩ :=
          ih res b1 (k / 2) (by omega) wr rR rC (b1R.trans bR) (b1C.trans bC)
        exact ⟨p, by simp [powerLoop, hpos, heven, hb1, hp], wp, pR, pC⟩

theorem power_shape (ov : Int → Int) (MOD : Int) (hT : NoTrap MOD) (m : Matrix) (k : Nat)
    (h : m.R = m.C) :
    ∃ p, power ov MOD m k = some p ∧ p.WF ∧ p.R = m.R ∧ p.C = m.R := by
  obtain ⟨wi, iR, iC, _⟩ := identity_eq m.R
  obtain ⟨p, hp, wp, pR, pC⟩ :=
    powerLoop_shape ov MOD hT (k + 1) (identity m.R) m k (by omega) wi iR iC rfl h.symm
  refine ⟨p, ?_, wp, pR, pC⟩
  unfold power
  rw [if_pos h]
  exact hp

theorem power_none (ov : Int → Int) (MOD : Int) (m : Matrix) (k : Nat) (h : m.R ≠ m.C) :
    power ov MOD m k = none := by
  simp [power, h]

/-- Whatever the modulus, a result that the loop of `power` returns on square operands of
the same size is a well-formed square matrix of that size. -/
theorem powerLoop_some_shape (ov : Int → Int) (MOD : Int) {n : Nat} (fuel : Nat) :
    ∀ (res b : Matrix) (k : Nat) (p : Matrix), res.WF → res.R = n → res.C = n →
      b.R = n → b.C = n → powerLoop ov MOD fuel res b k = some p →
      p.WF ∧ p.R = n ∧ p.C = n := by
  induction fuel with
  | zero =>
    intro res b k p _ _ _ _ _ hp
    simp [powerLoop] at hp
  | succ fuel ih =>
    intro res b k p wr rR rC bR bC hp
    by_cases hk0 : k = 0
    · subst hk0
      simp only [powerLoop, Nat.lt_irrefl, if_false] at hp
      rw [← Option.some.inj hp]
      exact ⟨wr, rR, rC⟩
    · have hpos : 0 < k := Nat.pos_of_ne_zero hk0
      cases hb1 : mul ov MOD b b with
      | none =>
        by_cases hodd : k % 2 = 1
        · cases hr1 : mul ov MOD res b with
          | none => simp [powerLoop, hpos, hodd, hr1] at hp
          | some r1 => simp [powerLoop, hpos, hodd, hr1, hb1] at hp
        · simp [powerLoop, hpos, hodd, hb1] at hp
      | some b1 =>
        obtain ⟨_, _, b1R, b1C⟩ := mul_some_shape hb1
        by_cases hodd : k % 2 = 1
        · cases hr1 : mul ov MOD res b with
          | none => simp [powerLoop, hpos, hodd, hr1] at hp
          | some r1 =>
            obtain ⟨_, wr1, r1R, r1C⟩ := mul_some_shape hr1
            simp only [powerLoop, hpos, hodd, hr1, hb1, if_true] at hp
            exact ih r1 b1 (k / 2) p wr1 (r1R.trans rR) (r1C.trans bC) (b1R.trans bR)
              (b1C.trans bC) hp
        · simp only [powerLoop, hpos, hodd, hb1, if_true, if_false] at hp
          exact ih res b1 (k / 2) p wr rR rC (b1R.trans bR) (b1C.trans bC) hp

/-- Whatever the modulus, a matrix that `power` returns is a well-formed square matrix of
the size of its operand, and the operand was square. -/
theorem power_some_shape {ov : Int → Int} {MOD : Int} {m p : Matrix} {k : Nat}
    (hp : power ov MOD m k = some p) : m.R = m.C ∧ p.WF ∧ p.R = m.R ∧ p.C = m.R := by
  by_cases hs : m.R = m.C
  · obtain ⟨wi, iR, iC, _⟩ := identity_eq m.R
    unfold power at hp
    rw [if_pos hs] at hp
    exact ⟨hs, powerLoop_some_shape ov MOD (k + 1) (identity m.R) m k p wi iR iC rfl
      hs.symm hp⟩
  · rw [power_none ov MOD m k hs] at hp
    exact absurd hp (by simp)

/-- The exponent `0` on a square matrix gives `identity` without any arithmetic, whatever
the modulus. -/
theorem power_zero (ov : Int → Int) (MOD : Int) (m : Matrix) (h : m.R = m.C) :
    power ov MOD m 0 = some (identity m.R) := by
  simp [power, powerLoop, h]

/-- The exponent `1` gives the matrix itself under arithmetic exact on `[0, MOD - 1]`: the
one product that reaches the result is `identity * m`, whose terms are single entries. -/
theorem power_one {ov : Int → Int} {MOD : Int} {m : Matrix} (hM : 1 ≤ MOD)
    (hov : ExactOn ov (MOD - 1)) (wm : m.WF) (hsq : m.R = m.C) (hm : m.Reduced MOD) :
    power ov MOD m 1 = some m := by
  obtain ⟨hl, _⟩ := mul_identity_of_exactOn hM hov wm hm
  obtain ⟨b1, hb1, _⟩ := mul_eq ov MOD (NoTrap.of_pos hM) m m hsq.symm
  unfold power
  rw [if_pos hsq]
  simp [powerLoop, hl, hb1]

/-- C13, amended: whatever the arithmetic and the modulus, each operation fails when its
shape precondition is violated and a result it returns is a well-formed matrix of the
expected shape (`a.R x a.C` for `add a b`, `a.R x b.C` for `mul a b`, `m.R x m.R` for
`power m k`, where an inner product that failed would have made `power` fail), and
`power m 0` fails exactly when `m.R ≠ m.C`. For every modulus other than `0` and `-1`
the operations fail exactly then: `add a b` fails iff `a.R ≠ b.R` or `a.C ≠ b.C`,
`mul a b` fails iff `a.C ≠ b.R`, and `power m k` fails iff `m.R ≠ m.C`, for every `k`. -/
theorem ops_fail_iff_shape_mismatch (ov : Int → Int) (MOD : Int) (a b m : Matrix)
    (k : Nat) :
    (((a.R ≠ b.R ∨ a.C ≠ b.C) → add ov MOD a b = none) ∧
      ∀ p, add ov MOD a b = some p → p.WF ∧ p.R = a.R ∧ p.C = a.C) ∧
    ((a.C ≠ b.R → mul ov MOD a b = none) ∧
      ∀ p, mul ov MOD a b = some p → p.WF ∧ p.R = a.R ∧ p.C = b.C) ∧
    ((m.R ≠ m.C → power ov MOD m k = none) ∧
      ∀ p, power ov MOD m k = some p → p.WF ∧ p.R = m.R ∧ p.C = m.R) ∧
    (power ov MOD m 0 = none ↔ m.R ≠ m.C) ∧
    (MOD ≠ 0 → MOD ≠ -1 →
      (add ov MOD a b = none ↔ (a.R ≠ b.R ∨ a.C ≠ b.C)) ∧
      (mul ov MOD a b = none ↔ a.C ≠ b.R) ∧
      (power ov MOD m k = none ↔ m.R ≠ m.C)) := by
  refine ⟨⟨add_none ov MOD a b, fun p hp => (add_some_shape hp).2⟩,
    ⟨mul_none ov MOD a b, fun p hp => (mul_some_shape hp).2⟩,
    ⟨power_none ov MOD m k, fun p hp => (power_some_shape hp).2⟩, ?_, ?_⟩
  · constructor
    · intro hn hs
      rw [power_zero ov MOD m hs] at hn
      exact absurd hn (by simp)
    · exact power_none ov MOD m 0
  · intro h0 h1
    have hT : NoTrap MOD := ⟨h0, h1⟩
    refine ⟨⟨?_, add_none ov MOD a b⟩, ⟨?_, mul_none ov MOD a b⟩,
      ⟨?_, power_none ov MOD m k⟩⟩
    · intro hn
      by_contra hc
      have hR : a.R = b.R := by
        by_contra e; exact hc (Or.inl e)
      have hC : a.C = b.C := by
        by_contra e; exact hc (Or.inr e)
      obtain ⟨p, hp, _⟩ := add_eq ov MOD hT a b hR hC
      rw [hn] at hp
      exact absurd hp (by simp)
    · intro hn hs
      obtain ⟨p, hp, _⟩ := mul_eq ov MOD hT a b hs
      rw [hn] at hp
      exact absurd hp (by simp)
    · intro hn hs
      obtain ⟨p, hp, _⟩ := power_shape ov MOD hT m k hs
      rw [hn] at hp
      exact absurd hp (by simp)

/-- C13 on concrete inputs: with the modulus `10^9 + 7`, a `2 x 2` and a `1 x 1` operand
make `add` and `mul` fail, a `1 x 2` matrix makes `power 0` fail, `A + B`, `A * B` and
`T.power(9)` are returned, and the general statement holds at these inputs. -/
theorem ops_fail_iff_shape_mismatch_witness :
    (add wrap64 1000000007 exampleA bigM = none ∧
     mul wrap64 1000000007 exampleA bigM = none ∧
     power wrap64 1000000007 (ofRows [[1, 2]]) 0 = none ∧
     add wrap64 1000000007 exampleA exampleB = some (ofRows [[6, 8], [10, 12]]) ∧
     mul wrap64 1000000007 exampleA exampleB = some (ofRows [[19, 22], [43, 50]])) ∧
    ((add wrap64 1000000007 exampleA bigM = none ↔
        (exampleA.R ≠ bigM.R ∨ exampleA.C ≠ bigM.C)) ∧
      (mul wrap64 1000000007 exampleA bigM = none ↔ exampleA.C ≠ bigM.R) ∧
      (power wrap64 1000000007 (ofRows [[1, 2]]) 0 = none ↔
        (ofRows [[1, 2]]).R ≠ (ofRows [[1, 2]]).C)) ∧
    ((add wrap64 1000000007 exampleA exampleB = none ↔
        (exampleA.R ≠ exampleB.R ∨ exampleA.C ≠ exampleB.C)) ∧
      (mul wrap64 1000000007 exampleA exampleB = none ↔ exampleA.C ≠ exampleB.R) ∧
      (power wrap64 1000000007 exampleT 9 = none ↔ exampleT.R ≠ exampleT.C)) :=
  ⟨by decide,
    (ops_fail_iff_shape_mismatch wrap64 1000000007 exampleA bigM (ofRows [[1, 2]]) 0).2.2.2.2
      (by decide) (by decide),
    (ops_fail_iff_shape_mismatch wrap64 1000000007 exampleA exampleB exampleT 9).2.2.2.2
      (by decide) (by decide)⟩

/-- C13, the claim as stated fails at the moduli `0` and `-1`. With `MOD = 0` the first
`% MOD` divides by zero: `A + B` and `A * B` of the example and `T.power(1)` fail although
the shapes match and `T` is square. With `MOD = -1` the remainder `LLONG_MIN % -1` traps:
`[[LLONG_MIN]] + [[0]]`, `[[LLONG_MIN]] * [[1]]` and `[[LLONG_MIN]].power(1)` fail on
`1 x 1` operands. -/
theorem ops_fail_on_matching_shapes :
    (exampleA.R = exampleB.R ∧ exampleA.C = exampleB.C ∧
      add wrap64 0 exampleA exampleB = none) ∧
    (exampleA.C = exampleB.R ∧ mul wrap64 0 exampleA exampleB = none) ∧
    (exampleT.R = exampleT.C ∧ power wrap64 0 exampleT 1 = none) ∧
    ((ofRows [[-9223372036854775808]]).R = (ofRows [[0]]).R ∧
      (ofRows [[-9223372036854775808]]).C = (ofRows [[0]]).C ∧
      add wrap64 (-1) (ofRows [[-9223372036854775808]]) (ofRows [[0]]) = none) ∧
    ((ofRows [[-9223372036854775808]]).C = (ofRows [[1]]).R ∧
      mul wrap64 (-1) (ofRows [[-9223372036854775808]]) (ofRows [[1]]) = none) ∧
    ((ofRows [[-9223372036854775808]]).R = (ofRows [[-9223372036854775808]]).C ∧
      power wrap64 (-1) (ofRows [[-9223372036854775808]]) 1 = none) := by
  decide

end MatrixMod

namespace MatrixMod

/-- C14, amended: for every `n`, `identity n` is the well-formed `n x n` matrix with `1`
on the main diagonal and `0` elsewhere, written without any reduction; for every modulus
`MOD ≥ 2` this is the reduced identity: entry `(i, i)` is `1 mod MOD`, every other entry
is `0`, and every entry lies in `[0, MOD)`. -/
theorem identity_entries (MOD : Int) (n : Nat) :
    ((identity n).WF ∧ (identity n).R = n ∧ (identity n).C = n ∧
      ∀ i j, i < n → j < n → (identity n).get i j = if i = j then 1 else 0) ∧
    (2 ≤ MOD → ∀ i j, i < n → j < n →
      (identity n).get i j = (if i = j then 1 % MOD else 0) ∧
      0 ≤ (identity n).get i j ∧ (identity n).get i j < MOD) := by
  refine ⟨identity_eq n, ?_⟩
  intro hM i j hi hj
  obtain ⟨_, _, _, g⟩ := identity_eq n
  have h1 : (1 : Int) % MOD = 1 := Int.emod_eq_of_lt (by decide) (by omega)
  rw [g i j hi hj, h1]
  refine ⟨rfl, ?_, ?_⟩
  · split <;> decide
  · split <;> omega

/-- C14, amended, at `n = 2` and `MOD = 10^9 + 7`. -/
theorem identity_entries_witness :
    identity 2 = ofRows [[1, 0], [0, 1]] ∧
    ∀ i j, i < 2 → j < 2 →
      (identity 2).get i j = (if i = j then 1 % 1000000007 else 0) ∧
      0 ≤ (identity 2).get i j ∧ (identity 2).get i j < 1000000007 :=
  ⟨by decide, (identity_entries 1000000007 2).2 (by decide)⟩

/-- C14 as stated fails for `MOD = 1`: the diagonal entry of `identity 1` is `1`, which is
neither `1 mod 1 = 0` nor in `[0, 1)`. -/
theorem identity_not_reduced_mod_one :
    (1 : Int) ≤ 1 ∧ (identity 1).get 0 0 = 1 ∧ (1 : Int) % 1 = 0 ∧
    (identity 1).get 0 0 ≠ 1 % 1 ∧ ¬ (identity 1).get 0 0 < 1 := by
  decide

/-- The sum `add a b` does not depend on the order of its operands, whatever the
arithmetic and the modulus. -/
theorem add_comm_any (ov : Int → Int) (MOD : Int) (a b : Matrix) :
    add ov MOD a b = add ov MOD b a := by
  by_cases hs : a.R = b.R ∧ a.C = b.C
  · have e : ∀ i j, a.get i j + b.get i j = b.get i j + a.get i j :=
      fun i j => Int.add_comm _ _
    unfold add
    rw [if_pos hs, if_pos ⟨hs.1.symm, hs.2.symm⟩, ← hs.1, ← hs.2]
    simp only [e]
  · have h1 : a.R ≠ b.R ∨ a.C ≠ b.C := by
      by_contra hc
      apply hs
      constructor
      · by_contra e; exact hc (Or.inl e)
      · by_contra e; exact hc (Or.inr e)
    have h2 : b.R ≠ a.R ∨ b.C ≠ a.C := by
      rcases h1 with h | h
      · exact Or.inl (Ne.symm h)
      · exact Or.inr (Ne.symm h)
    rw [add_none ov MOD a b h1, add_none ov MOD b a h2]

/-- The result of `add` on reduced operands under arithmetic exact on
`[0, 2 * (MOD - 1)]`: the canonical residue of the integer sum. -/
theorem add_spec {ov : Int → Int} {MOD : Int} {a b : Matrix} (hM : 1 ≤ MOD)
    (hov : ExactOn ov (2 * (MOD - 1))) (hR : a.R = b.R) (hC : a.C = b.C)
    (ha : a.Reduced MOD) (hb : b.Reduced MOD) :
    ∃ p, add ov MOD a b = some p ∧ p.WF ∧ p.R = a.R ∧ p.C = a.C ∧ p.Reduced MOD ∧
      ∀ i j, i < a.R → j < a.C → p.get i j = (a.get i j + b.get i j) % MOD := by
  obtain ⟨p, hp, wp, pR, pC, g⟩ := add_eq ov MOD (NoTrap.of_pos hM) a b hR hC
  have g1 : ∀ i j, i < a.R → j < a.C → p.get i j = (a.get i j + b.get i j) % MOD := by
    intro i j hi hj
    have h1 := ha i j hi hj
    have h2 := hb i j (by rw [← hR]; exact hi) (by rw [← hC]; exact hj)
    rw [g i j hi hj, hov _ (by omega) (by omega), Int.tmod_eq_emod (by omega) (by omega)]
  refine ⟨p, hp, wp, pR, pC, ?_, g1⟩
  intro i j hi hj
  rw [g1 i j (by rw [← pR]; exact hi) (by rw [← pC]; exact hj)]
  exact ⟨Int.emod_nonneg _ (by omega), Int.emod_lt_of_pos _ (by omega)⟩

/-- Associativity of `add` under arithmetic exact on `[0, 2 * (MOD - 1)]`. -/
theorem add_assoc_of_exactOn {ov : Int → Int} {MOD : Int} {a b c : Matrix} (hM : 1 ≤ MOD)
    (hov : ExactOn ov (2 * (MOD - 1))) (hR : a.R = b.R) (hC : a.C = b.C)
    (hR1 : b.R = c.R) (hC1 : b.C = c.C)
    (ha : a.Reduced MOD) (hb : b.Reduced MOD) (hc : c.Reduced MOD) :
    ∃ ab bc p, add ov MOD a b = some ab ∧ add ov MOD b c = some bc ∧
      add ov MOD ab c = some p ∧ add ov MOD a bc = some p := by
  obtain ⟨ab, hab, _, abR, abC, abred, gab⟩ := add_spec hM hov hR hC ha hb
  obtain ⟨bc, hbc, _, bcR, bcC, bcred, gbc⟩ := add_spec hM hov hR1 hC1 hb hc
  obtain ⟨p, hp, wp, pR, pC, _, gp⟩ :=
    add_spec hM hov (abR.trans (hR.trans hR1)) (abC.trans (hC.trans hC1)) abred hc
  obtain ⟨q, hq, wq, qR, qC, _, gq⟩ :=
    add_spec hM hov (hR.trans bcR.symm) (hC.trans bcC.symm) ha bcred
  refine ⟨ab, bc, p, hab, hbc, hp, ?_⟩
  rw [hq]
  congr 1
  symm
  apply Matrix.WF.ext wp wq (pR.trans (abR.trans qR.symm)) (pC.trans (abC.trans qC.symm))
  intro i j hi hj
  have hi1 : i < a.R := by rw [← abR, ← pR]; exact hi
  have hj1 : j < a.C := by rw [← abC, ← pC]; exact hj
  rw [gp i j (by rw [abR]; exact hi1) (by rw [abC]; exact hj1), gq i j hi1 hj1,
    gab i j hi1 hj1, gbc i j (by rw [← hR]; exact hi1) (by rw [← hC]; exact hj1),
    Int.emod_add_emod, Int.add_emod_emod, Int.add_assoc]

end MatrixMod

namespace MatrixMod

theorem halfM_wf : halfM.WF := by unfold Matrix.WF; decide

theorem halfN_wf : halfN.WF := by unfold Matrix.WF; decide

theorem halfM_reduced : halfM.Reduced maxMOD := Matrix.Reduced.of_forall (by decide)

theorem halfN_reduced : halfN.Reduced maxMOD := Matrix.Reduced.of_forall (by decide)

/-- C15, amended: for every modulus `MOD ≥ 1` and all well-formed same-shaped matrices
`a`, `b`, `c` with entries in `[0, MOD)`, in 64-bit arithmetic `add a b = add b a`; and
when `2 * (MOD - 1) < 2^63`, so that no sum of two entries leaves the 64-bit range,
`add a b` has the entries `(a[i][j] + b[i][j]) mod MOD` and
`add (add a b) c = add a (add b c)`, as equalities of matrices. -/
theorem add_comm_and_assoc (MOD : Int) (a b c : Matrix) (hM : 1 ≤ MOD)
    (_wa : a.WF) (_wb : b.WF) (_wc : c.WF)
    (hR : a.R = b.R) (hC : a.C = b.C) (hR1 : b.R = c.R) (hC1 : b.C = c.C)
    (ha : a.Reduced MOD) (hb : b.Reduced MOD) (hc : c.Reduced MOD) :
    add wrap64 MOD a b = add wrap64 MOD b a ∧
    (2 * (MOD - 1) < 2 ^ 63 →
      (∃ p, add wrap64 MOD a b = some p ∧ p.WF ∧ p.R = a.R ∧ p.C = a.C ∧
        ∀ i j, i < a.R → j < a.C → p.get i j = (a.get i j + b.get i j) % MOD) ∧
      ∃ ab bc p, add wrap64 MOD a b = some ab ∧ add wrap64 MOD b c = some bc ∧
        add wrap64 MOD ab c = some p ∧ add wrap64 MOD a bc = some p) := by
  refine ⟨add_comm_any wrap64 MOD a b, ?_⟩
  intro hB
  have hov := exactOn_wrap64 hB
  obtain ⟨p, hp, wp, pR, pC, _, g⟩ := add_spec hM hov hR hC ha hb
  exact ⟨⟨p, hp, wp, pR, pC, g⟩, add_assoc_of_exactOn hM hov hR hC hR1 hC1 ha hb hc⟩

/-- C15, amended, on the demonstration: with `MOD = 10^9 + 7`,
`A + B = [[6, 8], [10, 12]]`, and the laws for `A`, `B`, `T`. -/
theorem add_comm_and_assoc_witness :
    add wrap64 1000000007 exampleA exampleB = some (ofRows [[6, 8], [10, 12]]) ∧
    add wrap64 1000000007 exampleA exampleB = add wrap64 1000000007 exampleB exampleA ∧
    (∃ p, add wrap64 1000000007 exampleA exampleB = some p ∧ p.WF ∧ p.R = exampleA.R ∧
      p.C = exampleA.C ∧
      ∀ i j, i < exampleA.R → j < exampleA.C →
        p.get i j = (exampleA.get i j + exampleB.get i j) % 1000000007) ∧
    ∃ ab bc p, add wrap64 1000000007 exampleA exampleB = some ab ∧
      add wrap64 1000000007 exampleB exampleT = some bc ∧
      add wrap64 1000000007 ab exampleT = some p ∧
      add wrap64 1000000007 exampleA bc = some p :=
  ⟨by decide,
    (add_comm_and_assoc 1000000007 exampleA exampleB exampleT (by decide) exampleA_wf
      exampleB_wf exampleT_wf rfl rfl rfl rfl exampleA_reduced exampleB_reduced
      exampleT_reduced).1,
    (add_comm_and_assoc 1000000007 exampleA exampleB exampleT (by decide) exampleA_wf
      exampleB_wf exampleT_wf rfl rfl rfl rfl exampleA_reduced exampleB_reduced
      exampleT_reduced).2 (by decide)⟩

/-- The statement of C15 under exact integer arithmetic, for every modulus `MOD ≥ 1`. -/
theorem add_laws_exact (MOD : Int) (a b c : Matrix) (hM : 1 ≤ MOD)
    (hR : a.R = b.R) (hC : a.C = b.C) (hR1 : b.R = c.R) (hC1 : b.C = c.C)
    (ha : a.Reduced MOD) (hb : b.Reduced MOD) (hc : c.Reduced MOD) :
    add exact MOD a b = add exact MOD b a ∧
    (∃ p, add exact MOD a b = some p ∧
      ∀ i j, i < a.R → j < a.C → p.get i j = (a.get i j + b.get i j) % MOD) ∧
    ∃ ab bc p, add exact MOD a b = some ab ∧ add exact MOD b c = some bc ∧
      add exact MOD ab c = some p ∧ add exact MOD a bc = some p := by
  obtain ⟨p, hp, _, _, _, _, g⟩ := add_spec hM (exactOn_exact _) hR hC ha hb
  exact ⟨add_comm_any exact MOD a b, ⟨p, hp, g⟩,
    add_assoc_of_exactOn hM (exactOn_exact _) hR hC hR1 hC1 ha hb hc⟩

/-- C15 as stated fails for the modulus `2^63 - 1`: with the reduced `1 x 1` matrices
`a = b = [[2^62]]` and `c = [[2^62 - 1]]`, the sum `2^62 + 2^62` leaves the 64-bit range,
`add a b = [[-1]]` although `(2^62 + 2^62) mod MOD = 1`, and
`add (add a b) c = [[2^62 - 2]]` while `add a (add b c) = [[2^62]]`. -/
theorem add_not_assoc_of_overflow :
    (1 : Int) ≤ maxMOD ∧ halfM.WF ∧ halfN.WF ∧ halfM.Reduced maxMOD ∧
    halfN.Reduced maxMOD ∧
    add wrap64 maxMOD halfM halfM = some (ofRows [[-1]]) ∧
    (halfM.get 0 0 + halfM.get 0 0) % maxMOD = 1 ∧
    add wrap64 maxMOD (ofRows [[-1]]) halfN = some (ofRows [[4611686018427387902]]) ∧
    add wrap64 maxMOD halfM halfN = some (ofRows [[0]]) ∧
    add wrap64 maxMOD halfM (ofRows [[0]]) = some (ofRows [[4611686018427387904]]) ∧
    ¬ ∃ ab bc p, add wrap64 maxMOD halfM halfM = some ab ∧
      add wrap64 maxMOD halfM halfN = some bc ∧
      add wrap64 maxMOD ab halfN = some p ∧ add wrap64 maxMOD halfM bc = some p := by
  have h1 : add wrap64 maxMOD halfM halfM = some (ofRows [[-1]]) := by decide
  have h2 : add wrap64 maxMOD (ofRows [[-1]]) halfN
      = some (ofRows [[4611686018427387902]]) := by decide
  have h3 : add wrap64 maxMOD halfM halfN = some (ofRows [[0]]) := by decide
  have h4 : add wrap64 maxMOD halfM (ofRows [[0]])
      = some (ofRows [[4611686018427387904]]) := by decide
  refine ⟨by decide, halfM_wf, halfN_wf, halfM_reduced, halfN_reduced, h1, by decide, h2,
    h3, h4, ?_⟩
  rintro ⟨ab, bc, p, e1, e3, e2, e4⟩
  rw [h1] at e1
  rw [h3] at e3
  rw [← Option.some.inj e1, h2] at e2
  rw [← Option.some.inj e3, h4, ← e2] at e4
  revert e4
  decide

end MatrixMod

/-! ## Modular matrices: the power against the naive power, and its laws -/

namespace MatrixMod

/-- The naive first power of a square matrix is the matrix. -/
theorem naivePower_one_get {m : Matrix} (hsq : m.R = m.C) {i j : Nat} (hi : i < m.R)
    (hj : j < m.R) : (naivePower m 1).get i j = m.get i j := by
  have h := MatrixModAlg.toI_naivePower (rfl : m.R = m.R) hsq.symm 1
  rw [pow_one] at h
  have h1 := congrFun (congrFun h ⟨i, hi⟩) ⟨j, hj⟩
  simpa [MatrixModAlg.toI] using h1

/-- C8, amended: for every modulus `MOD ≥ 1`, every well-formed square matrix `m` with
entries in `[0, MOD)` and every `k`, `power m k` in 64-bit arithmetic returns a
well-formed square matrix of the size of `m`; for `k = 0` it is `identity`; for `k = 1`
and every modulus of the type (`MOD < 2^63`) each entry is the entry of the naive integer
power `m^1` reduced modulo `MOD`; and for every `k ≥ 1`, when `MOD * (MOD - 1) < 2^63`,
each entry is the entry of the naive integer power `m^k` reduced modulo `MOD`. -/
theorem power_eq_naivePower (MOD : Int) (m : Matrix) (k : Nat) (hM : 1 ≤ MOD)
    (wm : m.WF) (hsq : m.R = m.C) (hm : m.Reduced MOD) :
    ∃ p, power wrap64 MOD m k = some p ∧ p.WF ∧ p.R = m.R ∧ p.C = m.R ∧
      (k = 0 → p = identity m.R) ∧
      (1 ≤ k → (k = 1 ∧ MOD < 2 ^ 63) ∨ MOD * (MOD - 1) < 2 ^ 63 →
        ∀ i j, i < m.R → j < m.R →
          p.get i j = (naivePower m k).get i j % MOD) := by
  obtain ⟨p, hp, wp, pR, pC⟩ := power_shape wrap64 MOD (NoTrap.of_pos hM) m k hsq
  refine ⟨p, hp, wp, pR, pC, ?_, ?_⟩
  · intro hk
    subst hk
    rw [power_zero wrap64 MOD m hsq] at hp
    exact (Option.some.inj hp).symm
  · intro hk hc i j hi hj
    rcases hc with ⟨h1, hT⟩ | hB
    · subst h1
      have hL : MOD - 1 < 2 ^ 63 := by omega
      rw [power_one hM (exactOn_wrap64 hL) wm hsq hm] at hp
      have hij := hm i j hi (by rw [← hsq]; exact hj)
      rw [← Option.some.inj hp, naivePower_one_get hsq hi hj,
        Int.emod_eq_of_lt hij.1 hij.2]
    · obtain ⟨q, hq, _, _, _, _, hf⟩ :=
        MatrixModAlg.power_naive hM (exactOn_wrap64 hB) wm hsq hm k
      rw [hq] at hp
      rw [← Option.some.inj hp]
      exact hf hk i j hi hj

/-- C8, amended, on the demonstration: `T.power(9)` with `MOD = 10^9 + 7`, and the first
power of `[[MOD - 1]]` with `MOD = 10^10`, a modulus beyond the bound on the products. -/
theorem power_eq_naivePower_witness :
    (∃ p, power wrap64 1000000007 exampleT 9 = some p ∧ p.WF ∧ p.R = exampleT.R ∧
      p.C = exampleT.R ∧ (9 = 0 → p = identity exampleT.R) ∧
      (1 ≤ 9 → (9 = 1 ∧ (1000000007 : Int) < 2 ^ 63) ∨
          (1000000007 : Int) * (1000000007 - 1) < 2 ^ 63 →
        ∀ i j, i < exampleT.R → j < exampleT.R →
          p.get i j = (naivePower exampleT 9).get i j % 1000000007)) ∧
    (∃ p, power wrap64 10000000000 bigM 1 = some p ∧ p.WF ∧ p.R = bigM.R ∧
      p.C = bigM.R ∧ (1 = 0 → p = identity bigM.R) ∧
      (1 ≤ 1 → (1 = 1 ∧ (10000000000 : Int) < 2 ^ 63) ∨
          (10000000000 : Int) * (10000000000 - 1) < 2 ^ 63 →
        ∀ i j, i < bigM.R → j < bigM.R →
          p.get i j = (naivePower bigM 1).get i j % 10000000000)) ∧
    (1000000007 : Int) * (1000000007 - 1) < 2 ^ 63 ∧ (10000000000 : Int) < 2 ^ 63 :=
  ⟨power_eq_naivePower 1000000007 exampleT 9 (by decide) exampleT_wf rfl exampleT_reduced,
    power_eq_naivePower 10000000000 bigM 1 (by decide) bigM_wf rfl bigM_reduced,
    by decide, by decide⟩

set_option maxRecDepth 100000 in
/-- C8 as stated fails: with `MOD = 10^10` and the reduced `1 x 1` matrix `[[MOD - 1]]`,
the square `(MOD - 1)^2` leaves the 64-bit range, `power 2` returns `[[1452241921]]`, and
the integer power reduced modulo `MOD` is `1`. -/
theorem power_ne_naivePower_of_overflow :
    (1 : Int) ≤ 10000000000 ∧ bigM.WF ∧ bigM.R = bigM.C ∧ bigM.Reduced 10000000000 ∧
    power wrap64 10000000000 bigM 2 = some (ofRows [[1452241921]]) ∧
    (naivePower bigM 2).get 0 0 % 10000000000 = 1 ∧
    ¬ ∃ p, power wrap64 10000000000 bigM 2 = some p ∧
      (1 ≤ 2 → ∀ i j, i < bigM.R → j < bigM.R →
        p.get i j = (naivePower bigM 2).get i j % 10000000000) := by
  have hp : power wrap64 10000000000 bigM 2 = some (ofRows [[1452241921]]) := by decide
  refine ⟨by decide, bigM_wf, rfl, bigM_reduced, hp, by decide, ?_⟩
  rintro ⟨p, h1, h2⟩
  rw [hp] at h1
  have h3 := h2 (by decide) 0 0 (by decide) (by decide)
  rw [← Option.some.inj h1] at h3
  revert h3
  decide

/-- C10, amended: for every modulus `MOD ≥ 2` and every well-formed square matrix `m`
with entries in `[0, MOD)`, in 64-bit arithmetic `power m 0 = identity`; for every
modulus of the type (`MOD < 2^63`) `power m 1 = m`; and when `MOD * (MOD - 1) < 2^63`,
for all `a`, `b`, `power m (a + b) = power m a * power m b`, as equalities of
matrices. -/
theorem power_zero_one_add (MOD : Int) (m : Matrix) (a b : Nat) (hM : 2 ≤ MOD)
    (wm : m.WF) (hsq : m.R = m.C) (hm : m.Reduced MOD) :
    power wrap64 MOD m 0 = some (identity m.R) ∧
    (MOD < 2 ^ 63 → power wrap64 MOD m 1 = some m) ∧
    (MOD * (MOD - 1) < 2 ^ 63 →
      ∃ pa pb pab, power wrap64 MOD m a = some pa ∧ power wrap64 MOD m b = some pb ∧
        power wrap64 MOD m (a + b) = some pab ∧ mul wrap64 MOD pa pb = some pab) := by
  refine ⟨power_zero wrap64 MOD m hsq, ?_, ?_⟩
  · intro hT
    have hL : MOD - 1 < 2 ^ 63 := by omega
    exact power_one (by omega) (exactOn_wrap64 hL) wm hsq hm
  · intro hB
    exact (power_laws hM (exactOn_wrap64 hB) wm hsq hm a b).2.2

/-- C10, amended, on the demonstration: `T` with `MOD = 10^9 + 7`, `a = 4`, `b = 5`, and
the powers `0` and `1` of `[[MOD - 1]]` with `MOD = 10^10`, a modulus beyond the bound on
the products. -/
theorem power_zero_one_add_witness :
    (power wrap64 1000000007 exampleT 0 = some (identity exampleT.R) ∧
      power wrap64 1000000007 exampleT 1 = some exampleT ∧
      ∃ pa pb pab, power wrap64 1000000007 exampleT 4 = some pa ∧
        power wrap64 1000000007 exampleT 5 = some pb ∧
        power wrap64 1000000007 exampleT (4 + 5) = some pab ∧
        mul wrap64 1000000007 pa pb = some pab) ∧
    (power wrap64 10000000000 bigM 0 = some (identity bigM.R) ∧
      power wrap64 10000000000 bigM 1 = some bigM) :=
  ⟨⟨(power_zero_one_add 1000000007 exampleT 4 5 (by decide) exampleT_wf rfl
        exampleT_reduced).1,
      (power_zero_one_add 1000000007 exampleT 4 5 (by decide) exampleT_wf rfl
        exampleT_reduced).2.1 (by decide),
      (power_zero_one_add 1000000007 exampleT 4 5 (by decide) exampleT_wf rfl
        exampleT_reduced).2.2 (by decide)⟩,
    (power_zero_one_add 10000000000 bigM 0 0 (by decide) bigM_wf rfl bigM_reduced).1,
    (power_zero_one_add 10000000000 bigM 0 0 (by decide) bigM_wf rfl bigM_reduced).2.1
      (by decide)⟩

set_option maxRecDepth 100000 in
/-- C10 as stated fails: with `MOD = 10^10` and the reduced `1 x 1` matrix `[[MOD - 1]]`,
the products leave the 64-bit range, `power (1 + 3)` returns `[[7109770241]]` and
`power 1 * power 3` returns `[[6290448385]]`. -/
theorem power_add_ne_of_overflow :
    (2 : Int) ≤ 10000000000 ∧ bigM.WF ∧ bigM.R = bigM.C ∧ bigM.Reduced 10000000000 ∧
    power wrap64 10000000000 bigM (1 + 3) = some (ofRows [[7109770241]]) ∧
    power wrap64 10000000000 bigM 1 = some (ofRows [[9999999999]]) ∧
    power wrap64 10000000000 bigM 3 = some (ofRows [[-5161793537]]) ∧
    mul wrap64 10000000000 (ofRows [[9999999999]]) (ofRows [[-5161793537]])
      = some (ofRows [[6290448385]]) ∧
    ¬ ∃ pa pb pab, power wrap64 10000000000 bigM 1 = some pa ∧
      power wrap64 10000000000 bigM 3 = some pb ∧
      power wrap64 10000000000 bigM (1 + 3) = some pab ∧
      mul wrap64 10000000000 pa pb = some pab := by
  have h4 : power wrap64 10000000000 bigM (1 + 3) = some (ofRows [[7109770241]]) := by decide
  have h1 : power wrap64 10000000000 bigM 1 = some (ofRows [[9999999999]]) := by decide
  have h3 : power wrap64 10000000000 bigM 3 = some (ofRows [[-5161793537]]) := by decide
  have hm : mul wrap64 10000000000 (ofRows [[9999999999]]) (ofRows [[-5161793537]])
      = some (ofRows [[6290448385]]) := by decide
  refine ⟨by decide, bigM_wf, rfl, bigM_reduced, h4, h1, h3, hm, ?_⟩
  rintro ⟨pa, pb, pab, e1, e3, e4, em⟩
  rw [h1] at e1
  rw [h3] at e3
  rw [h4] at e4
  rw [← Option.some.inj e1, ← Option.some.inj e3, ← Option.some.inj e4, hm] at em
  revert em
  decide

end MatrixMod

/-! ## Disjoint set union: parent links, paths and the forest invariant -/

namespace DSU

theorem parent_of_getElem? {s : DSU} {i p : Nat} (h : s.pa[i]? = some p) : parent s i = p := by
  simp [parent, List.getD_eq_getElem?_getD, h]

theorem getElem?_parent {s : DSU} {i : Nat} (h : i < s.pa.length) :
    s.pa[i]? = some (parent s i) := by
  obtain ⟨p, hp⟩ := getElem?_of_lt h
  rw [hp, parent_of_getElem? hp]

theorem follow_succ (s : DSU) (k i : Nat) : follow s (k + 1) i = parent s (follow s k i) := by
  induction k generalizing i with
  | zero => rfl
  | succ k ih =>
    show follow s (k + 1) (parent s i) = parent s (follow s k (parent s i))
    exact ih (parent s i)

theorem follow_root {s : DSU} {r : Nat} (h : parent s r = r) (k : Nat) : follow s k r = r := by
  induction k with
  | zero => rfl
  | succ k ih =>
    show follow s k (parent s r) = r
    rw [h]; exact ih

theorem follow_add (s : DSU) (a b i : Nat) : follow s (a + b) i = follow s b (follow s a i) := by
  induction a generalizing i with
  | zero => simp [follow]
  | succ a ih =>
    rw [Nat.succ_add]
    show follow s (a + b) (parent s i) = follow s b (follow s a (parent s i))
    exact ih (parent s i)

/-- Once a root is reached, further parent links stay there. -/
theorem follow_of_root_le {s : DSU} {i k m : Nat}
    (h : parent s (follow s k i) = follow s k i) (hkm : k ≤ m) :
    follow s m i = follow s k i := by
  obtain ⟨c, rfl⟩ := Nat.exists_eq_add_of_le hkm
  rw [follow_add, follow_root h]

theorem follow_lt {n : Nat} {s : DSU} (hpa : ∀ i : Nat, i < n → parent s i < n) (k : Nat) :
    ∀ i, i < n → follow s k i < n := by
  induction k with
  | zero => intro i hi; exact hi
  | succ k ih =>
    intro i hi
    exact ih (parent s i) (hpa i hi)

/-- Along a path that has not reached a root yet, a potential that decreases along parent
links loses at least one unit per link. -/
theorem potential_follow {n : Nat} {s : DSU} {d : Nat → Nat}
    (hpa : ∀ i : Nat, i < n → parent s i < n)
    (hd : ∀ i : Nat, i < n → parent s i ≠ i → d (parent s i) < d i)
    {i : Nat} (hi : i < n) (k : Nat) :
    parent s (follow s k i) = follow s k i ∨ d (follow s k i) + k ≤ d i := by
  induction k with
  | zero => right; simp [follow]
  | succ k ih =>
    rw [follow_succ]
    rcases ih with h | h
    · left; rw [h, h]
    · by_cases hr : parent s (follow s k i) = follow s k i
      · left; rw [hr, hr]
      · right
        have := hd (follow s k i) (follow_lt hpa k i hi) hr
        omega

/-- Pigeonhole: in a state with `n` elements whose parent links decrease a potential,
every element reaches a root in fewer than `n` links. -/
theorem reach_lt {n : Nat} {s : DSU} {d : Nat → Nat}
    (hpa : ∀ i : Nat, i < n → parent s i < n)
    (hd : ∀ i : Nat, i < n → parent s i ≠ i → d (parent s i) < d i)
    {i : Nat} (hi : i < n) : ∃ k, k < n ∧ parent s (follow s k i) = follow s k i := by
  by_contra hno
  have hnon : ∀ k, k < n → parent s (follow s k i) ≠ follow s k i := by
    intro k hk h
    exact hno ⟨k, hk, h⟩
  have hdec : ∀ a b, a < b → b ≤ n → d (follow s b i) < d (follow s a i) := by
    intro a b hab
    induction b with
    | zero => omega
    | succ b ih =>
      intro hb
      have h1 := hd (follow s b i) (follow_lt hpa b i hi) (hnon b (by omega))
      rw [← follow_succ] at h1
      by_cases e : a = b
      · subst e; exact h1
      · have := ih (by omega) (by omega)
        omega
  have hcard : (Finset.range n).card < (Finset.range (n + 1)).card := by simp
  obtain ⟨x, hx, y, hy, hxy, hf⟩ :=
    Finset.exists_ne_map_eq_of_card_lt_of_maps_to hcard
      (fun k _ => Finset.mem_range.mpr (follow_lt hpa k i hi))
  have hx1 : x ≤ n := by have := Finset.mem_range.mp hx; omega
  have hy1 : y ≤ n := by have := Finset.mem_range.mp hy; omega
  rcases Nat.lt_or_gt_of_ne hxy with h | h
  · have := hdec x y h hy1
    rw [hf] at this
    omega
  · have := hdec y x h hx1
    rw [hf] at this
    omega

end DSU

namespace DSU

theorem Tree.rep_follow {n : Nat} {s : DSU} {rep d : Nat → Nat} (h : Tree n s rep d)
    (k : Nat) : ∀ i, i < n → rep (follow s k i) = rep i := by
  induction k with
  | zero => intro i _; rfl
  | succ k ih =>
    intro i hi
    show rep (follow s k (parent s i)) = rep i
    rw [ih (parent s i) (h.pa_lt i hi), h.rep_pa i hi]

theorem Tree.root_eq_rep {n : Nat} {s : DSU} {rep d : Nat → Nat} (h : Tree n s rep d)
    {i k : Nat} (hi : i < n) (hr : parent s (follow s k i) = follow s k i) :
    follow s k i = rep i := by
  rw [← h.root_rep _ (follow_lt h.pa_lt k i hi) hr, h.rep_follow k i hi]

theorem Tree.reach_rep_lt {n : Nat} {s : DSU} {rep d : Nat → Nat} (h : Tree n s rep d)
    {i : Nat} (hi : i < n) : ∃ k, k < n ∧ follow s k i = rep i := by
  obtain ⟨k, hk, hr⟩ := DSU.reach_lt h.pa_lt h.d_pa hi
  exact ⟨k, hk, h.root_eq_rep hi hr⟩

theorem Tree.rootOf_eq {n : Nat} {s : DSU} {rep d : Nat → Nat} (h : Tree n s rep d)
    {i : Nat} (hi : i < n) : rootOf n s i = rep i := by
  obtain ⟨k, hk, hr⟩ := DSU.reach_lt h.pa_lt h.d_pa hi
  show follow s n i = rep i
  rw [follow_of_root_le hr (Nat.le_of_lt hk)]
  exact h.root_eq_rep hi hr

/-- A state that satisfies the invariant for some representative map and potential is a
forest. -/
theorem Tree.toForest {n : Nat} {s : DSU} {rep d : Nat → Nat} (h : Tree n s rep d) :
    Forest n s := by
  refine ⟨h.len_pa, h.len_sz, h.pa_lt, ?_, ?_⟩
  · intro i hi
    obtain ⟨k, _, hr⟩ := DSU.reach_lt h.pa_lt h.d_pa hi
    exact ⟨k, hr⟩
  · intro r hr hroot
    rw [h.sz_root r hr hroot]
    congr 1
    apply classSize_congr
    intro k hk
    rw [h.rootOf_eq hk]

/-- A forest satisfies the invariant for its root map and the distance to the root. -/
theorem Forest.tree_of_forest {n : Nat} {s : DSU} (h : Forest n s) :
    ∃ d, Tree n s (rootOf n s) d := by
  classical
  let d : Nat → Nat := fun i =>
    if hx : ∃ k, parent s (follow s k i) = follow s k i then Nat.find hx else 0
  have hd : ∀ i : Nat, i < n → parent s i ≠ i → d (parent s i) < d i := by
    intro i hi hne
    have h1 := h.reach i hi
    have h2 := h.reach (parent s i) (h.pa_lt i hi)
    have e1 : d i = Nat.find h1 := dif_pos h1
    have e2 : d (parent s i) = Nat.find h2 := dif_pos h2
    rw [e1, e2]
    have hspec := Nat.find_spec h1
    cases hk : Nat.find h1 with
    | zero =>
      rw [hk] at hspec
      exact absurd hspec hne
    | succ k =>
      rw [hk] at hspec
      have : Nat.find h2 ≤ k := Nat.find_min' h2 hspec
      omega
  have hreach : ∀ i : Nat, i < n → ∃ k, k < n ∧ parent s (follow s k i) = follow s k i :=
    fun i hi => DSU.reach_lt h.pa_lt hd hi
  have hroot : ∀ i : Nat, i < n → parent s (rootOf n s i) = rootOf n s i := by
    intro i hi
    obtain ⟨k, hk, hr⟩ := hreach i hi
    show parent s (follow s n i) = follow s n i
    rw [follow_of_root_le hr (Nat.le_of_lt hk)]
    exact hr
  refine ⟨d, h.len_pa, h.len_sz, h.pa_lt, ?_, hd, ?_, hroot, ?_, h.sz_root⟩
  · intro i hi
    obtain ⟨k, hk, hr⟩ := hreach i hi
    show follow s n (parent s i) = follow s n i
    have e1 : follow s n (parent s i) = follow s (n + 1) i := rfl
    rw [e1, follow_of_root_le hr (by omega : k ≤ n + 1),
      follow_of_root_le hr (Nat.le_of_lt hk)]
  · intro i hi
    exact follow_lt h.pa_lt n i hi
  · intro r _ hr
    exact follow_root hr n

/-- In a forest the only cycles of parent links are the self-loops of the roots. -/
theorem Forest.no_cycle {n : Nat} {s : DSU} (h : Forest n s) {i k : Nat} (hi : i < n)
    (hk : 1 ≤ k) (hc : follow s k i = i) : parent s i = i := by
  obtain ⟨d, t⟩ := h.tree_of_forest
  rcases potential_follow t.pa_lt t.d_pa hi k with hr | hr
  · rw [hc] at hr; exact hr
  · rw [hc] at hr; omega

end DSU

namespace DSU

/-- What a returning `find i` does, in any state whose parents are in range: the result
`r` is a root reached from `i`, every element of the path from `i` gets `r` as its parent,
and nothing else changes. -/
theorem find_path {n : Nat} {s : DSU} (hlen : s.pa.length = n)
    (hpa : ∀ i : Nat, i < n → parent s i < n) (fuel : Nat) :
    ∀ {i r : Nat} {s1 : DSU}, i < n → find fuel s i = some (r, s1) →
      (∃ k, follow s k i = r) ∧ parent s r = r ∧ s1.sz = s.sz ∧ s1.pa.length = n ∧
      (∀ k, s1.pa[follow s k i]? = some r) ∧
      (∀ x, (∀ k, follow s k i ≠ x) → s1.pa[x]? = s.pa[x]?) := by
  induction fuel with
  | zero =>
    intro i r s1 _ hf
    simp [find] at hf
  | succ fuel ih =>
    intro i r s1 hi hf
    have hp := getElem?_parent (s := s) (i := i) (by rw [hlen]; exact hi)
    simp only [find, hp] at hf
    by_cases hpi : parent s i = i
    · simp only [hpi, if_true, Option.some.injEq, Prod.mk.injEq] at hf
      obtain ⟨e1, e2⟩ := hf
      subst e1 e2
      refine ⟨⟨0, rfl⟩, hpi, rfl, hlen, ?_, fun _ _ => rfl⟩
      intro k
      rw [follow_root hpi k, getElem?_parent (by rw [hlen]; exact hi), hpi]
    · simp only [hpi, if_false] at hf
      cases hrec : find fuel s (parent s i) with
      | none => simp [hrec] at hf
      | some res =>
        obtain ⟨r0, s0⟩ := res
        simp only [hrec, Option.some.injEq, Prod.mk.injEq] at hf
        obtain ⟨e1, e2⟩ := hf
        obtain ⟨⟨k0, hk0⟩, hroot, hsz, hl0, hon, hoff⟩ := ih (hpa i hi) hrec
        subst e1 e2
        refine ⟨⟨k0 + 1, hk0⟩, hroot, hsz, by simp [hl0], ?_, ?_⟩
        · intro k
          show (s0.pa.set i r0)[follow s k i]? = some r0
          by_cases e : i = follow s k i
          · rw [← e, List.getElem?_set_self (by rw [hl0]; exact hi)]
          · rw [List.getElem?_set_ne e]
            cases k with
            | zero => exact absurd rfl e
            | succ k => exact hon k
        · intro x hx
          show (s0.pa.set i r0)[x]? = s.pa[x]?
          have hxi : i ≠ x := hx 0
          rw [List.getElem?_set_ne hxi]
          exact hoff x (fun k => hx (k + 1))

/-- A `find i` with more fuel than the number of links to the root returns. -/
theorem find_some_of_reach {n : Nat} {s : DSU} (hlen : s.pa.length = n)
    (hpa : ∀ i : Nat, i < n → parent s i < n) (fuel : Nat) :
    ∀ {i k : Nat}, i < n → parent s (follow s k i) = follow s k i → k < fuel →
      ∃ r s1, find fuel s i = some (r, s1) := by
  induction fuel with
  | zero => intro i k _ _ hk; omega
  | succ fuel ih =>
    intro i k hi hr hk
    have hp := getElem?_parent (s := s) (i := i) (by rw [hlen]; exact hi)
    by_cases hpi : parent s i = i
    · exact ⟨i, s, by simp [find, hp, hpi]⟩
    · cases k with
      | zero => exact absurd hr hpi
      | succ k =>
        obtain ⟨r0, s0, hrec⟩ := ih (hpa i hi) hr (by omega)
        exact ⟨r0, { s0 with pa := s0.pa.set i r0 }, by simp [find, hp, hpi, hrec]⟩

theorem Tree.rep_idem {n : Nat} {s : DSU} {rep d : Nat → Nat} (h : Tree n s rep d)
    {i : Nat} (hi : i < n) : rep (rep i) = rep i :=
  h.root_rep _ (h.rep_lt i hi) (h.rep_root i hi)

theorem Tree.d_rep_lt {n : Nat} {s : DSU} {rep d : Nat → Nat} (h : Tree n s rep d) :
    ∀ (m i : Nat), i < n → d i ≤ m → rep i ≠ i → d (rep i) < d i := by
  intro m
  induction m with
  | zero =>
    intro i hi hm hne
    have hnr : parent s i ≠ i := fun e => hne (h.root_rep i hi e)
    have := h.d_pa i hi hnr
    omega
  | succ m ih =>
    intro i hi hm hne
    have hnr : parent s i ≠ i := fun e => hne (h.root_rep i hi e)
    have h1 := h.d_pa i hi hnr
    have hp := h.pa_lt i hi
    by_cases e : rep (parent s i) = parent s i
    · rw [← h.rep_pa i hi, e]; exact h1
    · have := ih (parent s i) hp (by omega) e
      rw [h.rep_pa i hi] at this
      omega

theorem Compressed.parent_or {n : Nat} {rep : Nat → Nat} {s s1 : DSU} (c : Compressed n rep s s1)
    {k : Nat} (hk : k < n) : DSU.parent s1 k = DSU.parent s k ∨ DSU.parent s1 k = rep k := by
  rcases c.pa_or k hk with e | e
  · left
    simp [DSU.parent, List.getD_eq_getElem?_getD, e]
  · right
    exact parent_of_getElem? e

/-- Path compression preserves the invariant, with the same representatives and
potential. -/
theorem Tree.of_compressed {n : Nat} {s s1 : DSU} {rep d : Nat → Nat} (h : Tree n s rep d)
    (c : Compressed n rep s s1) : Tree n s1 rep d := by
  have root : ∀ r : Nat, r < n → DSU.parent s1 r = r → DSU.parent s r = r := by
    intro r hr e
    rcases c.parent_or hr with e1 | e1
    · rw [← e1]; exact e
    · have : rep r = r := by rw [← e1]; exact e
      rw [← this]; exact h.rep_root r hr
  refine ⟨c.len_pa, by rw [c.sz_eq]; exact h.len_sz, ?_, ?_, ?_, h.rep_lt, ?_, ?_, ?_⟩
  · intro i hi
    rcases c.parent_or hi with e | e
    · rw [e]; exact h.pa_lt i hi
    · rw [e]; exact h.rep_lt i hi
  · intro i hi
    rcases c.parent_or hi with e | e
    · rw [e]; exact h.rep_pa i hi
    · rw [e]; exact h.rep_idem hi
  · intro i hi hne
    rcases c.parent_or hi with e | e
    · rw [e] at hne ⊢; exact h.d_pa i hi hne
    · rw [e] at hne ⊢; exact h.d_rep_lt (d i) i hi (le_refl _) hne
  · intro i hi
    rcases c.parent_or (h.rep_lt i hi) with e | e
    · rw [e]; exact h.rep_root i hi
    · rw [e]; exact h.rep_idem hi
  · intro r hr e
    exact h.root_rep r hr (root r hr e)
  · intro r hr e
    rw [c.sz_eq]
    exact h.sz_root r hr (root r hr e)

/-- In a forest, `find i` with at least `n` units of fuel returns the representative of
`i`, redirects exactly the path of `i` to it, and leaves a state that satisfies the
invariant for the same representatives and potential. -/
theorem tree_find {n : Nat} {rep d : Nat → Nat} {s : DSU} {i fuel : Nat}
    (h : Tree n s rep d) (hi : i < n) (hf : n ≤ fuel) :
    ∃ s1, find fuel s i = some (rep i, s1) ∧ s1.sz = s.sz ∧
      (∀ k, s1.pa[follow s k i]? = some (rep i)) ∧
      (∀ x, (∀ k, follow s k i ≠ x) → s1.pa[x]? = s.pa[x]?) ∧
      Compressed n rep s s1 ∧ Tree n s1 rep d := by
  obtain ⟨k, hk, hr⟩ := DSU.reach_lt h.pa_lt h.d_pa hi
  obtain ⟨r, s1, hfind⟩ := find_some_of_reach h.len_pa h.pa_lt fuel hi hr (by omega)
  obtain ⟨⟨k1, hk1⟩, hroot, hsz, hlen, hon, hoff⟩ := find_path h.len_pa h.pa_lt fuel hi hfind
  have hrep : r = rep i := by
    rw [← hk1]
    exact h.root_eq_rep hi (by rw [hk1]; exact hroot)
  subst hrep
  have c : Compressed n rep s s1 := by
    refine ⟨hsz, hlen, ?_⟩
    intro x hx
    by_cases e : ∃ k, follow s k i = x
    · right
      obtain ⟨k2, hk2⟩ := e
      rw [← hk2, hon k2, h.rep_follow k2 i hi]
    · left
      exact hoff x (fun k hk2 => e ⟨k, hk2⟩)
  exact ⟨s1, hfind, hsz, hon, hoff, c, h.of_compressed c⟩

/-- Partial correctness of `find` in a forest, for any fuel. -/
theorem tree_find_spec {n : Nat} {rep d : Nat → Nat} {s s1 : DSU} {i r fuel : Nat}
    (h : Tree n s rep d) (hi : i < n) (hfind : find fuel s i = some (r, s1)) :
    r = rep i ∧ Compressed n rep s s1 := by
  obtain ⟨⟨k1, hk1⟩, hroot, hsz, hlen, hon, hoff⟩ := find_path h.len_pa h.pa_lt fuel hi hfind
  have hrep : r = rep i := by
    rw [← hk1]
    exact h.root_eq_rep hi (by rw [hk1]; exact hroot)
  subst hrep
  refine ⟨rfl, hsz, hlen, ?_⟩
  intro x hx
  by_cases e : ∃ k, follow s k i = x
  · right
    obtain ⟨k2, hk2⟩ := e
    rw [← hk2, hon k2, h.rep_follow k2 i hi]
  · left
    exact hoff x (fun k hk2 => e ⟨k, hk2⟩)

end DSU

namespace DSU

theorem parent_set (s : DSU) (sz1 : List Nat) {l : Nat} (w : Nat) (hl : l < s.pa.length)
    (k : Nat) :
    parent { pa := s.pa.set l w, sz := sz1 } k = if k = l then w else parent s k := by
  unfold parent
  simp only [List.getD_eq_getElem?_getD, List.getElem?_set]
  by_cases e : l = k
  · subst e
    simp [hl]
  · have e1 : ¬ k = l := fun x => e x.symm
    simp [e, e1]

/-- Attaching a root `l` to a different root `w` and adding the two sizes at `w`
preserves the forest invariant, for the merged representatives. -/
theorem tree_link {n : Nat} {s : DSU} {rep d : Nat → Nat} {w l : Nat}
    (h : Tree n s rep d) (hw : w < n) (hl : l < n)
    (rootw : parent s w = w) (rootl : parent s l = l) (hwl : w ≠ l) :
    Tree n { pa := s.pa.set l w, sz := s.sz.set w (classSize rep n w + classSize rep n l) }
      (mergeRep rep w l) (mergeDepth rep d w l) := by
  have hrw : rep w = w := h.root_rep w hw rootw
  have hrl : rep l = l := h.root_rep l hl rootl
  have hll : l < s.pa.length := by rw [h.len_pa]; exact hl
  have par := parent_set s (s.sz.set w (classSize rep n w + classSize rep n l)) w hll
  have mw : mergeRep rep w l w = w := by simp [mergeRep, hrw]
  have ml : mergeRep rep w l l = w := by simp [mergeRep, hrl]
  have csw : classSize (mergeRep rep w l) n w = classSize rep n w + classSize rep n l :=
    classSize_merge hwl (fun k _ => mergeRep_eq_winner k)
  have cso : ∀ r : Nat, r ≠ w → r ≠ l →
      classSize (mergeRep rep w l) n r = classSize rep n r := fun r h1 h2 =>
    classSize_congr (fun k _ => mergeRep_eq_other h1 h2 k)
  have mne : ∀ k : Nat, mergeRep rep w l k ≠ l := by
    intro k
    unfold mergeRep
    split
    · exact hwl
    · assumption
  refine ⟨by simp [h.len_pa], by simp [h.len_sz], ?_, ?_, ?_, ?_, ?_, ?_, ?_⟩
  · intro i hi
    rw [par]
    split
    · exact hw
    · exact h.pa_lt i hi
  · intro i hi
    rw [par]
    by_cases e : i = l
    · subst e
      rw [if_pos rfl, mw, ml]
    · rw [if_neg e]
      simp only [mergeRep, h.rep_pa i hi]
  · intro i hi hne
    rw [par] at hne ⊢
    by_cases e : i = l
    · subst e
      rw [if_pos rfl]
      have e1 : mergeDepth rep d w i w = d w := by simp [mergeDepth, hrw, hwl]
      have e2 : mergeDepth rep d w i i = d i + d w + 1 := by simp [mergeDepth, hrl]
      omega
    · rw [if_neg e] at hne ⊢
      have h1 := h.d_pa i hi hne
      unfold mergeDepth
      rw [h.rep_pa i hi]
      split <;> omega
  · intro i hi
    unfold mergeRep
    split
    · exact hw
    · exact h.rep_lt i hi
  · intro i hi
    rw [par, if_neg (mne i)]
    unfold mergeRep
    split
    · exact rootw
    · exact h.rep_root i hi
  · intro r hr e
    rw [par] at e
    by_cases e1 : r = l
    · rw [if_pos e1] at e
      exact absurd (e.trans e1) hwl
    · rw [if_neg e1] at e
      have := h.root_rep r hr e
      simp [mergeRep, this, e1]
  · intro r hr e
    rw [par] at e
    by_cases e1 : r = l
    · rw [if_pos e1] at e
      exact absurd (e.trans e1) hwl
    · rw [if_neg e1] at e
      show (s.sz.set w _)[r]? = some _
      by_cases e2 : r = w
      · subst e2
        rw [List.getElem?_set_self (by rw [h.len_sz]; exact hw), csw]
      · rw [List.getElem?_set_ne (Ne.symm e2), cso r e2 e1]
        exact h.sz_root r hr e

/-- A returning `unite` preserves the forest invariant. -/
theorem tree_unite_spec {n : Nat} {rep d : Nat → Nat} {s s1 : DSU} {fuel i j : Nat}
    {b : Bool} (h : Tree n s rep d) (hi : i < n) (hj : j < n)
    (hu : unite fuel s i j = some (b, s1)) : ∃ rep1 d1, Tree n s1 rep1 d1 := by
  cases hfi : find fuel s i with
  | none => simp [unite, hfi] at hu
  | some res1 =>
    obtain ⟨i1, t1⟩ := res1
    obtain ⟨e1, c1⟩ := tree_find_spec h hi hfi
    have h1 := h.of_compressed c1
    cases hfj : find fuel t1 j with
    | none => simp [unite, hfi, hfj] at hu
    | some res2 =>
      obtain ⟨j1, t2⟩ := res2
      obtain ⟨e2, c2⟩ := tree_find_spec h1 hj hfj
      have h2 := h1.of_compressed c2
      subst e1 e2
      by_cases hne : rep i = rep j
      · rw [hne] at hfi
        rw [unite_eq_false hfi hfj] at hu
        simp only [Option.some.injEq, Prod.mk.injEq] at hu
        exact ⟨rep, d, hu.2 ▸ h2⟩
      · have roota := h2.rep_root i hi
        have rootb := h2.rep_root j hj
        have ha := h2.sz_root _ (h.rep_lt i hi) roota
        have hb := h2.sz_root _ (h.rep_lt j hj) rootb
        rw [unite_eq hfi hfj hne ha hb] at hu
        simp only [Option.some.injEq, Prod.mk.injEq] at hu
        obtain ⟨_, hs1⟩ := hu
        by_cases hlt : classSize rep n (rep i) < classSize rep n (rep j)
        · simp only [hlt, if_true] at hs1
          rw [← hs1]
          exact ⟨_, _,
            tree_link h2 (h.rep_lt j hj) (h.rep_lt i hi) rootb roota (Ne.symm hne)⟩
        · simp only [hlt, if_false] at hs1
          rw [← hs1]
          exact ⟨_, _, tree_link h2 (h.rep_lt i hi) (h.rep_lt j hj) roota rootb hne⟩

/-- In a forest, `unite` with at least `n` units of fuel returns. -/
theorem tree_unite_some {n : Nat} {rep d : Nat → Nat} {s : DSU} {fuel i j : Nat}
    (h : Tree n s rep d) (hi : i < n) (hj : j < n) (hf : n ≤ fuel) :
    ∃ b s1, unite fuel s i j = some (b, s1) := by
  obtain ⟨t1, hfi, _, _, _, _, h1⟩ := tree_find h hi hf
  obtain ⟨t2, hfj, _, _, _, _, h2⟩ := tree_find h1 hj hf
  by_cases hne : rep i = rep j
  · rw [hne] at hfi
    exact ⟨_, _, unite_eq_false hfi hfj⟩
  · exact ⟨_, _, unite_eq hfi hfj hne (h2.sz_root _ (h.rep_lt i hi) (h2.rep_root i hi))
      (h2.sz_root _ (h.rep_lt j hj) (h2.rep_root j hj))⟩

theorem tree_same_spec {n : Nat} {rep d : Nat → Nat} {s s1 : DSU} {fuel i j : Nat}
    {b : Bool} (h : Tree n s rep d) (hi : i < n) (hj : j < n)
    (hu : same fuel s i j = some (b, s1)) :
    b = decide (rep i = rep j) ∧ Compressed n rep s s1 := by
  cases hfi : find fuel s i with
  | none => simp [same, hfi] at hu
  | some res1 =>
    obtain ⟨i1, t1⟩ := res1
    obtain ⟨e1, c1⟩ := tree_find_spec h hi hfi
    cases hfj : find fuel t1 j with
    | none => simp [same, hfi, hfj] at hu
    | some res2 =>
      obtain ⟨j1, t2⟩ := res2
      obtain ⟨e2, c2⟩ := tree_find_spec (h.of_compressed c1) hj hfj
      simp only [same, hfi, hfj, Option.some.injEq, Prod.mk.injEq] at hu
      obtain ⟨hb, hs⟩ := hu
      subst e1 e2 hs
      exact ⟨hb.symm, c1.trans c2⟩

theorem tree_same {n : Nat} {rep d : Nat → Nat} {s : DSU} {fuel i j : Nat}
    (h : Tree n s rep d) (hi : i < n) (hj : j < n) (hf : n ≤ fuel) :
    ∃ s1, same fuel s i j = some (decide (rep i = rep j), s1) ∧ Tree n s1 rep d := by
  obtain ⟨t1, hfi, _, _, _, _, h1⟩ := tree_find h hi hf
  obtain ⟨t2, hfj, _, _, _, _, h2⟩ := tree_find h1 hj hf
  exact ⟨t2, by simp [same, hfi, hfj], h2⟩

theorem tree_size_spec {n : Nat} {rep d : Nat → Nat} {s s1 : DSU} {fuel i c : Nat}
    (h : Tree n s rep d) (hi : i < n) (hu : size fuel s i = some (c, s1)) :
    c = classSize rep n (rep i) ∧ Compressed n rep s s1 := by
  cases hfi : find fuel s i with
  | none => simp [size, hfi] at hu
  | some res1 =>
    obtain ⟨i1, t1⟩ := res1
    obtain ⟨e1, c1⟩ := tree_find_spec h hi hfi
    have h1 := h.of_compressed c1
    subst e1
    have hsz := h1.sz_root _ (h.rep_lt i hi) (h1.rep_root i hi)
    simp only [size, hfi, hsz, Option.some.injEq, Prod.mk.injEq] at hu
    obtain ⟨hc, hs⟩ := hu
    subst hs
    exact ⟨hc.symm, c1⟩

theorem tree_size {n : Nat} {rep d : Nat → Nat} {s : DSU} {fuel i : Nat}
    (h : Tree n s rep d) (hi : i < n) (hf : n ≤ fuel) :
    ∃ s1, size fuel s i = some (classSize rep n (rep i), s1) ∧ Tree n s1 rep d := by
  obtain ⟨t1, hfi, _, _, _, _, h1⟩ := tree_find h hi hf
  have hsz := h1.sz_root _ (h.rep_lt i hi) (h1.rep_root i hi)
  exact ⟨t1, by simp [size, hfi, hsz], h1⟩

theorem tree_construct (n : Nat) : Tree n (construct n) id (fun _ => 0) := by
  have par : ∀ i : Nat, i < n → parent (construct n) i = i := by
    intro i hi
    apply parent_of_getElem?
    rw [construct_pa]
    exact List.getElem?_range hi
  refine ⟨by simp [construct_pa], by simp [construct_sz], ?_, ?_, ?_, ?_, ?_, ?_, ?_⟩
  · intro i hi; rw [par i hi]; exact hi
  · intro i hi; rw [par i hi]
  · intro i hi hne; exact absurd (par i hi) hne
  · intro i hi; exact hi
  · intro i hi; exact par i hi
  · intro r _ _; rfl
  · intro r hr _
    rw [construct_sz, classSize_id hr, List.getElem?_replicate]
    simp [hr]

end DSU

namespace DSU

/-- The invariant of the reachable states is a special case of the forest invariant. -/
theorem Inv.tree_of_inv {n : Nat} {s : DSU} {rep rank : Nat → Nat} (h : Inv n s rep rank) :
    Tree n s rep (fun i => n - 1 - rank i) := by
  have hp : ∀ i : Nat, i < n → s.pa[i]? = some (parent s i) := fun i hi =>
    getElem?_parent (by rw [h.len_pa]; exact hi)
  refine ⟨h.len_pa, h.len_sz, ?_, ?_, ?_, h.rep_lt, ?_, ?_, ?_⟩
  · intro i hi
    exact h.pa_lt i _ (hp i hi)
  · intro i hi
    exact h.rep_pa i _ (hp i hi)
  · intro i hi hne
    have h1 := h.rank_pa i _ (hp i hi) hne
    have h2 := h.rank_lt _ (h.pa_lt i _ (hp i hi))
    show n - 1 - rank (parent s i) < n - 1 - rank i
    omega
  · intro i hi
    exact parent_of_getElem? (h.rep_root i hi)
  · intro r hr e
    apply h.root_rep r
    rw [hp r hr, e]
  · intro r hr e
    apply h.sz_root r
    rw [hp r hr, e]

theorem Reachable.forest {n : Nat} {s : DSU} (hs : Reachable n s) : Forest n s := by
  obtain ⟨rep, rank, h⟩ := hs.inv
  exact h.tree_of_inv.toForest

/-- C16: the forest invariant (`pa` and `sz` of length `n`, parents in `[0, n)`, every
element reaches a root after finitely many parent links so that the only cycles are root
self-loops, and every root stores the number of elements whose root it is) holds after
`construct n` and after `reset n`, and every returning `find`, `unite`, `same` and `size`
call with arguments in `[0, n)` preserves it; with at least `n` units of fuel these calls
return. -/
theorem forest_invariant (n : Nat) :
    Forest n (construct n) ∧ (∀ s0, Forest n (reset s0 n)) ∧
    ∀ s, Forest n s →
      (∀ i k, i < n → 1 ≤ k → follow s k i = i → parent s i = i) ∧
      (∀ fuel i r s1, i < n → find fuel s i = some (r, s1) → Forest n s1) ∧
      (∀ fuel i j b s1, i < n → j < n → unite fuel s i j = some (b, s1) → Forest n s1) ∧
      (∀ fuel i j b s1, i < n → j < n → same fuel s i j = some (b, s1) → Forest n s1) ∧
      (∀ fuel i c s1, i < n → size fuel s i = some (c, s1) → Forest n s1) ∧
      (∀ fuel i j, n ≤ fuel → i < n → j < n →
        (find fuel s i).isSome = true ∧ (unite fuel s i j).isSome = true ∧
        (same fuel s i j).isSome = true ∧ (size fuel s i).isSome = true) := by
  have hc : Forest n (construct n) := (tree_construct n).toForest
  have hreset : ∀ s0, reset s0 n = construct n := fun s0 => by simp [reset, construct]
  refine ⟨hc, fun s0 => by rw [hreset s0]; exact hc, ?_⟩
  intro s h
  obtain ⟨d, t⟩ := h.tree_of_forest
  refine ⟨?_, ?_, ?_, ?_, ?_, ?_⟩
  · intro i k hi hk hcyc
    exact h.no_cycle hi hk hcyc
  · intro fuel i r s1 hi hf
    exact (t.of_compressed (tree_find_spec t hi hf).2).toForest
  · intro fuel i j b s1 hi hj hu
    obtain ⟨rep1, d1, t1⟩ := tree_unite_spec t hi hj hu
    exact t1.toForest
  · intro fuel i j b s1 hi hj hu
    exact (t.of_compressed (tree_same_spec t hi hj hu).2).toForest
  · intro fuel i c s1 hi hu
    exact (t.of_compressed (tree_size_spec t hi hu).2).toForest
  · intro fuel i j hf hi hj
    obtain ⟨s1, e1, _⟩ := tree_find t hi hf
    obtain ⟨b, s2, e2⟩ := tree_unite_some t hi hj hf
    obtain ⟨s3, e3, _⟩ := tree_same t hi hj hf
    obtain ⟨s4, e4, _⟩ := tree_size t hi hf
    rw [e1, e2, e3, e4]
    exact ⟨rfl, rfl, rfl, rfl⟩

/-- C16 on the demonstration: `construct 10` is a forest, and so are the state after
`unite 0 1` and the example state after all six unions. -/
theorem forest_invariant_witness :
    Forest 10 (construct 10) ∧
    Forest 10 { pa := [0, 0, 2, 3, 4, 5, 6, 7, 8, 9], sz := [2, 1, 1, 1, 1, 1, 1, 1, 1, 1] } ∧
    (∀ i k, i < 10 → 1 ≤ k → follow exampleState k i = i → parent exampleState i = i) :=
  ⟨(forest_invariant 10).1,
    ((forest_invariant 10).2.2 (construct 10) (forest_invariant 10).1).2.2.1 10 0 1 true _
      (by decide) (by decide) rfl,
    ((forest_invariant 10).2.2 exampleState exampleState_reachable.forest).1⟩

/-- C17: in a state that satisfies the forest invariant, `find i` with `i < n` and at
least `n` units of fuel returns; every index it follows lies in `[0, n)`; the result `r`
is the root of the tree of `i` (`pa[r] = r`, reached from `i` by parent links); after the
call every element of the path from `i` has `r` as its parent, every other entry of `pa`
and all of `sz` are unchanged, the invariant still holds, every element has the same root
as before, and every later `find`, `same` and `size` gives the same answer as before. -/
theorem find_compresses_path (n : Nat) (s : DSU) (h : Forest n s) (i : Nat) (hi : i < n)
    (fuel : Nat) (hf : n ≤ fuel) :
    ∃ r s1, find fuel s i = some (r, s1) ∧
      r < n ∧ parent s r = r ∧ (∃ k, follow s k i = r) ∧ r = rootOf n s i ∧
      (∀ k, follow s k i < n) ∧
      (∀ k, s1.pa[follow s k i]? = some r) ∧
      (∀ x, (∀ k, follow s k i ≠ x) → s1.pa[x]? = s.pa[x]?) ∧
      s1.sz = s.sz ∧ Forest n s1 ∧
      (∀ x, x < n → rootOf n s1 x = rootOf n s x) ∧
      (∀ x y, x < n → y < n →
        (find fuel s1 x).map Prod.fst = (find fuel s x).map Prod.fst ∧
        (same fuel s1 x y).map Prod.fst = (same fuel s x y).map Prod.fst ∧
        (size fuel s1 x).map Prod.fst = (size fuel s x).map Prod.fst) := by
  obtain ⟨d, t⟩ := h.tree_of_forest
  obtain ⟨s1, hfind, hsz, hon, hoff, _, t1⟩ := tree_find t hi hf
  obtain ⟨k, _, hk⟩ := t.reach_rep_lt hi
  refine ⟨rootOf n s i, s1, hfind, t.rep_lt i hi, t.rep_root i hi, ⟨k, hk⟩, rfl,
    fun k => follow_lt t.pa_lt k i hi, hon, hoff, hsz, t1.toForest,
    fun x hx => t1.rootOf_eq hx, ?_⟩
  intro x y hx hy
  obtain ⟨a1, ea1, _⟩ := tree_find t1 hx hf
  obtain ⟨a0, ea0, _⟩ := tree_find t hx hf
  obtain ⟨b1, eb1, _⟩ := tree_same t1 hx hy hf
  obtain ⟨b0, eb0, _⟩ := tree_same t hx hy hf
  obtain ⟨c1, ec1, _⟩ := tree_size t1 hx hf
  obtain ⟨c0, ec0, _⟩ := tree_size t hx hf
  rw [ea1, ea0, eb1, eb0, ec1, ec0]
  exact ⟨rfl, rfl, rfl⟩

end DSU

namespace DSU

theorem chainState_forest : Forest 4 chainState := by
  have t : Tree 4 chainState (fun _ => 0) id :=
    ⟨by decide, by decide, by decide, by decide, by decide, by decide, by decide, by decide,
      by decide⟩
  exact t.toForest

/-- C17 on a chain `3 → 2 → 1 → 0`: `find 3` returns `0` and redirects `3`, `2`, `1` to
`0`. -/
theorem find_compresses_path_witness :
    find 4 chainState 3 = some (0, { pa := [0, 0, 0, 0], sz := [4, 1, 1, 1] }) ∧
    ∃ r s1, find 4 chainState 3 = some (r, s1) ∧
      r < 4 ∧ parent chainState r = r ∧ (∃ k, follow chainState k 3 = r) ∧
      r = rootOf 4 chainState 3 ∧
      (∀ k, follow chainState k 3 < 4) ∧
      (∀ k, s1.pa[follow chainState k 3]? = some r) ∧
      (∀ x, (∀ k, follow chainState k 3 ≠ x) → s1.pa[x]? = chainState.pa[x]?) ∧
      s1.sz = chainState.sz ∧ Forest 4 s1 ∧
      (∀ x, x < 4 → rootOf 4 s1 x = rootOf 4 chainState x) ∧
      (∀ x y, x < 4 → y < 4 →
        (find 4 s1 x).map Prod.fst = (find 4 chainState x).map Prod.fst ∧
        (same 4 s1 x y).map Prod.fst = (same 4 chainState x y).map Prod.fst ∧
        (size 4 s1 x).map Prod.fst = (size 4 chainState x).map Prod.fst) :=
  ⟨by decide, find_compresses_path 4 chainState chainState_forest 3 (by decide) 4
    (by decide)⟩

/-- C18: in a reachable state, with `ri = find i`, `rj = find j` and `ri ≠ rj`, `unite i j`
attaches the root of the smaller set to the root of the larger one and adds the sizes at
the surviving root: if `sz[ri] ≥ sz[rj]` (ties included) then afterwards `pa[rj] = ri`,
`ri` is still a root and `sz[ri]` is the sum of the two old sizes; otherwise the same with
`ri` and `rj` exchanged; and `find` of every member of either set returns the surviving
root. -/
theorem unite_attaches_smaller_to_larger (n : Nat) (s : DSU) (hs : Reachable n s)
    (i j : Nat) (hi : i < n) (hj : j < n) (fuel : Nat) (hf : n ≤ fuel) :
    ∃ ri rj a b,
      (find fuel s i).map Prod.fst = some ri ∧ (find fuel s j).map Prod.fst = some rj ∧
      s.sz[ri]? = some a ∧ s.sz[rj]? = some b ∧
      (ri ≠ rj → ∃ s1, unite fuel s i j = some (true, s1) ∧
        (b ≤ a →
          s1.pa[rj]? = some ri ∧ s1.pa[ri]? = some ri ∧ s1.sz[ri]? = some (a + b) ∧
          ∀ x, x < n →
            ((find fuel s x).map Prod.fst = some ri ∨
              (find fuel s x).map Prod.fst = some rj) →
            (find fuel s1 x).map Prod.fst = some ri) ∧
        (a < b →
          s1.pa[ri]? = some rj ∧ s1.pa[rj]? = some rj ∧ s1.sz[rj]? = some (a + b) ∧
          ∀ x, x < n →
            ((find fuel s x).map Prod.fst = some ri ∨
              (find fuel s x).map Prod.fst = some rj) →
            (find fuel s1 x).map Prod.fst = some rj)) := by
  obtain ⟨rep, rank, h⟩ := hs.inv
  refine ⟨rep i, rep j, classSize rep n (rep i), classSize rep n (rep j),
    find_fst h hi hf, find_fst h hj hf, h.sz_root _ (h.rep_root i hi),
    h.sz_root _ (h.rep_root j hj), ?_⟩
  intro hne
  obtain ⟨b0, s1, hu⟩ := unite_some h hi hj hf
  rcases unite_spec h hi hj hu with ⟨_, he, _⟩ | ⟨hb, _, w, l, s2, hwl, _, h2, hs1, h1⟩
  · exact absurd he hne
  subst hb
  obtain ⟨hwl1, hmem, _⟩ := merged_facts (n := n) hne (winner_cases hwl)
  have hfind : ∀ x, x < n →
      ((find fuel s x).map Prod.fst = some (rep i) ∨
        (find fuel s x).map Prod.fst = some (rep j)) →
      (find fuel s1 x).map Prod.fst = some w := by
    intro x hx hor
    rw [find_fst h hx hf] at hor
    rw [find_fst h1 hx hf]
    congr 1
    apply (hmem x).mpr
    rcases hor with e | e
    · exact Or.inl (Option.some.inj e)
    · exact Or.inr (Option.some.inj e)
  have hw : w < n := by
    rcases hwl with ⟨e, _, _⟩ | ⟨e, _, _⟩
    · rw [e]; exact h.rep_lt i hi
    · rw [e]; exact h.rep_lt j hj
  have hl : l < n := by
    rcases hwl with ⟨_, e, _⟩ | ⟨_, e, _⟩
    · rw [e]; exact h.rep_lt j hj
    · rw [e]; exact h.rep_lt i hi
  have rootw : s2.pa[w]? = some w := by
    rcases hwl with ⟨e, _, _⟩ | ⟨e, _, _⟩
    · rw [e]; exact h2.rep_root i hi
    · rw [e]; exact h2.rep_root j hj
  have pl : s1.pa[l]? = some w := by
    rw [hs1]
    exact List.getElem?_set_self (by rw [h2.len_pa]; exact hl)
  have pw : s1.pa[w]? = some w := by
    rw [hs1]
    show (s2.pa.set l w)[w]? = some w
    rw [List.getElem?_set_ne (Ne.symm hwl1)]
    exact rootw
  have sw : s1.sz[w]? = some (classSize rep n w + classSize rep n l) := by
    rw [hs1]
    exact List.getElem?_set_self (by rw [h2.len_sz]; exact hw)
  refine ⟨s1, hu, ?_, ?_⟩
  · intro hle
    rcases hwl with ⟨e1, e2, _⟩ | ⟨_, _, hlt⟩
    · subst e1 e2
      exact ⟨pl, pw, sw, hfind⟩
    · omega
  · intro hlt
    rcases hwl with ⟨_, _, hle⟩ | ⟨e1, e2, _⟩
    · omega
    · subst e1 e2
      rw [Nat.add_comm] at sw
      exact ⟨pl, pw, sw, hfind⟩

/-- C18 on the demonstration: in the example state `unite 1 9` joins the set of `1`
(root `0`, size 4) and the set of `9` (root `2`, size 3) under the root `0`, and a tie
(`unite 0 1` on `construct 10`) keeps the root of the first argument. -/
theorem unite_attaches_smaller_to_larger_witness :
    (unite 10 exampleState 1 9 = some (true,
        { pa := [0, 0, 0, 2, 0, 5, 5, 7, 0, 2], sz := [7, 1, 3, 1, 1, 2, 1, 1, 1, 1] }) ∧
     unite 10 (construct 10) 0 1 = some (true,
        { pa := [0, 0, 2, 3, 4, 5, 6, 7, 8, 9], sz := [2, 1, 1, 1, 1, 1, 1, 1, 1, 1] })) ∧
    ∃ ri rj a b,
      (find 10 exampleState 1).map Prod.fst = some ri ∧
      (find 10 exampleState 9).map Prod.fst = some rj ∧
      exampleState.sz[ri]? = some a ∧ exampleState.sz[rj]? = some b ∧
      (ri ≠ rj → ∃ s1, unite 10 exampleState 1 9 = some (true, s1) ∧
        (b ≤ a →
          s1.pa[rj]? = some ri ∧ s1.pa[ri]? = some ri ∧ s1.sz[ri]? = some (a + b) ∧
          ∀ x, x < 10 →
            ((find 10 exampleState x).map Prod.fst = some ri ∨
              (find 10 exampleState x).map Prod.fst = some rj) →
            (find 10 s1 x).map Prod.fst = some ri) ∧
        (a < b →
          s1.pa[ri]? = some rj ∧ s1.pa[rj]? = some rj ∧ s1.sz[rj]? = some (a + b) ∧
          ∀ x, x < 10 →
            ((find 10 exampleState x).map Prod.fst = some ri ∨
              (find 10 exampleState x).map Prod.fst = some rj) →
            (find 10 s1 x).map Prod.fst = some rj)) :=
  ⟨by decide, unite_attaches_smaller_to_larger 10 exampleState exampleState_reachable 1 9
    (by decide) (by decide) 10 (by decide)⟩

end DSU

namespace DSU

/-- With enough fuel, `depth` is the number of parent links to the first root on the path:
a root sits at that distance, no root sits nearer, and it is at most any distance at
which a root is seen. -/
theorem depth_spec (s : DSU) (fuel : Nat) :
    ∀ (i k : Nat), parent s (follow s k i) = follow s k i → k ≤ fuel →
      parent s (follow s (depth s fuel i) i) = follow s (depth s fuel i) i ∧
      depth s fuel i ≤ k ∧
      ∀ m, m < depth s fuel i → parent s (follow s m i) ≠ follow s m i := by
  induction fuel with
  | zero =>
    intro i k hr hk
    have : k = 0 := by omega
    subst this
    exact ⟨hr, le_refl _, fun m hm => absurd hm (Nat.not_lt_zero m)⟩
  | succ fuel ih =>
    intro i k hr hk
    by_cases hroot : parent s i = i
    · have e : depth s (fuel + 1) i = 0 := by simp [depth, hroot]
      rw [e]
      exact ⟨hroot, Nat.zero_le _, fun m hm => absurd hm (Nat.not_lt_zero m)⟩
    · have e : depth s (fuel + 1) i = depth s fuel (parent s i) + 1 := by
        simp [depth, hroot]
      cases k with
      | zero => exact absurd hr hroot
      | succ k =>
        obtain ⟨h1, h2, h3⟩ := ih (parent s i) k hr (by omega)
        rw [e]
        refine ⟨h1, by omega, ?_⟩
        intro m hm
        cases m with
        | zero => exact hroot
        | succ m => exact h3 m (by omega)

/-- In a reachable state the potential of the invariant bounds the depth. -/
theorem Inv.depth_le {n : Nat} {s : DSU} {rep rank : Nat → Nat} (h : Inv n s rep rank)
    (fuel : Nat) : ∀ i, i < n → depth s fuel i + rank i ≤ rank (rep i) := by
  induction fuel with
  | zero =>
    intro i hi
    have := h.rank_le_rep n i hi (by omega)
    simpa [depth] using this
  | succ fuel ih =>
    intro i hi
    have hp := getElem?_parent (s := s) (i := i) (by rw [h.len_pa]; exact hi)
    by_cases hroot : parent s i = i
    · have := h.rank_le_rep n i hi (by omega)
      simpa [depth, hroot] using this
    · have e : depth s (fuel + 1) i = depth s fuel (parent s i) + 1 := by
        simp [depth, hroot]
      have h1 := h.rank_pa i _ hp hroot
      have h2 := ih (parent s i) (h.pa_lt i _ hp)
      rw [h.rep_pa i _ hp] at h2
      omega

theorem foldl_max_le {B : Nat} (g : Nat → Nat) (l : List Nat) :
    ∀ m0, m0 ≤ B → (∀ i, i ∈ l → g i ≤ B) → l.foldl (fun m i => max m (g i)) m0 ≤ B := by
  induction l with
  | nil => intro m0 h0 _; exact h0
  | cons a l ih =>
    intro m0 h0 hl
    apply ih
    · exact max_le h0 (hl a (List.mem_cons_self a l))
    · intro i hi
      exact hl i (List.mem_cons_of_mem a hi)

theorem le_foldl_max (g : Nat → Nat) (l : List Nat) :
    ∀ i, i ∈ l → ∀ m0, g i ≤ l.foldl (fun m x => max m (g x)) m0 := by
  have mono : ∀ (l : List Nat) (m0 : Nat), m0 ≤ l.foldl (fun m x => max m (g x)) m0 := by
    intro l
    induction l with
    | nil => intro m0; exact le_refl _
    | cons a l ih =>
      intro m0
      exact le_trans (le_max_left m0 (g a)) (ih (max m0 (g a)))
  induction l with
  | nil => intro i hi; exact absurd hi (List.not_mem_nil i)
  | cons a l ih =>
    intro i hi m0
    rcases List.mem_cons.mp hi with e | e
    · subst e
      exact le_trans (le_max_right m0 (g i)) (mono l (max m0 (g i)))
    · exact ih i e (max m0 (g a))

theorem Inv.height_le {n : Nat} {s : DSU} {rep rank : Nat → Nat} (h : Inv n s rep rank)
    (r : Nat) : height n s r ≤ rank r := by
  unfold height
  apply foldl_max_le
  · exact Nat.zero_le _
  · intro i hi
    obtain ⟨hi1, hi2⟩ := List.mem_filter.mp hi
    have hin : i < n := List.mem_range.mp hi1
    have hroot : rootOf n s i = r := of_decide_eq_true hi2
    have := h.depth_le n i hin
    rw [← h.tree_of_inv.rootOf_eq hin, hroot] at this
    omega

theorem Inv.rank_le_log {n : Nat} {s : DSU} {rep rank : Nat → Nat} (h : Inv n s rep rank)
    {i : Nat} (hi : i < n) : rank (rep i) ≤ Nat.log 2 n := by
  have h1 := h.pow_rank _ (h.rep_root i hi)
  have h2 := classSize_le rep n (rep i)
  exact (Nat.pow_le_iff_le_log (by decide) (by omega)).mp (le_trans h1 h2)

/-- C19: in a reachable state every root `r` satisfies `2 ^ height r ≤ sz[r]`, where
`height r` is the largest number of parent links from an element of the tree of `r` to
`r`; hence `find i` follows at most `⌊log2 n⌋` parent links (`depth` counts the links to
the root of `i`), and `find i` returns with `⌊log2 n⌋ + 1` nested calls. -/
theorem height_le_log_size (n : Nat) (s : DSU) (hs : Reachable n s) :
    (∀ r, r < n → parent s r = r → ∃ c, s.sz[r]? = some c ∧ 2 ^ height n s r ≤ c) ∧
    (∀ i, i < n →
      parent s (follow s (depth s n i) i) = follow s (depth s n i) i ∧
      (∀ m, m < depth s n i → parent s (follow s m i) ≠ follow s m i) ∧
      depth s n i ≤ height n s (rootOf n s i) ∧
      depth s n i ≤ Nat.log 2 n) ∧
    (∀ i fuel, i < n → Nat.log 2 n + 1 ≤ fuel → ∃ r s1, find fuel s i = some (r, s1)) := by
  obtain ⟨rep, rank, h⟩ := hs.inv
  have t := h.tree_of_inv
  have hdepth : ∀ i, i < n →
      parent s (follow s (depth s n i) i) = follow s (depth s n i) i ∧
      (∀ m, m < depth s n i → parent s (follow s m i) ≠ follow s m i) ∧
      depth s n i ≤ Nat.log 2 n := by
    intro i hi
    obtain ⟨k, hk, hrep⟩ := t.reach_rep_lt hi
    have hr : parent s (follow s k i) = follow s k i := by
      rw [hrep]; exact t.rep_root i hi
    obtain ⟨h1, _, h3⟩ := depth_spec s n i k hr (Nat.le_of_lt hk)
    have h4 := h.depth_le n i hi
    have h5 := h.rank_le_log hi
    exact ⟨h1, h3, by omega⟩
  refine ⟨?_, ?_, ?_⟩
  · intro r hr hroot
    have hroot1 : s.pa[r]? = some r := by
      rw [getElem?_parent (by rw [h.len_pa]; exact hr), hroot]
    refine ⟨_, h.sz_root r hroot1, ?_⟩
    exact le_trans (Nat.pow_le_pow_right (by decide) (h.height_le r)) (h.pow_rank r hroot1)
  · intro i hi
    obtain ⟨h1, h3, h5⟩ := hdepth i hi
    refine ⟨h1, h3, ?_, h5⟩
    unfold height
    have hmem : i ∈ (List.range n).filter (fun x => decide (rootOf n s x = rootOf n s i)) :=
      List.mem_filter.mpr ⟨List.mem_range.mpr hi, decide_eq_true rfl⟩
    exact le_foldl_max (depth s n) _ i hmem 0
  · intro i fuel hi hfuel
    obtain ⟨h1, _, h5⟩ := hdepth i hi
    exact find_some_of_reach h.len_pa t.pa_lt fuel hi h1 (by omega)

end DSU

namespace DSU

/-- C19 on the demonstration: in the example state the tree of root `0` has height `1`
and size `4`, `⌊log2 10⌋ = 3`, and `find 9` returns with four nested calls. -/
theorem height_le_log_size_witness :
    (height 10 exampleState 0 = 1 ∧ exampleState.sz[0]? = some 4 ∧
      depth exampleState 10 9 = 1) ∧
    (∃ c, exampleState.sz[0]? = some c ∧ 2 ^ height 10 exampleState 0 ≤ c) ∧
    depth exampleState 10 9 ≤ Nat.log 2 10 ∧
    (∃ r s1, find 4 exampleState 9 = some (r, s1)) :=
  ⟨by decide,
    (height_le_log_size 10 exampleState exampleState_reachable).1 0 (by decide) (by decide),
    ((height_le_log_size 10 exampleState exampleState_reachable).2.1 9 (by decide)).2.2.2,
    (height_le_log_size 10 exampleState exampleState_reachable).2.2 9 4 (by decide)
      (by
        have : Nat.log 2 10 < 4 := Nat.log_lt_of_lt_pow (by decide) (by decide)
        omega)⟩

end DSU

/-! ## Modular matrices: the 64-bit accumulator -/

namespace MatrixMod

/-- Under arithmetic exact on the values that occur, the accumulator before round `n` is
the residue of the partial dot product. -/
theorem accumulateTo_eq {ov : Int → Int} {MOD L A B : Int} {a ot : Matrix} {i j : Nat}
    (hM : 1 ≤ MOD) (hov : ExactOn ov L) (hL : A * B + (MOD - 1) ≤ L)
    (ha : ∀ k, k < a.C → 0 ≤ a.get i k ∧ a.get i k ≤ A)
    (hb : ∀ k, k < a.C → 0 ≤ ot.get k j ∧ ot.get k j ≤ B) :
    ∀ n, n ≤ a.C → accumulateTo ov MOD a ot i j n
      = ((List.range n).map (fun k => a.get i k * ot.get k j)).sum % MOD := by
  intro n
  unfold accumulateTo
  induction n with
  | zero => intro _; simp
  | succ n ih =>
    intro hn
    simp only [List.range_succ, List.foldl_append, List.foldl_cons, List.foldl_nil,
      List.map_append, List.map_cons, List.map_nil, List.sum_append, List.sum_cons,
      List.sum_nil, add_zero]
    rw [ih (by omega)]
    exact accumulate_step hM hov hL (ha n (by omega)) (hb n (by omega))

/-- Operands bounded by `A` and `B` with `A * B + (MOD - 1) < 2^63` keep every round of
`mul` inside the signed 64-bit range. -/
theorem stepsInRange_of_bounded {ov : Int → Int} {MOD L A B : Int} {a ot : Matrix}
    (hM : 1 ≤ MOD) (hov : ExactOn ov L) (hL : A * B + (MOD - 1) ≤ L) (hL1 : L < 2 ^ 63)
    (h : a.C = ot.R) (ha : a.Bounded A) (hb : ot.Bounded B) : StepsInRange ov MOD a ot := by
  intro i j k hi hj hk
  have hak := ha i k hi hk
  have hbk := hb k j (by rw [← h]; exact hk) hj
  have hxy0 : 0 ≤ a.get i k * ot.get k j := mul_nonneg hak.1 hbk.1
  have hxy1 : a.get i k * ot.get k j ≤ A * B :=
    mul_le_mul hak.2 hbk.2 hbk.1 (le_trans hak.1 hak.2)
  have hacc := accumulateTo_eq (i := i) (j := j) hM hov hL (fun t ht => ha i t hi ht)
    (fun t ht => hb t j (by rw [← h]; exact ht) hj) k (Nat.le_of_lt hk)
  have h0 := Int.emod_nonneg
    (((List.range k).map (fun t => a.get i t * ot.get t j)).sum) (by omega : MOD ≠ 0)
  have h1 := Int.emod_lt_of_pos
    (((List.range k).map (fun t => a.get i t * ot.get t j)).sum) (by omega : 0 < MOD)
  rw [hacc]
  exact ⟨⟨hxy0, by omega⟩, by omega, by omega⟩

/-- Two arithmetics that are exact on the values that occur compute the same product. -/
theorem mul_eq_of_exactOn {ov1 ov2 : Int → Int} {MOD L A B : Int} {a ot : Matrix}
    (hM : 1 ≤ MOD) (h1 : ExactOn ov1 L) (h2 : ExactOn ov2 L) (hL : A * B + (MOD - 1) ≤ L)
    (h : a.C = ot.R) (ha : a.Bounded A) (hb : ot.Bounded B) :
    mul ov1 MOD a ot = mul ov2 MOD a ot := by
  obtain ⟨p, hp, wp, pR, pC, gp, _⟩ := mul_spec hM h1 hL h ha hb
  obtain ⟨q, hq, wq, qR, qC, gq, _⟩ := mul_spec hM h2 hL h ha hb
  rw [hp, hq]
  congr 1
  apply Matrix.WF.ext wp wq (pR.trans qR.symm) (pC.trans qC.symm)
  intro i j hi hj
  rw [gp i j (by rw [← pR]; exact hi) (by rw [← pC]; exact hj),
    gq i j (by rw [← pR]; exact hi) (by rw [← pC]; exact hj)]

/-- Every multiplication inside the loop of `power` stays in the signed 64-bit range and
agrees with exact arithmetic, and so does the result of the loop. -/
theorem powerLoop_no_overflow {MOD : Int} {n : Nat} (hM : 1 ≤ MOD)
    (hB : MOD * (MOD - 1) < 2 ^ 63) (fuel : Nat) :
    ∀ (res b : Matrix) (k : Nat), k < fuel →
      res.R = n → res.C = n → b.R = n → b.C = n →
      res.Bounded (max 1 (MOD - 1)) → b.Reduced MOD →
      (∀ xy, xy ∈ powerMuls wrap64 MOD fuel res b k →
        StepsInRange wrap64 MOD xy.1 xy.2 ∧
        mul wrap64 MOD xy.1 xy.2 = mul exact MOD xy.1 xy.2) ∧
      powerLoop wrap64 MOD fuel res b k = powerLoop exact MOD fuel res b k := by
  have hw := exactOn_wrap64 hB
  have he := exactOn_exact (MOD * (MOD - 1))
  have hL := MatrixModAlg.bound_step hM
  have pair : ∀ (x y : Matrix), x.C = y.R → x.Bounded (max 1 (MOD - 1)) → y.Reduced MOD →
      StepsInRange wrap64 MOD x y ∧ mul wrap64 MOD x y = mul exact MOD x y := by
    intro x y hxy hx hy
    exact ⟨stepsInRange_of_bounded hM hw hL hB hxy hx (MatrixModAlg.Reduced.bounded hy),
      mul_eq_of_exactOn hM hw he hL hxy hx (MatrixModAlg.Reduced.bounded hy)⟩
  induction fuel with
  | zero => intro res b k hk; omega
  | succ fuel ih =>
    intro res b k hk rR rC bR bC hres hb
    by_cases hk0 : k = 0
    · subst hk0
      refine ⟨?_, by simp [powerLoop]⟩
      intro xy hxy
      simp [powerMuls] at hxy
    · have hpos : 0 < k := Nat.pos_of_ne_zero hk0
      have hbb := MatrixModAlg.Bounded.weaken (MatrixModAlg.Reduced.bounded hb)
        (le_max_right 1 (MOD - 1))
      obtain ⟨b1, hb1, _, b1R, b1C, b1red, _, _⟩ :=
        MatrixModAlg.mul_square hM hw bR bC bR bC hbb hb
      have pbb := pair b b (bC.trans bR.symm) hbb hb
      have hb1e : mul exact MOD b b = some b1 := by rw [← pbb.2]; exact hb1
      by_cases hodd : k % 2 = 1
      · obtain ⟨r1, hr1, _, r1R, r1C, r1red, _, _⟩ :=
          MatrixModAlg.mul_square hM hw rR rC bR bC hres hb
        have prb := pair res b (rC.trans bR.symm) hres hb
        have hr1e : mul exact MOD res b = some r1 := by rw [← prb.2]; exact hr1
        obtain ⟨ih1, ih2⟩ := ih r1 b1 (k / 2) (by omega) r1R r1C b1R b1C
          (MatrixModAlg.Bounded.weaken (MatrixModAlg.Reduced.bounded r1red)
            (le_max_right 1 (MOD - 1))) b1red
        refine ⟨?_, by simp [powerLoop, hpos, hodd, hr1, hb1, hr1e, hb1e, ih2]⟩
        intro xy hxy
        simp only [powerMuls, hpos, hodd, hr1, hb1, if_true, List.singleton_append,
          List.mem_cons] at hxy
        rcases hxy with e | e | e
        · rw [e]; exact prb
        · rw [e]; exact pbb
        · exact ih1 xy e
      · have heven : k % 2 = 0 := by omega
        obtain ⟨ih1, ih2⟩ := ih res b1 (k / 2) (by omega) rR rC b1R b1C hres b1red
        refine ⟨?_, by simp [powerLoop, hpos, heven, hb1, hb1e, ih2]⟩
        intro xy hxy
        simp only [powerMuls, hpos, heven, hb1, if_true, List.nil_append,
          List.mem_cons] at hxy
        simp only [Nat.zero_ne_one, if_false, List.nil_append, List.mem_cons] at hxy
        rcases hxy with e | e
        · rw [e]; exact pbb
        · exact ih1 xy e

end MatrixMod

namespace MatrixMod

theorem bound_of_le_two_pow {MOD : Int} (hM : 1 ≤ MOD) (hB : MOD ≤ 2 ^ 31) :
    MOD * (MOD - 1) < 2 ^ 63 := by
  have h1 : MOD * (MOD - 1) ≤ 2 ^ 31 * (2 ^ 31 - 1) :=
    mul_le_mul hB (by omega) (by omega) (by norm_num)
  have h2 : (2 : Int) ^ 31 * (2 ^ 31 - 1) < 2 ^ 63 := by norm_num
  omega

/-- C20: for every modulus `1 ≤ MOD ≤ 2^31`, dimension-compatible well-formed operands
`a`, `b` with entries in `[0, MOD)` and every round `(i, j, k)` of the triple loop of
`mul`, the product `a[i][k] * b[k][j]` and the sum `res[i][j] + a[i][k] * b[k][j]` lie in
`[0, 2^63)`, so `mul` in 64-bit wrap-around arithmetic equals `mul` over unbounded
integers; the same holds for every multiplication performed inside `power m k` for a
well-formed square `m` with entries in `[0, MOD)`, and so for the result of `power`. -/
theorem accumulator_never_overflows (MOD : Int) (a b m : Matrix) (k : Nat) (hM : 1 ≤ MOD)
    (hB : MOD ≤ 2 ^ 31) (_wa : a.WF) (_wb : b.WF) (h : a.C = b.R)
    (ha : a.Reduced MOD) (hb : b.Reduced MOD)
    (_wm : m.WF) (hsq : m.R = m.C) (hm : m.Reduced MOD) :
    (StepsInRange wrap64 MOD a b ∧ mul wrap64 MOD a b = mul exact MOD a b) ∧
    (∀ xy, xy ∈ powerMuls wrap64 MOD (k + 1) (identity m.R) m k →
      StepsInRange wrap64 MOD xy.1 xy.2 ∧
      mul wrap64 MOD xy.1 xy.2 = mul exact MOD xy.1 xy.2) ∧
    power wrap64 MOD m k = power exact MOD m k := by
  have hB1 := bound_of_le_two_pow hM hB
  have hw := exactOn_wrap64 hB1
  have hL : (MOD - 1) * (MOD - 1) + (MOD - 1) ≤ MOD * (MOD - 1) := by
    have : (MOD - 1) * (MOD - 1) + (MOD - 1) = MOD * (MOD - 1) := by ring
    omega
  obtain ⟨_, iR, iC, _⟩ := identity_eq m.R
  obtain ⟨t1, t2⟩ := powerLoop_no_overflow (n := m.R) hM hB1 (k + 1) (identity m.R) m k
    (by omega) iR iC rfl hsq.symm
    (MatrixModAlg.Bounded.weaken (MatrixModAlg.identity_bounded m.R) (le_max_left _ _)) hm
  refine ⟨⟨?_, ?_⟩, t1, ?_⟩
  · exact stepsInRange_of_bounded hM hw hL hB1 h (MatrixModAlg.Reduced.bounded ha)
      (MatrixModAlg.Reduced.bounded hb)
  · exact mul_eq_of_exactOn hM hw (exactOn_exact _) hL h (MatrixModAlg.Reduced.bounded ha)
      (MatrixModAlg.Reduced.bounded hb)
  · unfold power
    rw [if_pos hsq, if_pos hsq]
    exact t2

set_option maxRecDepth 100000 in
/-- C20 on the demonstration: with `MOD = 10^9 + 7`, `A * B` and the six multiplications
inside `T.power(9)`. -/
theorem accumulator_never_overflows_witness :
    (powerMuls wrap64 1000000007 (9 + 1) (identity exampleT.R) exampleT 9).length = 6 ∧
    (StepsInRange wrap64 1000000007 exampleA exampleB ∧
      mul wrap64 1000000007 exampleA exampleB = mul exact 1000000007 exampleA exampleB) ∧
    (∀ xy, xy ∈ powerMuls wrap64 1000000007 (9 + 1) (identity exampleT.R) exampleT 9 →
      StepsInRange wrap64 1000000007 xy.1 xy.2 ∧
      mul wrap64 1000000007 xy.1 xy.2 = mul exact 1000000007 xy.1 xy.2) ∧
    power wrap64 1000000007 exampleT 9 = power exact 1000000007 exampleT 9 :=
  ⟨by decide, accumulator_never_overflows 1000000007 exampleA exampleB exampleT 9
    (by decide) (by decide) exampleA_wf exampleB_wf rfl exampleA_reduced exampleB_reduced
    exampleT_wf rfl exampleT_reduced⟩

end MatrixMod
